import Mathlib

/-! # vermin-debundler: bundle reader and hash lookup

A shallow embedding of `src/bundle_reader.c`, `src/hash_lookup.c` and the parts of
`src/util.c` / `src/util.h` they rely on, followed by theorems about the embedding.

Modelling conventions.

* A byte is a `Fin 256`; a regular file is the list of its bytes.  A `FILE*` is the
  file's bytes together with the stream's offset and end-of-file indicator.
* `uint32_t` / `uint64_t` values are natural numbers; a conversion that can truncate
  is written with an explicit `% 2 ^ 32`.  `long` is 64 bits wide (LP64), so the
  `long position` of `br_read_blobs`, which never exceeds `2 ^ 33 + 2`, is a natural
  number without wrap-around.
* Raw word reads (`*(uint32_t*)ptr`) are little-endian.
* A C function that can terminate the process (`util_assert` calls `exit`) or run
  into undefined behaviour returns an `Exec`.
* The singly linked lists (`next` pointers) are Lean lists; `NULL` is `[]`.
* `malloc` and `fopen` are inputs of the model: each call site takes the outcome of
  the call as an argument.  So are the C library's `qsort` and `bsearch`, the hash
  function `MurmurHash64A` and zlib's `inflateInit` and `inflate`, whose code is
  not part of the repository.
-/

namespace Vermin

/-! ## util.h -/

/-- One byte of a file or of a buffer. -/
abbrev Byte := Fin 256

def EC_OK : Int := 0
def EC_MEMORY_ERROR : Int := -1
def EC_IO_ERROR : Int := -2
def EC_BAD_SIGNATURE : Int := -3
def EC_NONZERO_PADDING : Int := -4
def EC_SIZE_MISMATCH : Int := -5
def EC_NOT_FOUND : Int := -6

/-- The value of `EXIT_FAILURE` from `<stdlib.h>`. -/
def EXIT_FAILURE : Nat := 1

/-- Outcome of running a C function.
* `returns a`: the function returned to its caller with result `a`;
* `exits status`: the process was terminated by `exit(status)` inside the call,
  nothing is returned to the caller;
* `undefined`: the call ran into undefined behaviour (a `NULL` dereference, a read
  of uninitialised memory, a signed overflow);
* `outOfFuel`: the loop budget of the embedding was used up (shown not to happen
  for the budget the embedding passes). -/
inductive Exec (α : Type) where
  | returns (a : α)
  | exits (status : Nat)
  | undefined
  | outOfFuel
  deriving DecidableEq, Repr

/-- Apply a function to the returned value, keeping the other outcomes. -/
def Exec.map {α β : Type} (f : α → β) : Exec α → Exec β
  | .returns a => .returns (f a)
  | .exits s => .exits s
  | .undefined => .undefined
  | .outOfFuel => .outOfFuel

/-- `util_assert`: returns when `condition` holds, otherwise prints a message and
calls `exit(EXIT_FAILURE)`. -/
def util_assert (condition : Bool) : Exec Unit :=
  if !condition then .exits EXIT_FAILURE else .returns ()

/-! ## stdio streams -/

/-- An open `FILE*` on a regular file: the bytes of the file, the offset and the
end-of-file indicator.  Reads of a regular file fail only by reaching its end,
except where a call site takes a read error as an input. -/
structure FILE where
  bytes : List Byte
  pos : Nat
  eof : Bool
  deriving DecidableEq, Repr

/-- `fseek(fp, offset, SEEK_SET)`; clears the end-of-file indicator. -/
def fseek_set (fp : FILE) (offset : Nat) : FILE := { fp with pos := offset, eof := false }

/-- `fseek(fp, offset, SEEK_CUR)` with a non-negative offset. -/
def fseek_cur (fp : FILE) (offset : Nat) : FILE :=
  { fp with pos := fp.pos + offset, eof := false }

/-- `fread(buffer, size, 1, fp)`: the number of complete items read (0 or 1), the
item, and the stream afterwards.  A short read consumes what is left and sets the
end-of-file indicator. -/
def fread1 (size : Nat) (fp : FILE) : Nat × List Byte × FILE :=
  if fp.pos + size ≤ fp.bytes.length then
    (1, (fp.bytes.drop fp.pos).take size, { fp with pos := fp.pos + size })
  else
    (0, fp.bytes.drop fp.pos, { fp with pos := max fp.pos fp.bytes.length, eof := true })

/-- The bytes of `line` up to and including the first `'\n'` (all of it when there
is none). -/
def takeLine : List Byte → List Byte
  | [] => []
  | c :: rest => if c = 10 then [c] else c :: takeLine rest

/-- `fgets(buffer, n, fp)` for `n ≥ 2`: at most `n - 1` bytes, stopping after a
newline.  `none` is the `NULL` result at the end of the file.  The end-of-file
indicator is set when the read runs into the end of the file. -/
def fgets (n : Nat) (fp : FILE) : Option (List Byte) × FILE :=
  let line := takeLine ((fp.bytes.drop fp.pos).take (n - 1))
  if line = [] then (none, { fp with eof := true })
  else
    (some line,
      { fp with pos := fp.pos + line.length,
                eof := fp.eof || (line.length < n - 1 && line.getLast? != some 10) })

/-- The C string held by a buffer: the bytes before the first NUL. -/
def cstr (buffer : List Byte) : List Byte := buffer.takeWhile (fun c => c != 0)

/-- `strrchr(s, c)` on a C string, for `c ≠ 0`: the index of the last occurrence
of `c`, `none` for `NULL`. -/
def strrchr (s : List Byte) (c : Byte) : Option Nat :=
  if c ∈ cstr s then some ((cstr s).length - 1 - (cstr s).reverse.indexOf c) else none

/-- `to_uint32(ptr)`: the 32-bit word stored at the start of a buffer. -/
def to_uint32 (buffer : List Byte) : Nat :=
  (buffer.getD 0 0).val + 2 ^ 8 * (buffer.getD 1 0).val
    + 2 ^ 16 * (buffer.getD 2 0).val + 2 ^ 24 * (buffer.getD 3 0).val

/-- `to_uint64(ptr)`: the 64-bit word stored at the start of a buffer. -/
def to_uint64 (buffer : List Byte) : Nat :=
  to_uint32 buffer + 2 ^ 32 * to_uint32 (buffer.drop 4)

/-! ## hash_lookup.h -/

/-- `HashTuple` without its `next` pointer: the text (the bytes before the
terminating NUL of `char text[256]`) and its hash. -/
structure HashTuple where
  text : List Byte
  hash : Nat
  deriving DecidableEq, Repr

/-- `HashLookup`: `list` is the linked list of tuples, `array` is `none` for a
`NULL` pointer and otherwise the tuples the array's slots point to. -/
structure HashLookup where
  count : Int
  is_dirty : Int
  list : List HashTuple
  array : Option (List HashTuple)
  deriving DecidableEq, Repr

/-! ## bundle_reader.h -/

inductive VermintideGame where
  | GAME_VT1
  | GAME_VT2
  deriving DecidableEq, Repr

def BR_SIGNATURE_V1 : Nat := 0xF0000004
def BR_SIGNATURE_V2 : Nat := 0xF0000005
def BR_HEADER_SIZE : Nat := 0xC

/-- `BundleBlob` without its `next` pointer. -/
structure BundleBlob where
  size : Nat
  position : Nat
  deriving DecidableEq, Repr

/-- `BundleItem` without its `next` pointer. -/
structure BundleItem where
  name_hash : Nat
  type_hash : Nat
  deriving DecidableEq, Repr

/-- `BundleReader`.  `path` and `fp` are `none` for `NULL`; the memory behind them
is not tracked after `free` / `fclose`. -/
structure BundleReader where
  path : Option String
  fp : Option FILE
  lookup : Option HashLookup
  blob_count : Int
  blobs : List BundleBlob
  item_count : Int
  items : List BundleItem
  game : VermintideGame
  signature : Nat
  file_size : Nat
  unzip_size : Nat
  padding : Nat
  deriving DecidableEq, Repr

/-! ## bundle_reader.c -/

/-- `brP_read_uint32`: read a `uint32` from a file; the `ASSERT` on `fread`
terminates the process when fewer than four bytes are left. -/
def brP_read_uint32 (fp : FILE) : Exec (Nat × FILE) :=
  match fread1 4 fp with
  | (n, buffer, fp1) =>
    match util_assert (n != 0) with
    | .returns () => .returns (to_uint32 buffer, fp1)
    | .exits s => .exits s
    | .undefined => .undefined
    | .outOfFuel => .outOfFuel

/-- `br_destroy_blobs`: free the blob list and set `br->blobs = NULL`. -/
def br_destroy_blobs (br : BundleReader) : BundleReader := { br with blobs := [] }

/-- `br_close`: frees `path`, closes `fp` and destroys the blobs.  The two pointers
keep their (dangling) values. -/
def br_close (br : BundleReader) : BundleReader := br_destroy_blobs br

/-- `br_verify_signature`. -/
def br_verify_signature (br : BundleReader) : Bool :=
  match br.game with
  | .GAME_VT1 => BR_SIGNATURE_V1 == br.signature
  | .GAME_VT2 => BR_SIGNATURE_V2 == br.signature

/-- `br_open`.  `br` is the caller's structure as it is on entry, `fopen_result` is
what `fopen(path, "rb")` delivers (`none`: the file cannot be opened, `some bytes`:
the file's contents) and `malloc_ok` tells whether the `malloc` of the path copy
succeeds.  Returns the error code and the structure afterwards. -/
def br_open (br : BundleReader) (path : String) (fopen_result : Option (List Byte))
    (malloc_ok : Bool) (game : VermintideGame) : Exec (Int × BundleReader) :=
  let br := { br with blobs := [] }
  let br := { br with fp := fopen_result.map (fun bytes => FILE.mk bytes 0 false) }
  let br := { br with path := if malloc_ok then some "" else none }
  match br.fp with
  | none => .returns (EC_IO_ERROR, br_close br)
  | some fp =>
    if br.path = none then .returns (EC_MEMORY_ERROR, br_close br) else
    -- Copy misc data
    let br := { br with path := some path, game := game, blob_count := 0,
                        blobs := [], lookup := none }
    -- Get the file size (`ftell` is stored into a `uint32_t`)
    let br := { br with file_size := fp.bytes.length % 2 ^ 32 }
    let fp := fseek_set fp 0
    -- Read header
    match brP_read_uint32 fp with
    | .exits s => .exits s
    | .undefined => .undefined
    | .outOfFuel => .outOfFuel
    | .returns (signature, fp) =>
    match brP_read_uint32 fp with
    | .exits s => .exits s
    | .undefined => .undefined
    | .outOfFuel => .outOfFuel
    | .returns (unzip_size, fp) =>
    match brP_read_uint32 fp with
    | .exits s => .exits s
    | .undefined => .undefined
    | .outOfFuel => .outOfFuel
    | .returns (padding, fp) =>
    let br := { br with fp := some fp, signature := signature,
                        unzip_size := unzip_size, padding := padding }
    -- Sanity checks
    if !br_verify_signature br then .returns (EC_BAD_SIGNATURE, br_close br)
    else if 0 ≠ br.padding then .returns (EC_NONZERO_PADDING, br_close br)
    else .returns (EC_OK, br)

/-- The `while` loop of `br_read_blobs` together with the code after it.
`malloc_ok i` tells whether the `i`-th `malloc` from now on succeeds;
`prev_is_head` tells whether `prev` still is `&(br->blobs)` (otherwise it is the
`next` field of the last blob of `br->blobs`); `fuel` bounds the iterations. -/
def br_read_blobs_loop (malloc_ok : Nat → Bool) (fuel : Nat) (br : BundleReader)
    (fp : FILE) (prev_is_head : Bool) (size_sum position : Nat) :
    Exec (Int × BundleReader) :=
  match fuel with
  | 0 => .outOfFuel
  | fuel + 1 =>
    if position < br.file_size then
      -- Read the size and skip over the blob
      match brP_read_uint32 fp with
      | .exits s => .exits s
      | .undefined => .undefined
      | .outOfFuel => .outOfFuel
      | .returns (size, fp) =>
        let position := position + 4
        let fp := fseek_cur fp size
        let br := { br with fp := some fp }
        -- Add it to the list
        if !malloc_ok 0 then .returns (EC_MEMORY_ERROR, br_destroy_blobs br) else
        let blob : BundleBlob := { position := position, size := size }
        let br := { br with
          blobs := if prev_is_head then [blob] else br.blobs ++ [blob],
          blob_count := br.blob_count + 1 }
        -- Update position and total size
        br_read_blobs_loop (fun i => malloc_ok (i + 1)) fuel br fp false
          ((size_sum + size) % 2 ^ 32) (position + size)
    else
      -- Sanity check: we have consumed all the file
      if position ≠ br.file_size then .returns (EC_SIZE_MISMATCH, br_destroy_blobs br)
      else .returns (EC_OK, br)

/-- `br_read_blobs`: read the blob locations.  A `NULL` stream is undefined
behaviour.  Every iteration moves `position` forward by at least four bytes, so
`file_size + 1` iterations are more than the loop can make. -/
def br_read_blobs (malloc_ok : Nat → Bool) (br : BundleReader) : Exec (Int × BundleReader) :=
  match br.fp with
  | none => .undefined
  | some fp =>
    let position := BR_HEADER_SIZE
    let fp := fseek_set fp position
    br_read_blobs_loop malloc_ok (br.file_size + 1) { br with fp := some fp } fp true 0 position

/-! ## hash_lookup.c -/

/-- The value of `INT_MAX` for a 32-bit `int`. -/
def INT_MAX : Int := 2 ^ 31 - 1

/-- `htuple_new`: allocate a tuple, copy the text and hash it with seed 0.
`MurmurHash64A key seed` stands for the hash function of `MurmurHash2.h`; its
result is a `uint64_t`.  `none` is the `NULL` result of a failed `malloc`. -/
def htuple_new (MurmurHash64A : List Byte → Nat → Nat) (malloc_ok : Bool)
    (text : List Byte) : Option HashTuple :=
  if !malloc_ok then none
  else some { text := cstr text, hash := MurmurHash64A (cstr text) 0 % 2 ^ 64 }

/-- `htuple_prepend`: create a tuple and chain it in front of a list. -/
def htuple_prepend (MurmurHash64A : List Byte → Nat → Nat) (malloc_ok : Bool)
    (list : List HashTuple) (text : List Byte) : Int × List HashTuple :=
  match htuple_new MurmurHash64A malloc_ok text with
  | none => (EC_MEMORY_ERROR, list)
  | some tuple => (EC_OK, tuple :: list)

/-- `htuple_comp`: compare two tuples according to hash value. -/
def htuple_comp (ht1 ht2 : HashTuple) : Int :=
  if ht1.hash > ht2.hash then 1 else if ht1.hash < ht2.hash then -1 else 0

/-- `hl_initialize`: every field is overwritten; returns 0. -/
def hl_initialize (_hl : HashLookup) : Int × HashLookup :=
  (0, { count := 0, is_dirty := 0, list := [], array := none })

/-- The `while (1)` loop of `hl_read_from_file`.  `fgets_error i` tells whether
the `i`-th `fgets` from now on fails with a read error (it then returns `NULL`
without the end-of-file indicator), `malloc_ok i` whether the `i`-th `malloc`
succeeds.  The result is `(count, list, first, in)` at the `break`.  `first` is
the tuple created first, the last node of `list`. -/
def hl_read_from_file_loop (MurmurHash64A : List Byte → Nat → Nat)
    (fgets_error malloc_ok : Nat → Bool) (fuel : Nat) (inp : FILE) (count : Int)
    (list : List HashTuple) (first : Option HashTuple) :
    Exec (Int × List HashTuple × Option HashTuple × FILE) :=
  match fuel with
  | 0 => .outOfFuel
  | fuel + 1 =>
    -- Read the next line
    if fgets_error 0 then .returns (-1, list, first, inp) else
    match fgets 256 inp with
    | (none, inp) =>
      if inp.eof then .returns (count, list, first, inp)
      else .returns (-1, list, first, inp)
    | (some buffer, inp) =>
      -- Chomp, or fail if we cant
      let chomped : Option (List Byte) :=
        match strrchr buffer 10 with
        | none => if !inp.eof then none else some buffer
        | some nl => some ((cstr buffer).take nl)
      match chomped with
      | none => .returns (-1, list, first, inp)
      | some buffer =>
        match htuple_prepend MurmurHash64A (malloc_ok 0) list buffer with
        | (ret, list) =>
          if 0 ≠ ret then .returns (-1, list, first, inp) else
          let first := if first.isNone then list.head? else first
          if count + 1 > INT_MAX then .undefined else
          hl_read_from_file_loop MurmurHash64A (fun i => fgets_error (i + 1))
            (fun i => malloc_ok (i + 1)) fuel inp (count + 1) list first

/-- `hl_read_from_file`: reads hashes from a file.  Every iteration that does not
`break` consumes at least one byte, so `length + 1` iterations are more than the
loop can make.  `first->next = hl->list` with `first == NULL` (no line was read)
dereferences a null pointer. -/
def hl_read_from_file (MurmurHash64A : List Byte → Nat → Nat)
    (fgets_error malloc_ok : Nat → Bool) (hl : HashLookup) (inp : FILE) :
    Exec (Int × HashLookup) :=
  match hl_read_from_file_loop MurmurHash64A fgets_error malloc_ok
      (inp.bytes.length + 1) inp 0 [] none with
  | .exits s => .exits s
  | .undefined => .undefined
  | .outOfFuel => .outOfFuel
  | .returns (count, list, first, _) =>
    -- If there was an error, free the new list.
    if count < 0 then .returns (count, hl)
    else
      match first with
      | none => .undefined
      | some _ =>
        if hl.count + count > INT_MAX then .undefined
        else .returns (count,
          { hl with list := list ++ hl.list, is_dirty := 1, count := hl.count + count })

/-- The two C library functions `hash_lookup.c` calls, as used there (elements are
tuples, the comparison function is an argument).  `bsearch` returns the tuple the
found slot points to, `none` for `NULL`. -/
structure Libc where
  qsort : List HashTuple → (HashTuple → HashTuple → Int) → List HashTuple
  bsearch : HashTuple → List HashTuple → (HashTuple → HashTuple → Int) → Option HashTuple

/-- What ISO C promises about `qsort` and `bsearch`, for the comparison function
`htuple_comp`: `qsort` permutes the array into ascending order; on an array in
ascending order `bsearch` returns a member that compares equal to the key, and
`NULL` only when there is none. -/
def Libc.Conforms (libc : Libc) : Prop :=
  (∀ base : List HashTuple,
      (libc.qsort base htuple_comp).Perm base ∧
      (libc.qsort base htuple_comp).Pairwise (fun a b => htuple_comp a b ≤ 0)) ∧
  (∀ (key : HashTuple) (base : List HashTuple),
      base.Pairwise (fun a b => htuple_comp a b ≤ 0) →
      (∀ t, libc.bsearch key base htuple_comp = some t → t ∈ base ∧ htuple_comp key t = 0) ∧
      (libc.bsearch key base htuple_comp = none → ∀ t ∈ base, htuple_comp key t ≠ 0))

/-- `hl_force_rebuild`: create an array from a list.  `malloc_ok` tells whether the
`malloc` of the array succeeds.  The array has `count` slots and the loop stores
one pointer per list node: with `count` different from the length of the list the
loop writes past the array or `qsort` reads slots never written. -/
def hl_force_rebuild (libc : Libc) (malloc_ok : Bool) (hl : HashLookup) :
    Exec (Int × HashLookup) :=
  if hl.is_dirty = 0 then .returns (0, hl) else
  let hl := { hl with array := if malloc_ok then some [] else none }
  if hl.array = none then .returns (EC_MEMORY_ERROR, hl) else
  if hl.count ≠ hl.list.length then .undefined else
  let hl := { hl with array := some hl.list }
  let hl := { hl with array := some (libc.qsort hl.list htuple_comp) }
  let hl := { hl with is_dirty := 0 }
  .returns (1, hl)

/-- The bytes of the string `"<needle>"`. -/
def needle : List Byte := [60, 110, 101, 101, 100, 108, 101, 62]

/-- `hl_find`: find the inverse of a hash.  `text` is the caller's `*text` on
entry; the result is the return code, the table and `*text` afterwards.  `bsearch`
looks at the first `count` slots of the array; a `NULL` array is only passed with
`count == 0`. -/
def hl_find (libc : Libc) (malloc_ok : Bool) (hl : HashLookup) (hash : Nat)
    (text : List Byte) : Exec (Int × HashLookup × List Byte) :=
  let rebuilt : Exec (Option Int × HashLookup) :=
    if hl.is_dirty ≠ 0 then
      match hl_force_rebuild libc malloc_ok hl with
      | .returns (ret, hl) => .returns (if EC_OK > ret then some ret else none, hl)
      | .exits s => .exits s
      | .undefined => .undefined
      | .outOfFuel => .outOfFuel
    else .returns (none, hl)
  match rebuilt with
  | .exits s => .exits s
  | .undefined => .undefined
  | .outOfFuel => .outOfFuel
  | .returns (some ret, hl) => .returns (ret, hl, text)
  | .returns (none, hl) =>
    let tup : HashTuple := { text := needle, hash := hash }
    let base : Option (List HashTuple) :=
      match hl.array with
      | none => if hl.count = 0 then some [] else none
      | some array =>
        if 0 ≤ hl.count ∧ hl.count ≤ array.length then some (array.take hl.count.toNat)
        else none
    match base with
    | none => .undefined
    | some base =>
      match libc.bsearch tup base htuple_comp with
      | none => .returns (EC_NOT_FOUND, hl, text)
      | some found => .returns (EC_OK, hl, found.text)

/-! ## A C library

An implementation of `qsort` and `bsearch` to run the embedding on concrete
inputs: an insertion sort, and the binary search loop of the usual C libraries. -/

/-- The loop of a binary search over the slots `l ≤ idx < u` of `base`. -/
def bsearch_loop (key : HashTuple) (base : List HashTuple)
    (compar : HashTuple → HashTuple → Int) : Nat → Nat → Nat → Option HashTuple
  | 0, _, _ => none
  | fuel + 1, l, u =>
    if l < u then
      let idx := (l + u) / 2
      match base[idx]? with
      | none => none
      | some p =>
        let comparison := compar key p
        if comparison < 0 then bsearch_loop key base compar fuel l idx
        else if comparison > 0 then bsearch_loop key base compar fuel (idx + 1) u
        else some p
    else none

/-- A C library: insertion sort and binary search. -/
def stdlib : Libc where
  qsort := fun base compar => base.insertionSort (fun a b => compar a b ≤ 0)
  bsearch := fun key base compar => bsearch_loop key base compar (base.length + 1) 0 base.length

/-! ## Output: printf conversions

The output stream of `fprintf` / `fputc` is the list of the bytes written so far. -/

/-- The character of a digit below 16: `0`..`9`, then `a`..`f`. -/
def digit_char (d : Nat) : Byte := if d < 10 then Fin.ofNat (48 + d) else Fin.ofNat (87 + d)

/-- The digits of `n` in `base`, most significant first, in front of `acc`; no
digit for 0.  `fuel` bounds the number of digits. -/
def digits_be (base : Nat) : Nat → Nat → List Nat → List Nat
  | 0, _, acc => acc
  | fuel + 1, n, acc =>
    if n = 0 then acc else digits_be base fuel (n / base) (n % base :: acc)

/-- The conversions `%u` (base 10) and `%x` (base 16) without a width: the digits
of `n`, `0` for zero.  A number has no more digits than its value. -/
def print_unsigned (base n : Nat) : List Byte :=
  if n = 0 then [48] else (digits_be base n n []).map digit_char

/-- The conversion `%016x` of a 64-bit value: its hexadecimal digits, padded with
zeros on the left to a width of at least 16. -/
def printf_016x (n : Nat) : List Byte :=
  List.replicate (16 - (print_unsigned 16 n).length) 48 ++ print_unsigned 16 n

/-- The conversion `%i` applied to a `uint32_t`: the word read as a 32-bit `int`. -/
def printf_i (n : Nat) : List Byte :=
  if (n : Int) ≤ INT_MAX then print_unsigned 10 n else 45 :: print_unsigned 10 (2 ^ 32 - n)

/-! ## hash_lookup.c: writing -/

/-- `htuple_write`: write a tuple to a file, with a trailing newline
(`"%016" PRIx64 " %s\n"`). -/
def htuple_write (ht : HashTuple) (out : List Byte) : List Byte :=
  out ++ (printf_016x ht.hash ++ [32] ++ ht.text ++ [10])

/-- The `for` loop of `hl_write_to_file`, `remaining` iterations from index `i`.
Reading a slot of a `NULL` array or past the array is undefined. -/
def hl_write_to_file_loop (array : Option (List HashTuple)) :
    Nat → Nat → List Byte → Exec (List Byte)
  | 0, _, out => .returns out
  | remaining + 1, i, out =>
    match array with
    | none => .undefined
    | some slots =>
      match slots[i]? with
      | none => .undefined
      | some ht => hl_write_to_file_loop array remaining (i + 1) (htuple_write ht out)

/-- `hl_write_to_file`: dumps the lookup table to a file.  The result is the return
code, the table and the output stream afterwards. -/
def hl_write_to_file (libc : Libc) (malloc_ok : Bool) (hl : HashLookup) (out : List Byte) :
    Exec (Int × HashLookup × List Byte) :=
  let rebuilt : Exec (Option Int × HashLookup) :=
    if hl.is_dirty ≠ 0 then
      match hl_force_rebuild libc malloc_ok hl with
      | .returns (ret, hl) => .returns (if EC_OK > ret then some ret else none, hl)
      | .exits s => .exits s
      | .undefined => .undefined
      | .outOfFuel => .outOfFuel
    else .returns (none, hl)
  match rebuilt with
  | .exits s => .exits s
  | .undefined => .undefined
  | .outOfFuel => .outOfFuel
  | .returns (some ret, hl) => .returns (ret, hl, out)
  | .returns (none, hl) =>
    match hl_write_to_file_loop hl.array hl.count.toNat 0 out with
    | .returns out => .returns (EC_OK, hl, out)
    | .exits s => .exits s
    | .undefined => .undefined
    | .outOfFuel => .outOfFuel

/-! ## bundle_reader.c: the index -/

/-- `print_hash`: print the text of a hash when the table knows it, the hash in
hexadecimal otherwise.  `hl` is the table behind the pointer (`none` for `NULL`,
which `hl_find` dereferences). -/
def print_hash (libc : Libc) (malloc_ok : Bool) (out : List Byte) (hl : Option HashLookup)
    (hash : Nat) : Exec (List Byte × Option HashLookup) :=
  match hl with
  | none => .undefined
  | some hl =>
    match hl_find libc malloc_ok hl hash [] with
    | .returns (ret, hl, text) =>
      if EC_OK = ret then .returns (out ++ text, some hl)
      else .returns (out ++ print_unsigned 16 hash, some hl)
    | .exits s => .exits s
    | .undefined => .undefined
    | .outOfFuel => .outOfFuel

/-- `to_uint64(base + offset)` on the decompressed data `out_buffer`, `index` being
the distance of the address from the start of the buffer.  A read that is not
within the bytes `util_inflate` produced is undefined. -/
def read_uint64 (out_buffer : List Byte) (index : Int) : Exec Nat :=
  if 0 ≤ index ∧ index + 8 ≤ out_buffer.length then
    .returns (to_uint64 (out_buffer.drop index.toNat))
  else .undefined

/-- The conversion of an `unsigned` value to `int` (modulo 2 ^ 32). -/
def to_int (n : Nat) : Int :=
  if (n % 2 ^ 32 : Nat) ≤ (2 ^ 31 - 1 : Nat) then ((n % 2 ^ 32 : Nat) : Int)
  else ((n % 2 ^ 32 : Nat) : Int) - 2 ^ 32

/-- `hash_block_size` of `br_dump_index`: the stride of the records. -/
def hash_block_size (game : VermintideGame) : Nat :=
  if game = .GAME_VT1 then 0x10 else 0x14

/-- The reads of one iteration of the loop of `br_dump_index`: `type_hash` and
`name_hash` of record `i`.  `offset` is an `int` computed from an `unsigned`
product. -/
def br_dump_index_entry (game : VermintideGame) (out_buffer : List Byte) (i : Nat) :
    Exec (Nat × Nat) :=
  let offset : Int := to_int (hash_block_size game * i)
  -- Read the hashes
  match read_uint64 out_buffer (0x104 + offset + 0x0) with
  | .exits s => .exits s
  | .undefined => .undefined
  | .outOfFuel => .outOfFuel
  | .returns type_hash =>
  match read_uint64 out_buffer (0x104 + offset + 0x8) with
  | .exits s => .exits s
  | .undefined => .undefined
  | .outOfFuel => .outOfFuel
  | .returns name_hash => .returns (type_hash, name_hash)

/-- The writes of one iteration of the loop of `br_dump_index`: the number, a tab,
the name, a dot, the type, a newline.  `malloc_name` and `malloc_type` are the
outcomes of the allocation of a rebuild in the two `print_hash` calls. -/
def br_dump_index_line (libc : Libc) (malloc_name malloc_type : Bool) (i type_hash
    name_hash : Nat) (lookup : Option HashLookup) (out : List Byte) :
    Exec (Option HashLookup × List Byte) :=
  let out := out ++ printf_i i ++ [9]
  match print_hash libc malloc_name out lookup name_hash with
  | .exits s => .exits s
  | .undefined => .undefined
  | .outOfFuel => .outOfFuel
  | .returns (out, lookup) =>
  let out := out ++ [46]
  match print_hash libc malloc_type out lookup type_hash with
  | .exits s => .exits s
  | .undefined => .undefined
  | .outOfFuel => .outOfFuel
  | .returns (out, lookup) => .returns (lookup, out ++ [10])

/-- The `for` loop of `br_dump_index`, `remaining` iterations from index `i`.
`malloc_ok k` tells whether the allocation of a rebuild in the `k`-th `print_hash`
from now on succeeds.  The result is the lookup table and the output afterwards. -/
def br_dump_index_loop (libc : Libc) (malloc_ok : Nat → Bool) (game : VermintideGame)
    (out_buffer : List Byte) :
    Nat → Nat → Option HashLookup → List Byte → Exec (Option HashLookup × List Byte)
  | 0, _, lookup, out => .returns (lookup, out)
  | remaining + 1, i, lookup, out =>
    match br_dump_index_entry game out_buffer i with
    | .exits s => .exits s
    | .undefined => .undefined
    | .outOfFuel => .outOfFuel
    | .returns (type_hash, name_hash) =>
    match br_dump_index_line libc (malloc_ok 0) (malloc_ok 1) i type_hash name_hash
        lookup out with
    | .exits s => .exits s
    | .undefined => .undefined
    | .outOfFuel => .outOfFuel
    | .returns (lookup, out) =>
    br_dump_index_loop libc (fun k => malloc_ok (k + 2)) game out_buffer remaining (i + 1)
      lookup out

/-- The part of `br_dump_index` after `util_inflate`: read the count and run the
loop.  `out_buffer` is `none` for the `NULL` that `util_inflate` returns on
failure, otherwise the `out_size` bytes it produced.  The code reads the count
through the pointer without a test. -/
def br_dump_index_decode (libc : Libc) (malloc_ok : Nat → Bool) (game : VermintideGame)
    (out_buffer : Option (List Byte)) (lookup : Option HashLookup) (out : List Byte) :
    Exec (Int × Option HashLookup × List Byte) :=
  match out_buffer with
  | none => .undefined
  | some out_buffer =>
    if out_buffer.length < 4 then .undefined else
    let hash_count := to_uint32 out_buffer
    match br_dump_index_loop libc malloc_ok game out_buffer hash_count 0 lookup out with
    | .returns (lookup, out) => .returns (EC_OK, lookup, out)
    | .exits s => .exits s
    | .undefined => .undefined
    | .outOfFuel => .outOfFuel

/-- `br_dump_index`: write the index of a bundle to a file.  `util_inflate` stands
for the function of `util.c` (zlib is not part of the repository): `none` is its
`NULL` result.  `scan_malloc`, `buffer_malloc` and `find_malloc` are the outcomes
of the allocations of the blob scan, of the blob buffer and of the rebuilds.  A
`fread` that cannot fill the blob buffer leaves it partly unwritten.  The result is
the return code, the reader and the output stream afterwards. -/
def br_dump_index (libc : Libc) (util_inflate : List Byte → Option (List Byte))
    (scan_malloc : Nat → Bool) (buffer_malloc : Bool) (find_malloc : Nat → Bool)
    (br : BundleReader) (out : List Byte) : Exec (Int × BundleReader × List Byte) :=
  let scanned : Exec (Option Int × BundleReader) :=
    if br.blobs = [] then
      match br_read_blobs scan_malloc br with
      | .returns (ret, br) => .returns (if EC_OK > ret then some ret else none, br)
      | .exits s => .exits s
      | .undefined => .undefined
      | .outOfFuel => .outOfFuel
    else .returns (none, br)
  match scanned with
  | .exits s => .exits s
  | .undefined => .undefined
  | .outOfFuel => .outOfFuel
  | .returns (some ret, br) => .returns (ret, br, out)
  | .returns (none, br) =>
    match br.blobs.head?, br.fp with
    | none, _ => .undefined
    | some _, none => .undefined
    | some blob1, some fp =>
      let fp := fseek_set fp blob1.position
      let br := { br with fp := some fp }
      if !buffer_malloc then .returns (EC_MEMORY_ERROR, br, out) else
      match fread1 blob1.size fp with
      | (n, buffer, fp) =>
        let br := { br with fp := some fp }
        if n = 0 ∧ blob1.size ≠ 0 then .undefined else
        match br_dump_index_decode libc find_malloc br.game (util_inflate buffer)
            br.lookup out with
        | .returns (ret, lookup, out) => .returns (ret, { br with lookup := lookup }, out)
        | .exits s => .exits s
        | .undefined => .undefined
        | .outOfFuel => .outOfFuel

/-! ## util.c: decompression

zlib is not part of the repository.  Its return codes are the values of `<zlib.h>`;
its two functions are inputs of the model. -/

def Z_OK : Int := 0
def Z_STREAM_END : Int := 1
def Z_NEED_DICT : Int := 2
def Z_STREAM_ERROR : Int := -2
def Z_DATA_ERROR : Int := -3
def Z_MEM_ERROR : Int := -4
def Z_BUF_ERROR : Int := -5

/-- The loop of `util_msb`, `while (num >>= 1) i++;`, followed by `return i;`.
`fuel` bounds the number of loop tests. -/
def util_msb_loop : Nat → Nat → Int → Exec Int
  | 0, _, _ => .outOfFuel
  | fuel + 1, num, i =>
    let num := num / 2
    if num ≠ 0 then util_msb_loop fuel num (i + 1) else .returns i

/-- `util_msb(uint64_t num)`.  A 64-bit word is zero after 64 shifts, so 64 tests
are all the loop can make. -/
def util_msb (num : Nat) : Exec Int := util_msb_loop 64 (num % 2 ^ 64) 0

/-- The fields of `z_stream` that `util_inflate` reads or writes.  `next_in` and
`next_out` are offsets into the input and the output buffer, `none` for `Z_NULL`.
`avail_in` and `avail_out` are `uInt` (32 bits), `total_out` is `uLong` (64 bits). -/
structure z_stream where
  next_in : Option Nat
  avail_in : Nat
  total_out : Nat
  next_out : Option Nat
  avail_out : Nat
  deriving DecidableEq, Repr

/-- The zlib functions `util_inflate` calls.  `inflateInit` is the code returned
by `inflateInit(&strm)` (which also clears `total_out`); `inflate k in_buffer strm`
is what the `k`-th call of `inflate(&strm, Z_NO_FLUSH)` returns: its code, the
stream afterwards and the bytes it has stored at `next_out`. -/
structure Zlib where
  inflateInit : Int
  inflate : Nat → List Byte → z_stream → Int × z_stream × List Byte

/-- The `do { ... } while (Z_STREAM_END != ret)` loop of `util_inflate` and the
code after it.  `k` counts the calls of `inflate`, `out_buffer` is `none` for
`NULL` and otherwise the bytes stored so far, `sizes` are the sizes passed to
`realloc` so far and `realloc_ok j` tells whether the `j`-th `realloc` succeeds.
The result is the list of all sizes passed to `realloc`, with the returned
pointer and the value of `*out_len_ptr` (`none`: not assigned). -/
def util_inflate_loop (zlib : Zlib) (realloc_ok : Nat → Bool) (in_buffer : List Byte) :
    Nat → Nat → z_stream → Nat → Option (List Byte) → List Nat →
    List Nat × Exec (Option (List Byte) × Option Nat)
  | 0, _, _, _, _, sizes => (sizes, .outOfFuel)
  | fuel + 1, k, strm, out_buffer_size, out_buffer, sizes =>
    -- If the output buffer is full, we double its size
    let full : Bool := 0 == strm.avail_out
    let out_buffer_size := if full then out_buffer_size * 2 % 2 ^ 64 else out_buffer_size
    let grown := if full then sizes ++ [out_buffer_size] else sizes
    if full && !realloc_ok sizes.length then (grown, .returns (none, some 0)) else
    let out_buffer := if full then some (out_buffer.getD []) else out_buffer
    -- Re-set the input parameters for the new location
    let strm := { strm with
      avail_out := (out_buffer_size + 2 ^ 64 - strm.total_out % 2 ^ 64) % 2 ^ 64 % 2 ^ 32,
      next_out := out_buffer.map (fun _ => strm.total_out) }
    -- Inflate
    match zlib.inflate k in_buffer strm with
    | (ret, strm, stored) =>
      let out_buffer := out_buffer.map (fun data => data ++ stored)
      if ret = Z_STREAM_ERROR ∨ ret = Z_NEED_DICT ∨ ret = Z_DATA_ERROR ∨ ret = Z_MEM_ERROR
      then (grown, .returns (none, some 0))
      -- Loop if all the available space was consumed
      else if Z_STREAM_END ≠ ret then
        util_inflate_loop zlib realloc_ok in_buffer fuel (k + 1) strm out_buffer_size
          out_buffer grown
      -- Return the results
      else (grown, .returns (out_buffer, some strm.total_out))

/-- `util_inflate(in_buffer, in_len, out_len_ptr)`.  `1 << util_msb(in_len)` is a
shift of the `int` 1: its result must fit an `int`, otherwise the behaviour is
undefined.  The loop ends only when `inflate` returns `Z_STREAM_END` or an error,
so the number of its iterations is an input, `fuel`. -/
def util_inflate (zlib : Zlib) (realloc_ok : Nat → Bool) (fuel : Nat)
    (in_buffer : List Byte) (in_len : Nat) :
    List Nat × Exec (Option (List Byte) × Option Nat) :=
  -- Stream initialization
  let strm : z_stream :=
    { avail_in := 0, next_in := none, avail_out := 0, next_out := none, total_out := 0 }
  if Z_OK ≠ zlib.inflateInit then ([], .returns (none, none)) else
  let strm := { strm with avail_in := in_len % 2 ^ 32, next_in := some 0 }
  match util_msb in_len with
  | .exits s => ([], .exits s)
  | .undefined => ([], .undefined)
  | .outOfFuel => ([], .outOfFuel)
  | .returns msb =>
    if 31 ≤ msb then ([], .undefined) else
    let out_buffer_size := 2 ^ msb.toNat
    util_inflate_loop zlib realloc_ok in_buffer fuel 0 strm out_buffer_size none []

/-! ## Vocabulary of the statements -/

/-- Little-endian encoding of a 32-bit word. -/
def le32 (n : Nat) : List Byte :=
  [Fin.ofNat n, Fin.ofNat (n / 2 ^ 8), Fin.ofNat (n / 2 ^ 16), Fin.ofNat (n / 2 ^ 24)]

/-- One blob of a bundle: the four bytes of its length, then its payload. -/
def frame (payload : List Byte) : List Byte := le32 payload.length ++ payload

/-- A blob stream: the frames of the payloads, one after the other. -/
def frames : List (List Byte) → List Byte
  | [] => []
  | payload :: rest => frame payload ++ frames rest

/-- The blobs, in list order, tile the bytes from `start` to `stop`: each blob's
payload begins four bytes (its length field) after the previous one ends, the
first length field begins at `start` and the last payload ends at `stop`. -/
def Tiles : Nat → Nat → List BundleBlob → Prop
  | start, stop, [] => start = stop
  | start, stop, blob :: rest =>
    blob.position = start + 4 ∧ Tiles (blob.position + blob.size) stop rest

/-- The magic of a game variant. -/
def magic : VermintideGame → Nat
  | .GAME_VT1 => BR_SIGNATURE_V1
  | .GAME_VT2 => BR_SIGNATURE_V2

/-- A default reader, to stand for the caller's structure before `br_open`. -/
def blank : BundleReader :=
  { path := none, fp := none, lookup := none, blob_count := 0, blobs := [],
    item_count := 0, items := [], game := .GAME_VT1, signature := 0, file_size := 0,
    unzip_size := 0, padding := 0 }

/-- The dictionaries reached from `hl_initialize` by calls of `hl_read_from_file`
that return a count (not a negative value), whatever the hash function's values,
the input files, the read errors and the allocation results. -/
inductive Loaded (MurmurHash64A : List Byte → Nat → Nat) : HashLookup → Prop where
  | init (hl0 : HashLookup) : Loaded MurmurHash64A ( hl_initialize hl0).2
  | read (hl hl' : HashLookup) (fgets_error malloc_ok : Nat → Bool) (inp : FILE) (n : Int) :
      Loaded MurmurHash64A hl →
      hl_read_from_file MurmurHash64A fgets_error malloc_ok hl inp = .returns (n, hl') →
      0 ≤ n → Loaded MurmurHash64A hl'

/-- A toy hash function for running the embedding: the sum of the bytes. -/
def sample_hash (key : List Byte) (_seed : Nat) : Nat := (key.map (fun c => c.val)).sum

/-- The bytes of `"foo"`. -/
def foo : List Byte := [102, 111, 111]

/-- A dictionary file with the lines `b`, `foo`, `a`. -/
def sample_lines : FILE := ⟨[98, 10, 102, 111, 111, 10, 97, 10], 0, false⟩

/-- The dictionary after loading `sample_lines` into a new table with `sample_hash`. -/
def sample_table : HashLookup :=
  { count := 3, is_dirty := 1,
    list := [⟨[97], 97⟩, ⟨foo, 324⟩, ⟨[98], 98⟩], array := none }

/-- A stream without its contents: the offset and the end-of-file indicator. -/
def strip (fp : FILE) : FILE := { fp with bytes := [] }

/-- A reader without the declared decompressed size and without the contents of
its file; every other field is kept. -/
def forget_unzip (br : BundleReader) : BundleReader :=
  { br with unzip_size := 0, fp := br.fp.map strip }

/-- A result of `br_open` or `br_read_blobs` (code and reader) without the declared
decompressed size and the contents of the file. -/
def observe (result : Int × BundleReader) : Int × BundleReader :=
  (result.1, forget_unzip result.2)

/-- A header for `GAME_VT2`. -/
def sample_header : List Byte := [5, 0, 0, 240, 7, 0, 0, 0, 0, 0, 0, 0]

/-- A small bundle: a header for `GAME_VT2`, then blobs of 3, 0 and 1 bytes. -/
def sample_bundle : List Byte := sample_header ++ frames [[1, 2, 3], [], [9]]

/-- The small bundle with another declared decompressed size. -/
def sample_bundle_resized : List Byte :=
  [5, 0, 0, 240, 1, 2, 3, 4, 0, 0, 0, 0] ++ frames [[1, 2, 3], [], [9]]

/-- A bundle whose last blob declares 5 bytes where 2 are left. -/
def sample_overshoot : List Byte :=
  sample_header ++ (frames [[1, 2, 3]] ++ ([5, 0, 0, 0] ++ [1, 2]))

/-- A bundle with 2 bytes left after its last complete blob. -/
def sample_undershoot : List Byte := sample_header ++ (frames [[1, 2, 3]] ++ [7, 7])

/-- The value of a lowercase hexadecimal digit, `none` for any other character. -/
def hex_val (c : Byte) : Option Nat :=
  if 48 ≤ c.val ∧ c.val ≤ 57 then some (c.val - 48)
  else if 97 ≤ c.val ∧ c.val ≤ 102 then some (c.val - 87)
  else none

/-- Reading lowercase hexadecimal digits, most significant first, after the value
`acc`; `none` when a character is not such a digit. -/
def parse_hex_from (acc : Nat) : List Byte → Option Nat
  | [] => some acc
  | c :: rest =>
    match hex_val c with
    | none => none
    | some d => parse_hex_from (acc * 16 + d) rest

/-- Reading a string of lowercase hexadecimal digits. -/
def parse_hex (s : List Byte) : Option Nat := parse_hex_from 0 s

/-- A text file: every text followed by a newline. -/
def text_lines : List (List Byte) → List Byte
  | [] => []
  | t :: rest => t ++ 10 :: text_lines rest

/-- The tuple `htuple_new` makes of a text. -/
def entry (MurmurHash64A : List Byte → Nat → Nat) (t : List Byte) : HashTuple :=
  { text := t, hash := MurmurHash64A t 0 % 2 ^ 64 }

/-- A line the reader takes: a text without newline and NUL of at most 254 bytes. -/
def Acceptable (t : List Byte) : Prop := 10 ∉ t ∧ 0 ∉ t ∧ t.length ≤ 254

instance instDecidableAcceptable (t : List Byte) : Decidable (Acceptable t) := by
  unfold Acceptable
  infer_instance

/-- The table `sample_table` after a rebuild. -/
def sample_table_rebuilt : HashLookup :=
  { sample_table with
    is_dirty := 0, array := some [⟨[97], 97⟩, ⟨[98], 98⟩, ⟨foo, 324⟩] }

/-- A dictionary file with the lines `aa`, `b`, `c`. -/
def sample_lines2 : FILE := ⟨text_lines [[97, 97], [98], [99]], 0, false⟩

/-- The dictionary after loading `sample_lines2` into a new table with
`sample_hash`: the hashes are 99, 98 and 194. -/
def sample_table2 : HashLookup :=
  { count := 3, is_dirty := 1,
    list := [⟨[99], 99⟩, ⟨[98], 98⟩, ⟨[97, 97], 194⟩], array := none }

/-- A dictionary in a state the functions of `hash_lookup.c` keep: `count` is the
length of the list, and a clean table is new or has an array that is the list in
ascending order. -/
def WellFormed (hl : HashLookup) : Prop :=
  hl.count = hl.list.length ∧
    (hl.is_dirty ≠ 0 ∨ (hl.list = [] ∧ hl.array = none) ∨
      ∃ array, hl.array = some array ∧ array.Perm hl.list ∧
        array.Pairwise (fun a b => htuple_comp a b ≤ 0))

/-- The reader as `br_open` leaves it once the three header words are read. -/
def opened (br : BundleReader) (path : String) (bytes : List Byte)
    (game : VermintideGame) : BundleReader :=
  { br with
    path := some path, fp := some ⟨bytes, 12, false⟩, lookup := none, blob_count := 0,
    blobs := [], game := game, signature := to_uint32 (bytes.take 4),
    file_size := bytes.length % 2 ^ 32, unzip_size := to_uint32 ((bytes.drop 4).take 4),
    padding := to_uint32 ((bytes.drop 8).take 4) }

/-- A toy decompressor for running the embedding: the input stands for four
copies of each of its bytes.  A call stores as much of that output as `avail_out`
allows and returns `Z_STREAM_END` once all of it is stored. -/
def sample_zlib : Zlib where
  inflateInit := Z_OK
  inflate := fun _ in_buffer strm =>
    let plain := (in_buffer.map (fun c => List.replicate 4 c)).flatten
    let stored := (plain.drop strm.total_out).take strm.avail_out
    let total := strm.total_out + stored.length
    (if total = plain.length then Z_STREAM_END else Z_OK,
      { strm with
        total_out := total, avail_out := strm.avail_out - stored.length,
        next_out := strm.next_out.map (fun p => p + stored.length),
        avail_in := if total = plain.length then 0 else strm.avail_in },
      stored)

/-- A bundle made of a header and three blobs of length zero. -/
def sample_zero_blobs : List Byte := sample_header ++ frames [[], [], []]

/-- The reader `br_open` delivers for the bundle of three empty blobs. -/
def zero_reader : BundleReader := opened blank "a.bundle" sample_zero_blobs .GAME_VT2

/-- The stream of `zero_reader`, positioned after the header. -/
def zero_stream : FILE := ⟨sample_zero_blobs, 12, false⟩

/-- A line of the dump for the entry `t`, in the words of the format: the first 16
bytes are lowercase hexadecimal digits whose value is the hash, then come one
space, the text unchanged and one newline. -/
def DumpLine (t : HashTuple) (line : List Byte) : Prop :=
  (line.take 16).length = 16 ∧
  (∀ c ∈ line.take 16, (48 ≤ c.val ∧ c.val ≤ 57) ∨ (97 ≤ c.val ∧ c.val ≤ 102)) ∧
  parse_hex (line.take 16) = some t.hash ∧
  line.drop 16 = [32] ++ t.text ++ [10]

/-- The lines of a text, each without its newline; bytes after the last newline
count as a line of their own. -/
def split_lines : List Byte → List (List Byte)
  | [] => []
  | c :: rest =>
    if c = 10 then [] :: split_lines rest
    else
      match split_lines rest with
      | [] => [[c]]
      | line :: lines => (c :: line) :: lines

/-- Reading a line of the dump back: 16 hexadecimal digits, a space, the text.
`none` when the line has another shape. -/
def decode_line (line : List Byte) : Option HashTuple :=
  if (line.take 16).length = 16 ∧ line.getD 16 0 = 32 then
    (parse_hex (line.take 16)).map (fun hash => { text := line.drop 17, hash := hash })
  else none

/-- The hash a line of the dump carries in its first field. -/
def line_hash (line : List Byte) : Option Nat := (decode_line line).map (fun t => t.hash)

instance instDecidableDumpLine (t : HashTuple) (line : List Byte) :
    Decidable (DumpLine t line) := by
  unfold DumpLine
  infer_instance

/-- The dump of `sample_table2`: the lines of `b` (hash 0x62), `c` (0x63) and `aa`
(0xc2), in this order. -/
def sample_dump2 : List Byte :=
  List.replicate 14 48 ++ [54, 50, 32, 98, 10] ++
    (List.replicate 14 48 ++ [54, 51, 32, 99, 10]) ++
    (List.replicate 14 48 ++ [99, 50, 32, 97, 97, 10])

/-- The dump of `sample_table`: the lines of `a` (hash 0x61), `b` (0x62) and `foo`
(0x144), in this order. -/
def sample_dump : List Byte :=
  List.replicate 14 48 ++ [54, 49, 32, 97, 10] ++
    (List.replicate 14 48 ++ [54, 50, 32, 98, 10]) ++
    (List.replicate 13 48 ++ [49, 52, 52, 32, 102, 111, 111, 10])

/-- The bound of the blob scan: `ceil((file_size - 12) / 4)`, which is 0 for
`file_size ≤ 12`. -/
def scan_bound (file_size : Nat) : Nat := (file_size - 12 + 3) / 4

end Vermin

/-! # Theorems -/

namespace Vermin

/-! ## Reading words -/

theorem brP_read_uint32_ok (fp : FILE) (h : fp.pos + 4 ≤ fp.bytes.length) :
    brP_read_uint32 fp =
      .returns (to_uint32 ((fp.bytes.drop fp.pos).take 4), { fp with pos := fp.pos + 4 }) := by
  simp [brP_read_uint32, fread1, h, util_assert]

theorem brP_read_uint32_short (fp : FILE) (h : fp.bytes.length < fp.pos + 4) :
    brP_read_uint32 fp = .exits EXIT_FAILURE := by
  have h2 : ¬ fp.pos + 4 ≤ fp.bytes.length := by omega
  simp [brP_read_uint32, fread1, h2, util_assert]

theorem br_verify_signature_eq (br : BundleReader) :
    br_verify_signature br = decide (br.signature = magic br.game) := by
  unfold br_verify_signature magic
  cases br.game <;>
    (rw [Bool.eq_iff_iff]; simp only [beq_iff_eq, decide_eq_true_eq]; exact eq_comm)

theorem br_open_eq (br : BundleReader) (path : String) (bytes : List Byte)
    (game : VermintideGame) (h : 12 ≤ bytes.length) :
    br_open br path (some bytes) true game =
      if to_uint32 (bytes.take 4) ≠ magic game then
        .returns (EC_BAD_SIGNATURE, opened br path bytes game)
      else if to_uint32 ((bytes.drop 8).take 4) ≠ 0 then
        .returns (EC_NONZERO_PADDING, opened br path bytes game)
      else .returns (EC_OK, opened br path bytes game) := by
  have h1 : (0 : Nat) + 4 ≤ bytes.length := by omega
  have h2 : (0 : Nat) + 4 + 4 ≤ bytes.length := by omega
  have h3 : (0 : Nat) + 4 + 4 + 4 ≤ bytes.length := by omega
  unfold br_open
  simp only [Option.map_some', fseek_set, if_true]
  rw [brP_read_uint32_ok _ h1]
  simp only []
  rw [brP_read_uint32_ok _ h2]
  simp only []
  rw [brP_read_uint32_ok _ h3]
  simp only [br_verify_signature_eq, br_close, br_destroy_blobs, opened]
  by_cases hs : to_uint32 (List.take 4 bytes) = magic game
  · by_cases hp : to_uint32 (List.take 4 (List.drop 8 bytes)) = 0
    · simp [hs, hp]
    · have hp2 : ¬ 0 = to_uint32 (List.take 4 (List.drop 8 bytes)) := fun e => hp e.symm
      simp [hs, hp, hp2]
  · simp [hs]

theorem br_open_short (br : BundleReader) (path : String) (bytes : List Byte)
    (game : VermintideGame) (h : bytes.length < 12) :
    br_open br path (some bytes) true game = .exits EXIT_FAILURE := by
  unfold br_open
  simp only [Option.map_some', fseek_set, if_true]
  by_cases h1 : bytes.length < 4
  · rw [brP_read_uint32_short _ (by simpa using h1)]
    simp
  · rw [brP_read_uint32_ok _ (by simp only []; omega)]
    simp only []
    by_cases h2 : bytes.length < 8
    · rw [brP_read_uint32_short _ (by simp only []; omega)]
      simp
    · rw [brP_read_uint32_ok _ (by simp only []; omega)]
      simp only []
      rw [brP_read_uint32_short _ (by simp only []; omega)]
      simp

/-! ## Opening a bundle -/

/-- C4: on a stream of at least 12 bytes whose first word differs from the magic
of the selected game, `br_open` returns `EC_BAD_SIGNATURE`, whatever the reserved
word holds, and leaves an empty blob list and a blob count of 0 (the path
allocation succeeding). -/
theorem C4_br_open_bad_signature (br : BundleReader) (path : String) (bytes : List Byte)
    (game : VermintideGame) (hlen : 12 ≤ bytes.length)
    (hmagic : to_uint32 (bytes.take 4) ≠ magic game) :
    (magic .GAME_VT1 = 0xF0000004 ∧ magic .GAME_VT2 = 0xF0000005) ∧
    ∃ br', br_open br path (some bytes) true game = .returns (EC_BAD_SIGNATURE, br') ∧
      br'.blobs = [] ∧ br'.blob_count = 0 := by
  refine ⟨⟨rfl, rfl⟩, opened br path bytes game, ?_, rfl, rfl⟩
  rw [br_open_eq br path bytes game hlen, if_pos hmagic]

theorem C4_br_open_bad_signature_witness :
    (12 ≤ ([5, 0, 0, 240, 7, 0, 0, 0, 1, 0, 0, 0] : List Byte).length ∧
      to_uint32 (([5, 0, 0, 240, 7, 0, 0, 0, 1, 0, 0, 0] : List Byte).take 4)
        ≠ magic .GAME_VT1) ∧
    ((magic .GAME_VT1 = 0xF0000004 ∧ magic .GAME_VT2 = 0xF0000005) ∧
      ∃ br', br_open blank "a.bundle" (some [5, 0, 0, 240, 7, 0, 0, 0, 1, 0, 0, 0]) true
          .GAME_VT1 = .returns (EC_BAD_SIGNATURE, br') ∧
        br'.blobs = [] ∧ br'.blob_count = 0) :=
  ⟨⟨by decide, by decide⟩,
    C4_br_open_bad_signature blank "a.bundle" [5, 0, 0, 240, 7, 0, 0, 0, 1, 0, 0, 0]
      .GAME_VT1 (by decide) (by decide)⟩

/-- C5: on a stream of at least 12 bytes whose first word is the magic of the
selected game, `br_open` returns `EC_NONZERO_PADDING` when the word at offset 8 is
nonzero and `EC_OK` when it is zero; either way the blob list is empty and the
blob count is 0 (the path allocation succeeding). -/
theorem C5_br_open_padding (br : BundleReader) (path : String) (bytes : List Byte)
    (game : VermintideGame) (hlen : 12 ≤ bytes.length)
    (hmagic : to_uint32 (bytes.take 4) = magic game) :
    ∃ br', br'.blobs = [] ∧ br'.blob_count = 0 ∧
      (to_uint32 ((bytes.drop 8).take 4) ≠ 0 →
        br_open br path (some bytes) true game = .returns (EC_NONZERO_PADDING, br')) ∧
      (to_uint32 ((bytes.drop 8).take 4) = 0 →
        br_open br path (some bytes) true game = .returns (EC_OK, br')) := by
  refine ⟨opened br path bytes game, rfl, rfl, ?_, ?_⟩
  · intro hp
    rw [br_open_eq br path bytes game hlen, if_neg (not_not.mpr hmagic), if_pos hp]
  · intro hp
    rw [br_open_eq br path bytes game hlen, if_neg (not_not.mpr hmagic),
      if_neg (not_not.mpr hp)]

theorem C5_br_open_padding_witness :
    (12 ≤ ([5, 0, 0, 240, 7, 0, 0, 0, 0, 1, 0, 0] : List Byte).length ∧
      to_uint32 (([5, 0, 0, 240, 7, 0, 0, 0, 0, 1, 0, 0] : List Byte).take 4)
        = magic .GAME_VT2) ∧
    ∃ br', br'.blobs = [] ∧ br'.blob_count = 0 ∧
      (to_uint32 ((([5, 0, 0, 240, 7, 0, 0, 0, 0, 1, 0, 0] : List Byte).drop 8).take 4) ≠ 0 →
        br_open blank "a.bundle" (some [5, 0, 0, 240, 7, 0, 0, 0, 0, 1, 0, 0]) true .GAME_VT2
          = .returns (EC_NONZERO_PADDING, br')) ∧
      (to_uint32 ((([5, 0, 0, 240, 7, 0, 0, 0, 0, 1, 0, 0] : List Byte).drop 8).take 4) = 0 →
        br_open blank "a.bundle" (some [5, 0, 0, 240, 7, 0, 0, 0, 0, 1, 0, 0]) true .GAME_VT2
          = .returns (EC_OK, br')) :=
  ⟨⟨by decide, by decide⟩,
    C5_br_open_padding blank "a.bundle" [5, 0, 0, 240, 7, 0, 0, 0, 0, 1, 0, 0]
      .GAME_VT2 (by decide) (by decide)⟩

/-- C6, as stated, fails: on the 11-byte stream below `br_open` returns nothing to
its caller, in particular not `EC_IO_ERROR`: the process exits. -/
theorem C6_br_open_short_counterexample :
    br_open blank "a.bundle" (some [5, 0, 0, 240, 7, 0, 0, 0, 0, 0, 0]) true .GAME_VT2
      = .exits EXIT_FAILURE ∧
    ¬ ∃ br', br_open blank "a.bundle" (some [5, 0, 0, 240, 7, 0, 0, 0, 0, 0, 0]) true
      .GAME_VT2 = .returns (EC_IO_ERROR, br') := by
  have h : br_open blank "a.bundle" (some [5, 0, 0, 240, 7, 0, 0, 0, 0, 0, 0]) true .GAME_VT2
      = .exits EXIT_FAILURE := by decide
  refine ⟨h, ?_⟩
  rintro ⟨br', hbr⟩
  rw [h] at hbr
  cases hbr

/-- C6, amended: on a stream that can be opened but holds fewer than 12 bytes,
`br_open` does not return: the assertion of `brP_read_uint32` fails and the
process exits with `EXIT_FAILURE` (the path allocation succeeding). -/
theorem C6_br_open_short_exits (br : BundleReader) (path : String) (bytes : List Byte)
    (game : VermintideGame) (hlen : bytes.length < 12) :
    br_open br path (some bytes) true game = .exits EXIT_FAILURE :=
  br_open_short br path bytes game hlen

theorem C6_br_open_short_exits_witness :
    ([] : List Byte).length < 12 ∧
    br_open blank "empty.bundle" (some []) true .GAME_VT1 = .exits EXIT_FAILURE :=
  ⟨by decide, C6_br_open_short_exits blank "empty.bundle" [] .GAME_VT1 (by decide)⟩

/-! ## The blob scan -/

theorem br_read_blobs_loop_step (m : Nat → Bool) (fuel : Nat) (br : BundleReader)
    (fp fp1 : FILE) (first : Bool) (ss pos size : Nat) (hlt : pos < br.file_size)
    (hread : brP_read_uint32 fp = .returns (size, fp1)) (hm : m 0 = true) :
    br_read_blobs_loop m (fuel + 1) br fp first ss pos =
      br_read_blobs_loop (fun i => m (i + 1)) fuel
        { br with
          fp := some (fseek_cur fp1 size),
          blobs := if first then [⟨size, pos + 4⟩] else br.blobs ++ [⟨size, pos + 4⟩],
          blob_count := br.blob_count + 1 }
        (fseek_cur fp1 size) false ((ss + size) % 2 ^ 32) (pos + 4 + size) := by
  rw [br_read_blobs_loop]
  simp [hlt, hread, hm]

theorem br_read_blobs_loop_done (m : Nat → Bool) (fuel : Nat) (br : BundleReader)
    (fp : FILE) (first : Bool) (ss pos : Nat) (hge : ¬ pos < br.file_size) :
    br_read_blobs_loop m (fuel + 1) br fp first ss pos =
      if pos ≠ br.file_size then .returns (EC_SIZE_MISMATCH, br_destroy_blobs br)
      else .returns (EC_OK, br) := by
  rw [br_read_blobs_loop]
  simp [hge]

theorem br_read_blobs_loop_ok (fuel : Nat) :
    ∀ (m : Nat → Bool) (br : BundleReader) (fp : FILE) (first : Bool) (ss pos : Nat)
      (r : BundleReader), (first = true → br.blobs = []) →
      br_read_blobs_loop m fuel br fp first ss pos = .returns (EC_OK, r) →
      ∃ new, r.blobs = br.blobs ++ new ∧ Tiles pos br.file_size new ∧
        r.file_size = br.file_size ∧ r.blob_count = br.blob_count + new.length := by
  induction fuel with
  | zero =>
    intro m br fp first ss pos r _ h
    simp [br_read_blobs_loop] at h
  | succ fuel ih =>
    intro m br fp first ss pos r hfirst h
    by_cases hlt : pos < br.file_size
    · cases hread : brP_read_uint32 fp with
      | exits s => rw [br_read_blobs_loop] at h; simp [hlt, hread] at h
      | undefined => rw [br_read_blobs_loop] at h; simp [hlt, hread] at h
      | outOfFuel => rw [br_read_blobs_loop] at h; simp [hlt, hread] at h
      | returns a =>
        obtain ⟨size, fp1⟩ := a
        cases hm : m 0 with
        | false =>
          rw [br_read_blobs_loop] at h
          simp [hlt, hread, hm, EC_MEMORY_ERROR, EC_OK] at h
        | true =>
          rw [br_read_blobs_loop_step m fuel br fp fp1 first ss pos size hlt hread hm] at h
          obtain ⟨new, h1, h2, h3, h4⟩ := ih _ _ _ _ _ _ r (by simp) h
          refine ⟨⟨size, pos + 4⟩ :: new, ?_, ?_, h3, ?_⟩
          · rw [h1]
            cases first with
            | true => simp [hfirst rfl]
            | false => simp
          · exact ⟨rfl, h2⟩
          · rw [h4]
            simp only [List.length_cons, Nat.cast_add, Nat.cast_one]
            omega
    · rw [br_read_blobs_loop_done m fuel br fp first ss pos hlt] at h
      by_cases hne : pos = br.file_size
      · simp [hne] at h
        refine ⟨[], ?_, ?_, ?_, ?_⟩
        · simp [← h]
        · exact hne
        · rw [← h]
        · simp [← h]
      · simp [hne, EC_SIZE_MISMATCH, EC_OK] at h

theorem Tiles_head (start stop : Nat) (l : List BundleBlob) (h : Tiles start stop l) :
    ∀ b, l.head? = some b → b.position = start + 4 := by
  cases l with
  | nil => simp
  | cons a l => intro b hb; simp at hb; subst hb; exact h.1

theorem Tiles_next (l : List BundleBlob) :
    ∀ (start stop : Nat), Tiles start stop l →
      ∀ (i : Nat) (b c : BundleBlob), l[i]? = some b → l[i + 1]? = some c →
        c.position = b.position + b.size + 4 := by
  induction l with
  | nil => intro _ _ _ i b c hb; simp at hb
  | cons a l ih =>
    intro start stop h i b c hb hc
    cases i with
    | zero =>
      simp at hb hc
      subst hb
      cases l with
      | nil => simp at hc
      | cons a2 l2 => simp at hc; subst hc; exact h.2.1
    | succ i =>
      simp at hb hc
      exact ih _ _ h.2 i b c hb hc

theorem Tiles_last (l : List BundleBlob) :
    ∀ (start stop : Nat), Tiles start stop l →
      ∀ b, l.getLast? = some b → b.position + b.size = stop := by
  induction l with
  | nil => intro _ _ _ b hb; simp at hb
  | cons a l ih =>
    intro start stop h b hb
    cases l with
    | nil => simp at hb; subst hb; exact h.2
    | cons a2 l2 =>
      rw [List.getLast?_cons_cons] at hb
      exact ih _ _ h.2 b hb

theorem Tiles_sum (l : List BundleBlob) :
    ∀ (start stop : Nat), Tiles start stop l →
      start + (l.map (fun b => 4 + b.size)).sum = stop := by
  induction l with
  | nil => intro start stop h; simpa using h
  | cons a l ih =>
    intro start stop h
    have := ih _ _ h.2
    have h1 := h.1
    simp only [List.map_cons, List.sum_cons]
    omega

theorem br_open_ok_inv (br0 br : BundleReader) (path : String) (bytes : List Byte)
    (pm : Bool) (game : VermintideGame)
    (h : br_open br0 path (some bytes) pm game = .returns (EC_OK, br)) :
    12 ≤ bytes.length ∧ pm = true ∧ br = opened br0 path bytes game := by
  cases pm with
  | false => simp [br_open, br_close, br_destroy_blobs, EC_MEMORY_ERROR, EC_OK] at h
  | true =>
    by_cases hlen : bytes.length < 12
    · rw [br_open_short br0 path bytes game hlen] at h
      cases h
    · have hlen2 : 12 ≤ bytes.length := by omega
      rw [br_open_eq br0 path bytes game hlen2] at h
      refine ⟨hlen2, rfl, ?_⟩
      split_ifs at h <;> simp [EC_BAD_SIGNATURE, EC_NONZERO_PADDING, EC_OK] at h
      exact h.symm

/-- C1: when `br_read_blobs`, run on a freshly opened reader, returns `EC_OK`, the
recorded blobs tile the file from the end of the header: the first blob is at
12 + 4, each later blob follows the previous one after 4 bytes, the last blob
ends at `file_size`, and 12 plus the sum of `4 + size` is `file_size` (the file
length as `br_open` stores it in a `uint32_t`). -/
theorem C1_blobs_tile (br0 br br' : BundleReader) (path : String) (bytes : List Byte)
    (pm : Bool) (m : Nat → Bool) (game : VermintideGame)
    (hopen : br_open br0 path (some bytes) pm game = .returns (EC_OK, br))
    (hread : br_read_blobs m br = .returns (EC_OK, br')) :
    br'.file_size = bytes.length % 2 ^ 32 ∧
    (∀ b, br'.blobs.head? = some b → b.position = 12 + 4) ∧
    (∀ (i : Nat) (b c : BundleBlob), br'.blobs[i]? = some b → br'.blobs[i + 1]? = some c →
      c.position = b.position + b.size + 4) ∧
    (∀ b, br'.blobs.getLast? = some b → b.position + b.size = br'.file_size) ∧
    12 + (br'.blobs.map (fun b => 4 + b.size)).sum = br'.file_size := by
  obtain ⟨_, _, hbr⟩ := br_open_ok_inv br0 br path bytes pm game hopen
  subst hbr
  simp only [br_read_blobs, opened, BR_HEADER_SIZE] at hread
  obtain ⟨new, h1, h2, h3, _⟩ := br_read_blobs_loop_ok _ _ _ _ _ _ _ br' (by simp) hread
  simp only [List.nil_append] at h1 h2 h3
  rw [h1, h3]
  exact ⟨rfl, Tiles_head _ _ _ h2, Tiles_next _ _ _ h2, Tiles_last _ _ _ h2,
    Tiles_sum _ _ _ h2⟩

theorem C1_blobs_tile_witness :
    (br_open blank "a.bundle" (some sample_bundle) true .GAME_VT2
        = .returns (EC_OK, opened blank "a.bundle" sample_bundle .GAME_VT2) ∧
      br_read_blobs (fun _ => true) (opened blank "a.bundle" sample_bundle .GAME_VT2)
        = .returns (EC_OK,
            { opened blank "a.bundle" sample_bundle .GAME_VT2 with
              fp := some ⟨sample_bundle, 28, false⟩,
              blobs := [⟨3, 16⟩, ⟨0, 23⟩, ⟨1, 27⟩], blob_count := 3 })) ∧
    ((28 : Nat) = sample_bundle.length % 2 ^ 32 ∧
      (∀ b, ([⟨3, 16⟩, ⟨0, 23⟩, ⟨1, 27⟩] : List BundleBlob).head? = some b →
        b.position = 12 + 4) ∧
      (∀ (i : Nat) (b c : BundleBlob),
        ([⟨3, 16⟩, ⟨0, 23⟩, ⟨1, 27⟩] : List BundleBlob)[i]? = some b →
        ([⟨3, 16⟩, ⟨0, 23⟩, ⟨1, 27⟩] : List BundleBlob)[i + 1]? = some c →
        c.position = b.position + b.size + 4) ∧
      (∀ b, ([⟨3, 16⟩, ⟨0, 23⟩, ⟨1, 27⟩] : List BundleBlob).getLast? = some b →
        b.position + b.size = 28) ∧
      12 + (([⟨3, 16⟩, ⟨0, 23⟩, ⟨1, 27⟩] : List BundleBlob).map (fun b => 4 + b.size)).sum
        = 28) :=
  ⟨⟨by decide, by decide⟩,
    C1_blobs_tile blank (opened blank "a.bundle" sample_bundle .GAME_VT2)
      { opened blank "a.bundle" sample_bundle .GAME_VT2 with
        fp := some ⟨sample_bundle, 28, false⟩,
        blobs := [⟨3, 16⟩, ⟨0, 23⟩, ⟨1, 27⟩], blob_count := 3 }
      "a.bundle" sample_bundle true (fun _ => true) .GAME_VT2 (by decide) (by decide)⟩

/-! ## Malformed blob streams -/

theorem to_uint32_le32 (n : Nat) : to_uint32 (le32 n) = n % 2 ^ 32 := by
  simp only [to_uint32, le32, List.getD_cons_zero, List.getD_cons_succ, Fin.ofNat,
    Fin.val_mk]
  omega

theorem length_le32 (n : Nat) : (le32 n).length = 4 := rfl

theorem length_frames_ge (ps : List (List Byte)) : 4 * ps.length ≤ (frames ps).length := by
  induction ps with
  | nil => simp [frames]
  | cons p ps ih =>
    simp only [frames, frame, List.length_append, List.length_cons, length_le32]
    omega

theorem brP_read_uint32_word (fp : FILE) (word rest : List Byte) (hw : word.length = 4)
    (h : fp.bytes.drop fp.pos = word ++ rest) :
    brP_read_uint32 fp = .returns (to_uint32 word, { fp with pos := fp.pos + 4 }) := by
  have hl : (fp.bytes.drop fp.pos).length = 4 + rest.length := by
    rw [h, List.length_append, hw]
  rw [List.length_drop] at hl
  rw [brP_read_uint32_ok fp (by omega), h, List.take_left' hw]

theorem br_read_blobs_loop_overshoot (ps : List (List Byte)) :
    ∀ (fuel : Nat) (m : Nat → Bool) (br : BundleReader) (fp : FILE) (first : Bool)
      (ss pos : Nat) (declared tail : List Byte),
      (∀ i, m i = true) → fp.pos = pos →
      fp.bytes.drop pos = frames ps ++ (declared ++ tail) →
      declared.length = 4 → tail.length < to_uint32 declared →
      br.file_size = fp.bytes.length → fp.bytes.length < 2 ^ 32 →
      ps.length + 2 ≤ fuel →
      ∃ r, br_read_blobs_loop m fuel br fp first ss pos = .returns (EC_SIZE_MISMATCH, r) ∧
        r.blobs = [] := by
  induction ps with
  | nil =>
    intro fuel m br fp first ss pos declared tail hm hpos hdrop hd ht hfs hlen hfuel
    obtain ⟨f, rfl⟩ : ∃ f, fuel = f + 1 + 1 := ⟨fuel - 2, by simp at hfuel; omega⟩
    simp only [frames, List.nil_append] at hdrop
    subst hpos
    have hl : (fp.bytes.drop fp.pos).length = 4 + tail.length := by
      rw [hdrop, List.length_append, hd]
    rw [List.length_drop] at hl
    rw [br_read_blobs_loop_step m (f + 1) br fp _ first ss fp.pos _ (by omega)
      (brP_read_uint32_word fp declared tail hd hdrop) (hm 0)]
    rw [br_read_blobs_loop_done _ f _ _ _ _ _ (by simp only []; omega)]
    rw [if_pos (by simp only []; omega)]
    exact ⟨_, rfl, rfl⟩
  | cons p ps ih =>
    intro fuel m br fp first ss pos declared tail hm hpos hdrop hd ht hfs hlen hfuel
    obtain ⟨f, rfl⟩ : ∃ f, fuel = f + 1 := ⟨fuel - 1, by simp at hfuel; omega⟩
    subst hpos
    simp only [frames, frame, List.append_assoc] at hdrop
    have hl : (fp.bytes.drop fp.pos).length
        = 4 + (p.length + (frames ps ++ (declared ++ tail)).length) := by
      rw [hdrop, List.length_append, List.length_append, length_le32]
    rw [List.length_drop] at hl
    have hp : p.length % 2 ^ 32 = p.length := Nat.mod_eq_of_lt (by omega)
    rw [br_read_blobs_loop_step m f br fp _ first ss fp.pos _ (by omega)
      (brP_read_uint32_word fp (le32 p.length) _ (length_le32 _) hdrop) (hm 0)]
    rw [to_uint32_le32, hp]
    refine ih f _ _ _ false _ _ declared tail (fun i => hm (i + 1)) rfl ?_ hd ht hfs hlen
      (by simp at hfuel; omega)
    show fp.bytes.drop (fp.pos + 4 + p.length) = _
    rw [Nat.add_assoc, ← List.drop_drop, hdrop, ← length_le32 p.length, ← List.length_append,
      ← List.append_assoc, List.drop_left]

theorem br_read_blobs_loop_undershoot (ps : List (List Byte)) :
    ∀ (fuel : Nat) (m : Nat → Bool) (br : BundleReader) (fp : FILE) (first : Bool)
      (ss pos : Nat) (tail : List Byte),
      (∀ i, m i = true) → fp.pos = pos →
      fp.bytes.drop pos = frames ps ++ tail →
      0 < tail.length → tail.length < 4 →
      br.file_size = fp.bytes.length → fp.bytes.length < 2 ^ 32 →
      ps.length + 1 ≤ fuel →
      br_read_blobs_loop m fuel br fp first ss pos = .exits EXIT_FAILURE := by
  induction ps with
  | nil =>
    intro fuel m br fp first ss pos tail hm hpos hdrop ht0 ht4 hfs hlen hfuel
    obtain ⟨f, rfl⟩ : ∃ f, fuel = f + 1 := ⟨fuel - 1, by simp at hfuel; omega⟩
    simp only [frames, List.nil_append] at hdrop
    subst hpos
    have hl : (fp.bytes.drop fp.pos).length = tail.length := by rw [hdrop]
    rw [List.length_drop] at hl
    rw [br_read_blobs_loop]
    have hlt : fp.pos < br.file_size := by omega
    simp [hlt, brP_read_uint32_short fp (by omega)]
  | cons p ps ih =>
    intro fuel m br fp first ss pos tail hm hpos hdrop ht0 ht4 hfs hlen hfuel
    obtain ⟨f, rfl⟩ : ∃ f, fuel = f + 1 := ⟨fuel - 1, by simp at hfuel; omega⟩
    subst hpos
    simp only [frames, frame, List.append_assoc] at hdrop
    have hl : (fp.bytes.drop fp.pos).length
        = 4 + (p.length + (frames ps ++ tail).length) := by
      rw [hdrop, List.length_append, List.length_append, length_le32]
    rw [List.length_drop] at hl
    have hp : p.length % 2 ^ 32 = p.length := Nat.mod_eq_of_lt (by omega)
    rw [br_read_blobs_loop_step m f br fp _ first ss fp.pos _ (by omega)
      (brP_read_uint32_word fp (le32 p.length) _ (length_le32 _) hdrop) (hm 0)]
    rw [to_uint32_le32, hp]
    refine ih f _ _ _ false _ _ tail (fun i => hm (i + 1)) rfl ?_ ht0 ht4 hfs hlen
      (by simp at hfuel; omega)
    show fp.bytes.drop (fp.pos + 4 + p.length) = _
    rw [Nat.add_assoc, ← List.drop_drop, hdrop, ← length_le32 p.length, ← List.length_append,
      ← List.append_assoc, List.drop_left]

/-- C2: on a bundle stream (a 12-byte header, complete blobs, then a blob whose
declared length exceeds the bytes left in the file) `br_read_blobs` returns
`EC_SIZE_MISMATCH` and the reader's blob list is empty afterwards (every
allocation succeeding; the file is shorter than 2 ^ 32 bytes, `file_size` being a
`uint32_t`). -/
theorem C2_overshoot_size_mismatch (br : BundleReader) (fp : FILE)
    (hdr : List Byte) (ps : List (List Byte)) (declared tail : List Byte)
    (hfp : br.fp = some fp)
    (hbytes : fp.bytes = hdr ++ (frames ps ++ (declared ++ tail)))
    (hhdr : hdr.length = 12) (hd : declared.length = 4)
    (ht : tail.length < to_uint32 declared)
    (hfs : br.file_size = fp.bytes.length) (hlen : fp.bytes.length < 2 ^ 32) :
    ∃ r, br_read_blobs (fun _ => true) br = .returns (EC_SIZE_MISMATCH, r) ∧
      r.blobs = [] := by
  simp only [br_read_blobs, hfp, BR_HEADER_SIZE]
  have hge := length_frames_ge ps
  have hl : fp.bytes.length = 12 + ((frames ps).length + (4 + tail.length)) := by
    rw [hbytes, List.length_append, List.length_append, List.length_append, hhdr, hd]
  refine br_read_blobs_loop_overshoot ps _ _ _ _ true 0 12 declared tail (fun _ => rfl) rfl
    ?_ hd ht hfs hlen (by rw [hfs, hl]; omega)
  show fp.bytes.drop 12 = _
  rw [hbytes, List.drop_left' hhdr]

theorem C2_overshoot_size_mismatch_witness :
    ((opened blank "a.bundle" sample_overshoot .GAME_VT2).fp
        = some ⟨sample_overshoot, 12, false⟩ ∧
      (FILE.mk sample_overshoot 12 false).bytes
        = sample_header ++ (frames [[1, 2, 3]] ++ ([5, 0, 0, 0] ++ [1, 2])) ∧
      sample_header.length = 12 ∧ ([5, 0, 0, 0] : List Byte).length = 4 ∧
      ([1, 2] : List Byte).length < to_uint32 [5, 0, 0, 0] ∧
      (opened blank "a.bundle" sample_overshoot .GAME_VT2).file_size
        = (FILE.mk sample_overshoot 12 false).bytes.length ∧
      (FILE.mk sample_overshoot 12 false).bytes.length < 2 ^ 32) ∧
    ∃ r, br_read_blobs (fun _ => true) (opened blank "a.bundle" sample_overshoot .GAME_VT2)
        = .returns (EC_SIZE_MISMATCH, r) ∧ r.blobs = [] :=
  ⟨⟨rfl, rfl, by decide, by decide, by decide, by decide, by decide⟩,
    C2_overshoot_size_mismatch (opened blank "a.bundle" sample_overshoot .GAME_VT2)
      ⟨sample_overshoot, 12, false⟩ sample_header [[1, 2, 3]] [5, 0, 0, 0] [1, 2]
      rfl rfl (by decide) (by decide) (by decide) (by decide) (by decide)⟩

/-- C3, as stated, fails: with two bytes left after the last complete blob
`br_read_blobs` returns nothing to its caller, in particular not
`EC_SIZE_MISMATCH`: the process exits. -/
theorem C3_undershoot_counterexample :
    br_open blank "a.bundle" (some sample_undershoot) true .GAME_VT2
      = .returns (EC_OK, opened blank "a.bundle" sample_undershoot .GAME_VT2) ∧
    br_read_blobs (fun _ => true) (opened blank "a.bundle" sample_undershoot .GAME_VT2)
      = .exits EXIT_FAILURE ∧
    ¬ ∃ r, br_read_blobs (fun _ => true)
        (opened blank "a.bundle" sample_undershoot .GAME_VT2)
      = .returns (EC_SIZE_MISMATCH, r) := by
  have h : br_read_blobs (fun _ => true)
      (opened blank "a.bundle" sample_undershoot .GAME_VT2) = .exits EXIT_FAILURE := by
    decide
  refine ⟨by decide, h, ?_⟩
  rintro ⟨r, hr⟩
  rw [h] at hr
  cases hr

/-- C3, amended: on a bundle stream with 1, 2 or 3 bytes left after the last
complete blob, `br_read_blobs` does not return: the assertion of
`brP_read_uint32` fails and the process exits with `EXIT_FAILURE`, so no code and
no blob list reach the caller (every allocation succeeding; the file is shorter
than 2 ^ 32 bytes). -/
theorem C3_undershoot_exits (br : BundleReader) (fp : FILE)
    (hdr : List Byte) (ps : List (List Byte)) (tail : List Byte)
    (hfp : br.fp = some fp)
    (hbytes : fp.bytes = hdr ++ (frames ps ++ tail))
    (hhdr : hdr.length = 12) (ht0 : 1 ≤ tail.length) (ht3 : tail.length ≤ 3)
    (hfs : br.file_size = fp.bytes.length) (hlen : fp.bytes.length < 2 ^ 32) :
    br_read_blobs (fun _ => true) br = .exits EXIT_FAILURE := by
  simp only [br_read_blobs, hfp, BR_HEADER_SIZE]
  have hge := length_frames_ge ps
  have hl : fp.bytes.length = 12 + ((frames ps).length + tail.length) := by
    rw [hbytes, List.length_append, List.length_append, hhdr]
  refine br_read_blobs_loop_undershoot ps _ _ _ _ true 0 12 tail (fun _ => rfl) rfl
    ?_ (by omega) (by omega) hfs hlen (by rw [hfs, hl]; omega)
  show fp.bytes.drop 12 = _
  rw [hbytes, List.drop_left' hhdr]

theorem C3_undershoot_exits_witness :
    ((opened blank "a.bundle" sample_undershoot .GAME_VT2).fp
        = some ⟨sample_undershoot, 12, false⟩ ∧
      (FILE.mk sample_undershoot 12 false).bytes
        = sample_header ++ (frames [[1, 2, 3]] ++ [7, 7]) ∧
      sample_header.length = 12 ∧ 1 ≤ ([7, 7] : List Byte).length ∧
      ([7, 7] : List Byte).length ≤ 3 ∧
      (opened blank "a.bundle" sample_undershoot .GAME_VT2).file_size
        = (FILE.mk sample_undershoot 12 false).bytes.length ∧
      (FILE.mk sample_undershoot 12 false).bytes.length < 2 ^ 32) ∧
    br_read_blobs (fun _ => true) (opened blank "a.bundle" sample_undershoot .GAME_VT2)
      = .exits EXIT_FAILURE :=
  ⟨⟨rfl, rfl, by decide, by decide, by decide, by decide, by decide⟩,
    C3_undershoot_exits (opened blank "a.bundle" sample_undershoot .GAME_VT2)
      ⟨sample_undershoot, 12, false⟩ sample_header [[1, 2, 3]] [7, 7]
      rfl rfl (by decide) (by decide) (by decide) (by decide) (by decide)⟩

/-! ## The declared decompressed size -/

theorem forget_unzip_eq_iff (a b : BundleReader) :
    forget_unzip a = forget_unzip b ↔
      a.path = b.path ∧ a.fp.map strip = b.fp.map strip ∧ a.lookup = b.lookup ∧
      a.blob_count = b.blob_count ∧ a.blobs = b.blobs ∧ a.item_count = b.item_count ∧
      a.items = b.items ∧ a.game = b.game ∧ a.signature = b.signature ∧
      a.file_size = b.file_size ∧ a.padding = b.padding := by
  cases a
  cases b
  simp [forget_unzip]

theorem br_read_blobs_loop_forget (fuel : Nat) :
    ∀ (m : Nat → Bool) (br1 br2 : BundleReader) (fp1 fp2 : FILE) (first : Bool)
      (ss pos : Nat),
      forget_unzip br1 = forget_unzip br2 → fp1.pos = fp2.pos → fp1.eof = fp2.eof →
      fp1.bytes.length = fp2.bytes.length → fp1.bytes.drop 8 = fp2.bytes.drop 8 →
      8 ≤ fp1.pos →
      (br_read_blobs_loop m fuel br1 fp1 first ss pos).map observe =
        (br_read_blobs_loop m fuel br2 fp2 first ss pos).map observe := by
  induction fuel with
  | zero => intros; rfl
  | succ fuel ih =>
    intro m br1 br2 fp1 fp2 first ss pos hbr hpos heof hlen hdrop hge
    have hbr' := (forget_unzip_eq_iff br1 br2).mp hbr
    obtain ⟨h1, h2, h3, h4, h5, h6, h7, h8, h9, h10, h11⟩ := hbr'
    by_cases hlt : pos < br1.file_size
    · have hlt2 : pos < br2.file_size := h10 ▸ hlt
      by_cases hrd : fp1.pos + 4 ≤ fp1.bytes.length
      · have hrd2 : fp2.pos + 4 ≤ fp2.bytes.length := by omega
        have hword : (fp1.bytes.drop fp1.pos).take 4 = (fp2.bytes.drop fp2.pos).take 4 := by
          have e1 : fp1.pos = 8 + (fp1.pos - 8) := by omega
          rw [← hpos, e1, ← List.drop_drop, ← List.drop_drop, hdrop]
        have hword2 := hword
        rw [hpos] at hword2
        cases hm : m 0 with
        | false =>
          rw [br_read_blobs_loop, br_read_blobs_loop]
          simp only [hlt, hlt2, if_true, brP_read_uint32_ok fp1 hrd,
            brP_read_uint32_ok fp2 hrd2, hm, Bool.not_false, Exec.map, observe,
            br_destroy_blobs]
          congr 2
          rw [forget_unzip_eq_iff]
          simp [fseek_cur, strip, hpos, hword2, *]
        | true =>
          rw [br_read_blobs_loop_step m fuel br1 fp1 _ first ss pos _ hlt
              (brP_read_uint32_ok fp1 hrd) hm,
            br_read_blobs_loop_step m fuel br2 fp2 _ first ss pos _ hlt2
              (brP_read_uint32_ok fp2 hrd2) hm, hword]
          apply ih
          · rw [forget_unzip_eq_iff]
            simp [fseek_cur, strip, hpos, *]
          · simp [fseek_cur, hpos]
          · rfl
          · exact hlen
          · exact hdrop
          · simp only [fseek_cur]
            omega
      · have hrd2 : ¬ fp2.pos + 4 ≤ fp2.bytes.length := by omega
        rw [br_read_blobs_loop, br_read_blobs_loop]
        simp only [hlt, hlt2, if_true, brP_read_uint32_short fp1 (by omega),
          brP_read_uint32_short fp2 (by omega)]
    · have hlt2 : ¬ pos < br2.file_size := h10 ▸ hlt
      rw [br_read_blobs_loop_done m fuel br1 fp1 first ss pos hlt,
        br_read_blobs_loop_done m fuel br2 fp2 first ss pos hlt2, h10]
      split_ifs
      · simp only [Exec.map, observe, br_destroy_blobs]
        congr 2
        rw [forget_unzip_eq_iff]
        simp [*]
      · simp only [Exec.map, observe, hbr]

theorem forget_unzip_opened (br0 : BundleReader) (path : String) (bytes1 bytes2 : List Byte)
    (game : VermintideGame) (hlen : bytes1.length = bytes2.length)
    (htake : bytes1.take 4 = bytes2.take 4) (hdrop : bytes1.drop 8 = bytes2.drop 8) :
    forget_unzip (opened br0 path bytes1 game) = forget_unzip (opened br0 path bytes2 game) := by
  rw [forget_unzip_eq_iff]
  simp [opened, strip, hlen, htake, hdrop]

/-- C7: the declared decompressed size is never verified.  For two streams that
are equal except for bytes 4..7, `br_open` gives the same outcome and, after a
successful open, `br_read_blobs` gives the same outcome, up to the field
`unzip_size` and the contents of the file: same code, same blobs, same blob
count.  The word at offset 4 is what `unzip_size` holds. -/
theorem C7_unzip_size_unverified (br0 : BundleReader) (path : String)
    (bytes1 bytes2 : List Byte) (pm : Bool) (m : Nat → Bool) (game : VermintideGame)
    (hlen : bytes1.length = bytes2.length) (htake : bytes1.take 4 = bytes2.take 4)
    (hdrop : bytes1.drop 8 = bytes2.drop 8) :
    (br_open br0 path (some bytes1) pm game).map observe =
      (br_open br0 path (some bytes2) pm game).map observe ∧
    ∀ br1 br2, br_open br0 path (some bytes1) pm game = .returns (EC_OK, br1) →
      br_open br0 path (some bytes2) pm game = .returns (EC_OK, br2) →
      (br_read_blobs m br1).map observe = (br_read_blobs m br2).map observe ∧
      br1.unzip_size = to_uint32 ((bytes1.drop 4).take 4) ∧
      br2.unzip_size = to_uint32 ((bytes2.drop 4).take 4) := by
  have hf := forget_unzip_opened br0 path bytes1 bytes2 game hlen htake hdrop
  constructor
  · cases pm with
    | false =>
      simp only [br_open, Option.map_some', br_close, br_destroy_blobs, Exec.map, observe]
      simp only [Bool.false_eq_true, if_false, if_true]
      congr 2
    | true =>
      by_cases hshort : bytes1.length < 12
      · rw [br_open_short br0 path bytes1 game hshort,
          br_open_short br0 path bytes2 game (hlen ▸ hshort)]
      · rw [br_open_eq br0 path bytes1 game (by omega),
          br_open_eq br0 path bytes2 game (by omega), htake, hdrop]
        split_ifs <;> simp only [Exec.map, observe, hf]
  · intro br1 br2 h1 h2
    obtain ⟨_, _, e1⟩ := br_open_ok_inv br0 br1 path bytes1 pm game h1
    obtain ⟨_, _, e2⟩ := br_open_ok_inv br0 br2 path bytes2 pm game h2
    subst e1 e2
    refine ⟨?_, rfl, rfl⟩
    simp only [br_read_blobs, opened, BR_HEADER_SIZE]
    rw [hlen]
    apply br_read_blobs_loop_forget
    · rw [forget_unzip_eq_iff]
      simp [fseek_set, strip, hlen, htake, hdrop]
    · rfl
    · rfl
    · exact hlen
    · exact hdrop
    · simp [fseek_set]

theorem C7_unzip_size_unverified_witness :
    (sample_bundle.length = sample_bundle_resized.length ∧
      sample_bundle.take 4 = sample_bundle_resized.take 4 ∧
      sample_bundle.drop 8 = sample_bundle_resized.drop 8) ∧
    ((br_open blank "a.bundle" (some sample_bundle) true .GAME_VT2).map observe =
      (br_open blank "a.bundle" (some sample_bundle_resized) true .GAME_VT2).map observe ∧
    ∀ br1 br2,
      br_open blank "a.bundle" (some sample_bundle) true .GAME_VT2 = .returns (EC_OK, br1) →
      br_open blank "a.bundle" (some sample_bundle_resized) true .GAME_VT2
        = .returns (EC_OK, br2) →
      (br_read_blobs (fun _ => true) br1).map observe
        = (br_read_blobs (fun _ => true) br2).map observe ∧
      br1.unzip_size = to_uint32 ((sample_bundle.drop 4).take 4) ∧
      br2.unzip_size = to_uint32 ((sample_bundle_resized.drop 4).take 4)) :=
  ⟨⟨by decide, by decide, by decide⟩,
    C7_unzip_size_unverified blank "a.bundle" sample_bundle sample_bundle_resized true
      (fun _ => true) .GAME_VT2 (by decide) (by decide) (by decide)⟩

/-! ## The C library model conforms -/

theorem htuple_comp_le_iff (a b : HashTuple) : htuple_comp a b ≤ 0 ↔ a.hash ≤ b.hash := by
  unfold htuple_comp
  split_ifs <;> simp <;> omega

theorem htuple_comp_eq_zero_iff (a b : HashTuple) : htuple_comp a b = 0 ↔ a.hash = b.hash := by
  unfold htuple_comp
  split_ifs <;> simp <;> omega

theorem htuple_comp_neg_iff (a b : HashTuple) : htuple_comp a b < 0 ↔ a.hash < b.hash := by
  unfold htuple_comp
  split_ifs <;> simp <;> omega

theorem htuple_comp_pos_iff (a b : HashTuple) : htuple_comp a b > 0 ↔ b.hash < a.hash := by
  unfold htuple_comp
  split_ifs <;> simp <;> omega

theorem bsearch_loop_some (key : HashTuple) (base : List HashTuple) (fuel : Nat) :
    ∀ (l u : Nat) (t : HashTuple),
      bsearch_loop key base htuple_comp fuel l u = some t →
      t ∈ base ∧ htuple_comp key t = 0 := by
  induction fuel with
  | zero => intro l u t h; simp [bsearch_loop] at h
  | succ fuel ih =>
    intro l u t h
    rw [bsearch_loop] at h
    by_cases hlu : l < u
    · simp only [hlu, if_true] at h
      cases hp : base[(l + u) / 2]? with
      | none => simp [hp] at h
      | some p =>
        simp only [hp] at h
        by_cases h1 : htuple_comp key p < 0
        · rw [if_pos h1] at h
          exact ih _ _ _ h
        · rw [if_neg h1] at h
          by_cases h2 : htuple_comp key p > 0
          · rw [if_pos h2] at h
            exact ih _ _ _ h
          · rw [if_neg h2] at h
            injection h with h
            subst h
            exact ⟨List.getElem?_mem hp, by omega⟩
    · simp [hlu] at h

theorem bsearch_loop_none (key : HashTuple) (base : List HashTuple)
    (hs : base.Pairwise (fun a b => htuple_comp a b ≤ 0)) (fuel : Nat) :
    ∀ (l u : Nat), u ≤ base.length → u - l < fuel →
      bsearch_loop key base htuple_comp fuel l u = none →
      ∀ (i : Nat) (t : HashTuple), l ≤ i → i < u → base[i]? = some t →
        htuple_comp key t ≠ 0 := by
  induction fuel with
  | zero => intro l u _ hf; omega
  | succ fuel ih =>
    intro l u hu hf h i t hli hiu hit
    have hlu : l < u := by omega
    rw [bsearch_loop] at h
    simp only [hlu, if_true] at h
    have hidx : (l + u) / 2 < base.length := by omega
    have hp : base[(l + u) / 2]? = some base[(l + u) / 2] := List.getElem?_eq_getElem hidx
    simp only [hp] at h
    have hi : i < base.length := by omega
    have hti : t = base[i] := by
      rw [List.getElem?_eq_getElem hi] at hit
      exact (Option.some.inj hit).symm
    have hsorted := List.pairwise_iff_getElem.mp hs
    by_cases h1 : htuple_comp key base[(l + u) / 2] < 0
    · rw [if_pos h1] at h
      by_cases hcase : i < (l + u) / 2
      · exact ih l _ (by omega) (by omega) h i t hli hcase hit
      · rw [htuple_comp_neg_iff] at h1
        rw [Ne, htuple_comp_eq_zero_iff, hti]
        by_cases heq : i = (l + u) / 2
        · subst heq
          omega
        · have := hsorted ((l + u) / 2) i hidx hi (by omega)
          rw [htuple_comp_le_iff] at this
          omega
    · rw [if_neg h1] at h
      by_cases h2 : htuple_comp key base[(l + u) / 2] > 0
      · rw [if_pos h2] at h
        by_cases hcase : (l + u) / 2 + 1 ≤ i
        · exact ih _ u hu (by omega) h i t hcase hiu hit
        · rw [htuple_comp_pos_iff] at h2
          rw [Ne, htuple_comp_eq_zero_iff, hti]
          by_cases heq : i = (l + u) / 2
          · subst heq
            omega
          · have := hsorted i ((l + u) / 2) hi hidx (by omega)
            rw [htuple_comp_le_iff] at this
            omega
      · rw [if_neg h2] at h
        cases h

theorem stdlib_conforms : stdlib.Conforms := by
  refine ⟨fun base => ⟨?_, ?_⟩, fun key base hs => ⟨?_, ?_⟩⟩
  · exact List.perm_insertionSort _ base
  · have htot : IsTotal HashTuple (fun a b => htuple_comp a b ≤ 0) :=
      ⟨fun a b => by rw [htuple_comp_le_iff, htuple_comp_le_iff]; omega⟩
    have htr : IsTrans HashTuple (fun a b => htuple_comp a b ≤ 0) :=
      ⟨fun a b c => by
        rw [htuple_comp_le_iff, htuple_comp_le_iff, htuple_comp_le_iff]; omega⟩
    exact List.sorted_insertionSort (fun a b => htuple_comp a b ≤ 0) base
  · intro t ht
    exact bsearch_loop_some key base _ _ _ t ht
  · intro hnone t ht
    obtain ⟨i, hi, hit⟩ := List.getElem_of_mem ht
    exact bsearch_loop_none key base hs _ 0 base.length (Nat.le_refl _) (by omega) hnone i t
      (Nat.zero_le _) hi (by rw [List.getElem?_eq_getElem hi, hit])

/-! ## The hash lookup table -/

theorem hl_read_from_file_loop_succ (H : List Byte → Nat → Nat) (fuel : Nat)
    (fe mo : Nat → Bool) (inp : FILE) (count : Int) (list : List HashTuple)
    (first : Option HashTuple) (c : Int) (l : List HashTuple) (f : Option HashTuple)
    (i : FILE)
    (h : hl_read_from_file_loop H fe mo (fuel + 1) inp count list first
      = .returns (c, l, f, i))
    (hc : 0 ≤ c) :
    (c = count ∧ l = list ∧ f = first) ∨
    ∃ (t : HashTuple) (inp2 : FILE),
      hl_read_from_file_loop H (fun k => fe (k + 1)) (fun k => mo (k + 1)) fuel inp2
        (count + 1) (t :: list) (if first.isNone then some t else first)
        = .returns (c, l, f, i) := by
  rw [hl_read_from_file_loop] at h
  cases hfe : fe 0 with
  | true =>
    simp only [hfe, if_true, Exec.returns.injEq, Prod.mk.injEq] at h
    omega
  | false =>
    simp only [hfe, Bool.false_eq_true, if_false] at h
    cases hg : fgets 256 inp with
    | mk res inp2 =>
      cases res with
      | none =>
        simp only [hg] at h
        split_ifs at h
        · simp only [Exec.returns.injEq, Prod.mk.injEq] at h
          exact Or.inl ⟨h.1.symm, h.2.1.symm, h.2.2.1.symm⟩
        · simp only [Exec.returns.injEq, Prod.mk.injEq] at h
          omega
      | some buffer =>
        simp only [hg] at h
        have key : ∀ text : List Byte,
            (match htuple_prepend H (mo 0) list text with
              | (ret, list2) =>
                if 0 ≠ ret then Exec.returns (-1, list2, first, inp2)
                else
                  let first2 := if first.isNone = true then list2.head? else first
                  if count + 1 > INT_MAX then Exec.undefined
                  else hl_read_from_file_loop H (fun k => fe (k + 1))
                    (fun k => mo (k + 1)) fuel inp2 (count + 1) list2 first2)
              = Exec.returns (c, l, f, i) →
            ∃ (t : HashTuple) (inp2 : FILE),
              hl_read_from_file_loop H (fun k => fe (k + 1)) (fun k => mo (k + 1)) fuel inp2
                (count + 1) (t :: list) (if first.isNone then some t else first)
                = .returns (c, l, f, i) := by
          intro text h
          simp only [htuple_prepend, htuple_new] at h
          cases hm : mo 0 with
          | false =>
            simp [hm, EC_MEMORY_ERROR] at h
            omega
          | true =>
            simp only [hm, Bool.not_true, Bool.false_eq_true, if_false, EC_OK, ne_eq,
              not_true_eq_false, List.head?_cons] at h
            cases first with
            | none =>
              simp only [Option.isNone_none, if_true] at h ⊢
              split_ifs at h
              exact ⟨_, _, h⟩
            | some x =>
              simp only [Option.isNone_some, Bool.false_eq_true, if_false] at h ⊢
              split_ifs at h
              exact ⟨_, _, h⟩
        cases hs : strrchr buffer 10 with
        | none =>
          simp only [hs] at h
          by_cases heof : inp2.eof = true
          · simp only [heof, Bool.not_true, Bool.false_eq_true, if_false] at h
            exact Or.inr (key _ h)
          · simp only [heof, Bool.not_false, Bool.not_eq_true] at h
            simp at h
            omega
        | some nl =>
          simp only [hs] at h
          exact Or.inr (key _ h)

theorem hl_read_from_file_loop_count (H : List Byte → Nat → Nat) (fuel : Nat) :
    ∀ (fe mo : Nat → Bool) (inp : FILE) (count : Int) (list : List HashTuple)
      (first : Option HashTuple) (c : Int) (l : List HashTuple) (f : Option HashTuple)
      (i : FILE),
      hl_read_from_file_loop H fe mo fuel inp count list first = .returns (c, l, f, i) →
      0 ≤ c → count = list.length → c = l.length := by
  induction fuel with
  | zero => intro fe mo inp count list first c l f i h; simp [hl_read_from_file_loop] at h
  | succ fuel ih =>
    intro fe mo inp count list first c l f i h hc hcount
    rcases hl_read_from_file_loop_succ H fuel fe mo inp count list first c l f i h hc with
      ⟨h1, h2, -⟩ | ⟨t, inp2, h2⟩
    · rw [h1, h2, hcount]
    · exact ih _ _ _ _ _ _ c l f i h2 hc (by simp [hcount])

theorem hl_read_from_file_inv (H : List Byte → Nat → Nat) (fe mo : Nat → Bool)
    (hl hl' : HashLookup) (inp : FILE) (n : Int)
    (h : hl_read_from_file H fe mo hl inp = .returns (n, hl')) (hn : 0 ≤ n)
    (hcount : hl.count = hl.list.length) :
    hl'.count = hl'.list.length ∧ hl'.is_dirty = 1 := by
  unfold hl_read_from_file at h
  cases hloop : hl_read_from_file_loop H fe mo (inp.bytes.length + 1) inp 0 [] none with
  | exits s => simp [hloop] at h
  | undefined => simp [hloop] at h
  | outOfFuel => simp [hloop] at h
  | returns a =>
    obtain ⟨c, l, f, i⟩ := a
    simp only [hloop] at h
    by_cases h1 : c < 0
    · simp only [h1, if_true, Exec.returns.injEq, Prod.mk.injEq] at h
      omega
    · simp only [h1, if_false] at h
      cases f with
      | none => simp at h
      | some x =>
        simp only at h
        by_cases h2 : hl.count + c > INT_MAX
        · simp [h2] at h
        · simp only [h2, if_false, Exec.returns.injEq, Prod.mk.injEq] at h
          obtain ⟨hcn, hhl⟩ := h
          have hcl := hl_read_from_file_loop_count H _ fe mo inp 0 [] none c l (some x) i
            hloop (by omega) (by simp)
          subst hhl
          simp [hcount, hcl]
          omega

theorem Loaded_inv (H : List Byte → Nat → Nat) (hl : HashLookup) (h : Loaded H hl) :
    hl.count = hl.list.length ∧
      ((hl.is_dirty = 0 ∧ hl.list = [] ∧ hl.array = none) ∨ hl.is_dirty = 1) := by
  induction h with
  | init hl0 => simp [ hl_initialize]
  | read hl hl' fe mo inp n _ hread hn ih =>
    have := hl_read_from_file_inv H fe mo hl hl' inp n hread hn ih.1
    exact ⟨this.1, Or.inr this.2⟩

theorem hl_force_rebuild_dirty (libc : Libc) (hl : HashLookup) (hd : hl.is_dirty ≠ 0)
    (hcount : hl.count = hl.list.length) :
    hl_force_rebuild libc true hl =
      .returns (1, { hl with array := some (libc.qsort hl.list htuple_comp), is_dirty := 0 }) := by
  simp [hl_force_rebuild, hd, hcount]

theorem hl_force_rebuild_clean (libc : Libc) (malloc_ok : Bool) (hl : HashLookup)
    (hd : hl.is_dirty = 0) : hl_force_rebuild libc malloc_ok hl = .returns (0, hl) := by
  simp [hl_force_rebuild, hd]

theorem hl_find_eq (libc : Libc) (hconf : libc.Conforms) (H : List Byte → Nat → Nat)
    (hl : HashLookup) (hr : Loaded H hl) (hash : Nat) (text : List Byte) :
    ∃ (base : List HashTuple) (hl2 : HashLookup),
      base.Perm hl.list ∧ base.Pairwise (fun a b => htuple_comp a b ≤ 0) ∧
      hl2.list = hl.list ∧ hl2.count = hl.count ∧ hl2.is_dirty = 0 ∧
      hl_find libc true hl hash text =
        match libc.bsearch ⟨needle, hash⟩ base htuple_comp with
        | none => .returns (EC_NOT_FOUND, hl2, text)
        | some found => .returns (EC_OK, hl2, found.text) := by
  obtain ⟨hcount, hstate⟩ := Loaded_inv H hl hr
  rcases hstate with ⟨hd, hlist, harr⟩ | hd
  · refine ⟨[], hl, by rw [hlist], List.Pairwise.nil, rfl, rfl, hd, ?_⟩
    have hc0 : hl.count = 0 := by rw [hcount, hlist]; rfl
    obtain ⟨count, dirty, list, array⟩ := hl
    simp only at hd harr hc0
    subst hd harr hc0
    simp [hl_find]
  · have hd0 : hl.is_dirty ≠ 0 := by rw [hd]; decide
    obtain ⟨hperm, hsorted⟩ := hconf.1 hl.list
    refine ⟨libc.qsort hl.list htuple_comp,
      { hl with array := some (libc.qsort hl.list htuple_comp), is_dirty := 0 },
      hperm, hsorted, rfl, rfl, rfl, ?_⟩
    · simp only [hl_find, hd0, ne_eq, not_false_eq_true, if_true,
        hl_force_rebuild_dirty libc hl hd0 hcount]
      have hlen : ((libc.qsort hl.list htuple_comp).length : Int) = hl.count := by
        rw [hcount, hperm.length_eq]
      have hle : 0 ≤ hl.count ∧ hl.count ≤ ((libc.qsort hl.list htuple_comp).length : Int) := by
        omega
      have htake : List.take hl.count.toNat (libc.qsort hl.list htuple_comp)
          = libc.qsort hl.list htuple_comp := by
        apply List.take_of_length_le
        omega
      simp only [EC_OK, gt_iff_lt, Int.reduceLT, if_false, hle, and_self, if_true, htake]

/-- C8: on a dictionary reached from `hl_initialize` by successful
`hl_read_from_file` calls, `hl_find` of a hash that some entry has returns `EC_OK`
and sets the text to the text of a current entry with that hash; of a hash no
entry has it returns `EC_NOT_FOUND` and leaves the text alone.  The entries are
not changed.  (For every C library that keeps the contract of `qsort` and
`bsearch`; the array allocation of the rebuild succeeding.) -/
theorem C8_hl_find (libc : Libc) (hconf : libc.Conforms) (H : List Byte → Nat → Nat)
    (hl : HashLookup) (hr : Loaded H hl) (hash : Nat) (text : List Byte) :
    ((∃ t ∈ hl.list, t.hash = hash) →
      ∃ t hl2, t ∈ hl.list ∧ t.hash = hash ∧ hl2.list = hl.list ∧
        hl_find libc true hl hash text = .returns (EC_OK, hl2, t.text)) ∧
    ((∀ t ∈ hl.list, t.hash ≠ hash) →
      ∃ hl2, hl2.list = hl.list ∧
        hl_find libc true hl hash text = .returns (EC_NOT_FOUND, hl2, text)) := by
  obtain ⟨base, hl2, hperm, hsorted, hlist, -, -, hfind⟩ :=
    hl_find_eq libc hconf H hl hr hash text
  obtain ⟨hsome, hnone⟩ := hconf.2 ⟨needle, hash⟩ base hsorted
  constructor
  · rintro ⟨t, ht, hth⟩
    cases hb : libc.bsearch ⟨needle, hash⟩ base htuple_comp with
    | none =>
      have := hnone hb t (hperm.mem_iff.mpr ht)
      rw [Ne, htuple_comp_eq_zero_iff] at this
      exact absurd hth.symm this
    | some found =>
      obtain ⟨hmem, hcomp⟩ := hsome found hb
      rw [htuple_comp_eq_zero_iff] at hcomp
      refine ⟨found, hl2, hperm.mem_iff.mp hmem, hcomp.symm, hlist, ?_⟩
      rw [hfind, hb]
  · intro hall
    cases hb : libc.bsearch ⟨needle, hash⟩ base htuple_comp with
    | none =>
      refine ⟨hl2, hlist, ?_⟩
      rw [hfind, hb]
    | some found =>
      obtain ⟨hmem, hcomp⟩ := hsome found hb
      rw [htuple_comp_eq_zero_iff] at hcomp
      exact absurd hcomp.symm (hall found (hperm.mem_iff.mp hmem))

theorem C8_hl_find_witness :
    (stdlib.Conforms ∧ Loaded sample_hash sample_table) ∧
    (((∃ t ∈ sample_table.list, t.hash = sample_hash foo 0) →
      ∃ t hl2, t ∈ sample_table.list ∧ t.hash = sample_hash foo 0 ∧
        hl2.list = sample_table.list ∧
        hl_find stdlib true sample_table (sample_hash foo 0) []
          = .returns (EC_OK, hl2, t.text)) ∧
    ((∀ t ∈ sample_table.list, t.hash ≠ sample_hash foo 0) →
      ∃ hl2, hl2.list = sample_table.list ∧
        hl_find stdlib true sample_table (sample_hash foo 0) []
          = .returns (EC_NOT_FOUND, hl2, []))) ∧
    hl_find stdlib true sample_table (sample_hash foo 0) []
      = .returns (EC_OK,
          { sample_table with
            is_dirty := 0, array := some [⟨[97], 97⟩, ⟨[98], 98⟩, ⟨foo, 324⟩] }, foo) ∧
    hl_find stdlib true sample_table 5 [1] = .returns (EC_NOT_FOUND,
          { sample_table with
            is_dirty := 0, array := some [⟨[97], 97⟩, ⟨[98], 98⟩, ⟨foo, 324⟩] }, [1]) ∧
    hl_find stdlib false ( hl_initialize sample_table).2 5 [1]
      = .returns (EC_NOT_FOUND, ( hl_initialize sample_table).2, [1]) :=
  ⟨⟨stdlib_conforms,
      Loaded.read _ _ (fun _ => false) (fun _ => true) sample_lines 3
        (Loaded.init sample_table) (by decide) (by decide)⟩,
    C8_hl_find stdlib stdlib_conforms sample_hash sample_table
      (Loaded.read _ _ (fun _ => false) (fun _ => true) sample_lines 3
        (Loaded.init sample_table) (by decide) (by decide)) (sample_hash foo 0) [],
    by decide, by decide, by decide⟩

/-- C9: on a dirty dictionary whose count is the length of its list,
`hl_force_rebuild`, its allocation succeeding, leaves an array of `count` elements
that is a permutation of the list in non-decreasing order of hash, clears
`is_dirty` and changes neither list nor count.  (For every C library that keeps
the contract of `qsort`.) -/
theorem C9_force_rebuild_sorted_perm (libc : Libc) (hconf : libc.Conforms)
    (hl : HashLookup) (hd : hl.is_dirty ≠ 0) (hcount : hl.count = hl.list.length) :
    ∃ hl2 array, hl_force_rebuild libc true hl = .returns (1, hl2) ∧
      hl2.array = some array ∧ (array.length : Int) = hl.count ∧
      array.Perm hl.list ∧ array.Pairwise (fun a b => a.hash ≤ b.hash) ∧
      hl2.is_dirty = 0 ∧ hl2.list = hl.list ∧ hl2.count = hl.count := by
  obtain ⟨hperm, hsorted⟩ := hconf.1 hl.list
  refine ⟨_, libc.qsort hl.list htuple_comp, hl_force_rebuild_dirty libc hl hd hcount, rfl,
    ?_, hperm, ?_, rfl, rfl, rfl⟩
  · rw [hcount, hperm.length_eq]
  · exact hsorted.imp (fun {a b} h => (htuple_comp_le_iff a b).mp h)

theorem C9_force_rebuild_sorted_perm_witness :
    (stdlib.Conforms ∧ sample_table.is_dirty ≠ 0 ∧
      sample_table.count = sample_table.list.length) ∧
    ∃ hl2 array, hl_force_rebuild stdlib true sample_table = .returns (1, hl2) ∧
      hl2.array = some array ∧ (array.length : Int) = sample_table.count ∧
      array.Perm sample_table.list ∧ array.Pairwise (fun a b => a.hash ≤ b.hash) ∧
      hl2.is_dirty = 0 ∧ hl2.list = sample_table.list ∧ hl2.count = sample_table.count :=
  ⟨⟨stdlib_conforms, by decide, by decide⟩,
    C9_force_rebuild_sorted_perm stdlib stdlib_conforms sample_table (by decide) (by decide)⟩

/-- C10: `hl_force_rebuild` on a clean dictionary returns 0 and changes no field;
and a second call leaves the state the first call produced: after a first call
that succeeded, whatever the second allocation does, and in every case when the
second allocation fares as the first. -/
theorem C10_force_rebuild_idempotent (libc : Libc) :
    (∀ (malloc_ok : Bool) (hl : HashLookup), hl.is_dirty = 0 →
      hl_force_rebuild libc malloc_ok hl = .returns (0, hl)) ∧
    (∀ (hl hl1 : HashLookup) (r : Int),
      hl_force_rebuild libc true hl = .returns (r, hl1) →
      ∀ malloc_ok2, hl_force_rebuild libc malloc_ok2 hl1 = .returns (0, hl1)) ∧
    (∀ (malloc_ok : Bool) (hl hl1 : HashLookup) (r : Int),
      hl_force_rebuild libc malloc_ok hl = .returns (r, hl1) →
      ∃ r2, hl_force_rebuild libc malloc_ok hl1 = .returns (r2, hl1)) := by
  have hclean := hl_force_rebuild_clean libc
  have hsucc : ∀ (hl hl1 : HashLookup) (r : Int),
      hl_force_rebuild libc true hl = .returns (r, hl1) → hl1.is_dirty = 0 := by
    intro hl hl1 r h
    by_cases hd : hl.is_dirty = 0
    · rw [hclean true hl hd] at h
      simp only [Exec.returns.injEq, Prod.mk.injEq] at h
      rw [← h.2]
      exact hd
    · by_cases hcount : hl.count = hl.list.length
      · rw [hl_force_rebuild_dirty libc hl hd hcount] at h
        simp only [Exec.returns.injEq, Prod.mk.injEq] at h
        rw [← h.2]
      · simp [hl_force_rebuild, hd, hcount] at h
  refine ⟨hclean, fun hl hl1 r h m2 => hclean m2 hl1 (hsucc hl hl1 r h), ?_⟩
  intro malloc_ok hl hl1 r h
  cases malloc_ok with
  | true => exact ⟨0, hclean true hl1 (hsucc hl hl1 r h)⟩
  | false =>
    by_cases hd : hl.is_dirty = 0
    · rw [hclean false hl hd] at h
      simp only [Exec.returns.injEq, Prod.mk.injEq] at h
      rw [← h.2]
      exact ⟨0, hclean false hl hd⟩
    · simp only [hl_force_rebuild, hd, if_false, Bool.false_eq_true, if_true,
        Exec.returns.injEq, Prod.mk.injEq] at h
      rw [← h.2]
      refine ⟨EC_MEMORY_ERROR, ?_⟩
      simp [hl_force_rebuild, hd]

/-! ## printf conversions -/

theorem digits_be_lt (base : Nat) (hb : 0 < base) (fuel : Nat) :
    ∀ (n : Nat) (acc : List Nat), (∀ d ∈ acc, d < base) →
      ∀ d ∈ digits_be base fuel n acc, d < base := by
  induction fuel with
  | zero => intro n acc h; simpa [digits_be] using h
  | succ fuel ih =>
    intro n acc h
    rw [digits_be]
    split_ifs
    · exact h
    · apply ih
      intro d hd
      rcases List.mem_cons.mp hd with rfl | hd
      · exact Nat.mod_lt _ hb
      · exact h d hd

theorem digits_be_foldl (base : Nat) (hb : 2 ≤ base) (fuel : Nat) :
    ∀ (n : Nat) (acc : List Nat), n ≤ fuel →
      (digits_be base fuel n acc).foldl (fun a d => a * base + d) 0
        = acc.foldl (fun a d => a * base + d) n := by
  induction fuel with
  | zero =>
    intro n acc h
    have : n = 0 := by omega
    subst this
    rfl
  | succ fuel ih =>
    intro n acc h
    rw [digits_be]
    split_ifs with h0
    · subst h0
      rfl
    · have hdiv : n / base ≤ fuel := by
        have : n / base < n := Nat.div_lt_self (by omega) (by omega)
        omega
      rw [ih (n / base) _ hdiv, List.foldl_cons, Nat.div_add_mod']

theorem digits_be_length (base : Nat) (hb : 2 ≤ base) (k : Nat) :
    ∀ (fuel n : Nat) (acc : List Nat), n < base ^ k →
      (digits_be base fuel n acc).length ≤ k + acc.length := by
  induction k with
  | zero =>
    intro fuel n acc h
    have : n = 0 := by simpa using h
    subst this
    cases fuel <;> simp [digits_be]
  | succ k ih =>
    intro fuel n acc h
    cases fuel with
    | zero => simp [digits_be]
    | succ fuel =>
      rw [digits_be]
      split_ifs with h0
      · omega
      · have hdiv : n / base < base ^ k := by
          rw [Nat.div_lt_iff_lt_mul (by omega)]
          rw [pow_succ] at h
          exact h
        have := ih fuel (n / base) (n % base :: acc) hdiv
        simp only [List.length_cons] at this
        omega

theorem hex_val_digit_char (d : Nat) (h : d < 16) : hex_val (digit_char d) = some d := by
  interval_cases d <;> rfl

theorem parse_hex_from_map (l : List Nat) :
    ∀ (a : Nat), (∀ d ∈ l, d < 16) →
      parse_hex_from a (l.map digit_char) = some (l.foldl (fun a d => a * 16 + d) a) := by
  induction l with
  | nil => intro a _; rfl
  | cons d l ih =>
    intro a h
    simp only [List.map_cons, parse_hex_from, hex_val_digit_char d (h d (List.mem_cons_self _ _)),
      List.foldl_cons]
    exact ih _ (fun x hx => h x (List.mem_cons_of_mem _ hx))

theorem parse_hex_from_zeros (k : Nat) (s : List Byte) :
    parse_hex_from 0 (List.replicate k 48 ++ s) = parse_hex_from 0 s := by
  induction k with
  | zero => rfl
  | succ k ih =>
    rw [List.replicate_succ, List.cons_append, parse_hex_from]
    exact ih

theorem parse_hex_print_unsigned (n : Nat) : parse_hex (print_unsigned 16 n) = some n := by
  unfold print_unsigned parse_hex
  split_ifs with h0
  · subst h0
    rfl
  · rw [parse_hex_from_map _ 0 (digits_be_lt 16 (by omega) n n [] (by simp)),
      digits_be_foldl 16 (by omega) n n [] (Nat.le_refl _)]
    rfl

theorem parse_hex_printf_016x (n : Nat) : parse_hex (printf_016x n) = some n := by
  unfold printf_016x parse_hex
  rw [parse_hex_from_zeros]
  exact parse_hex_print_unsigned n

theorem length_print_unsigned_16 (n : Nat) (h : n < 2 ^ 64) :
    (print_unsigned 16 n).length ≤ 16 := by
  unfold print_unsigned
  split_ifs
  · simp
  · rw [List.length_map]
    exact digits_be_length 16 (by omega) 16 n n [] (by norm_num at h ⊢; exact h)

theorem length_printf_016x (n : Nat) (h : n < 2 ^ 64) : (printf_016x n).length = 16 := by
  have := length_print_unsigned_16 n h
  unfold printf_016x
  rw [List.length_append, List.length_replicate]
  omega

/-! ## Lines and C strings -/

theorem takeLine_of_not_mem (l : List Byte) (h : (10 : Byte) ∉ l) : takeLine l = l := by
  induction l with
  | nil => rfl
  | cons c rest ih =>
    simp only [List.mem_cons, not_or] at h
    rw [takeLine, if_neg (fun e => h.1 e.symm), ih h.2]

theorem takeLine_append (a r : List Byte) (h : (10 : Byte) ∉ a) :
    takeLine (a ++ 10 :: r) = a ++ [10] := by
  induction a with
  | nil => simp [takeLine]
  | cons c rest ih =>
    simp only [List.mem_cons, not_or] at h
    rw [List.cons_append, takeLine, if_neg (fun e => h.1 e.symm), ih h.2, List.cons_append]

theorem takeLine_uniq (l : List Byte) :
    ∀ (p s : List Byte), takeLine l = p ++ 10 :: s → s = [] ∧ (10 : Byte) ∉ p := by
  induction l with
  | nil => intro p s h; simp [takeLine] at h
  | cons c rest ih =>
    intro p s h
    rw [takeLine] at h
    split_ifs at h with hc
    · cases p with
      | nil => simp at h; exact ⟨h.2, by simp⟩
      | cons x p => simp at h
    · cases p with
      | nil => simp at h; exact absurd h.1 hc
      | cons x p =>
        simp only [List.cons_append, List.cons.injEq] at h
        obtain ⟨hs, hp⟩ := ih p s h.2
        refine ⟨hs, ?_⟩
        simp only [List.mem_cons, not_or]
        exact ⟨fun e => hc (h.1 ▸ e.symm), hp⟩

theorem takeLine_ne_nil (l : List Byte) (h : l ≠ []) : takeLine l ≠ [] := by
  cases l with
  | nil => exact absurd rfl h
  | cons c rest =>
    rw [takeLine]
    split_ifs <;> simp

theorem cstr_of_not_mem (l : List Byte) (h : (0 : Byte) ∉ l) : cstr l = l := by
  unfold cstr
  rw [List.takeWhile_eq_self_iff]
  intro x hx
  simp only [bne_iff_ne, ne_eq]
  intro e
  exact h (e ▸ hx)

theorem zero_not_mem_cstr (l : List Byte) : (0 : Byte) ∉ cstr l := by
  unfold cstr
  intro h
  have := List.mem_takeWhile_imp h
  simp at this

theorem cstr_isPrefix (l : List Byte) : cstr l <+: l := List.takeWhile_prefix _

theorem not_mem_cstr (l : List Byte) (c : Byte) (h : c ∉ l) : c ∉ cstr l :=
  fun hc => h ((cstr_isPrefix l).subset hc)

theorem strrchr_none_iff (s : List Byte) (c : Byte) : strrchr s c = none ↔ c ∉ cstr s := by
  unfold strrchr
  split_ifs with h <;> simp [h]

theorem strrchr_line (p : List Byte) (h0 : (0 : Byte) ∉ p) :
    strrchr (p ++ [10]) 10 = some p.length := by
  have hc : cstr (p ++ [10]) = p ++ [10] := by
    apply cstr_of_not_mem
    simp only [List.mem_append, List.mem_singleton, not_or]
    exact ⟨h0, by decide⟩
  unfold strrchr
  rw [hc, if_pos (by simp)]
  simp [List.indexOf_cons_self]

theorem strrchr_takeLine (l : List Byte) (nl : Nat)
    (h : strrchr (takeLine l) 10 = some nl) :
    ∃ p, takeLine l = p ++ [10] ∧ cstr (takeLine l) = p ++ [10] ∧ nl = p.length ∧
      (10 : Byte) ∉ p ∧ (0 : Byte) ∉ p := by
  have hmem : (10 : Byte) ∈ cstr (takeLine l) := by
    by_contra hn
    rw [(strrchr_none_iff _ _).mpr hn] at h
    cases h
  obtain ⟨p, s, hps⟩ := List.append_of_mem hmem
  obtain ⟨r, hr⟩ := cstr_isPrefix (takeLine l)
  have hl : takeLine l = p ++ 10 :: (s ++ r) := by
    rw [← hr, hps]; simp
  obtain ⟨hsr, hp10⟩ := takeLine_uniq l p (s ++ r) hl
  have hs : s = [] := (List.append_eq_nil.mp hsr).1
  have hr' : r = [] := (List.append_eq_nil.mp hsr).2
  subst hs hr'
  have hp0 : (0 : Byte) ∉ p := by
    intro h0
    apply zero_not_mem_cstr (takeLine l)
    rw [hps]
    exact List.mem_append_left _ h0
  refine ⟨p, by simpa using hl, hps, ?_, hp10, hp0⟩
  have hstr := strrchr_line p hp0
  have hl2 : takeLine l = p ++ [10] := by simpa using hl
  rw [hl2, hstr] at h
  exact (Option.some.inj h).symm

theorem cstr_append_of_mem (a b : List Byte) (h : (0 : Byte) ∈ a) : cstr (a ++ b) = cstr a := by
  induction a with
  | nil => simp at h
  | cons c rest ih =>
    unfold cstr at ih ⊢
    by_cases hc : c = 0
    · subst hc
      simp [List.takeWhile]
    · have hrest : (0 : Byte) ∈ rest := by
        rcases List.mem_cons.mp h with e | e
        · exact absurd e.symm hc
        · exact e
      simp only [List.cons_append, List.takeWhile_cons, bne_iff_ne, ne_eq, hc,
        not_false_eq_true, decide_True, if_true]
      rw [ih hrest]

/-! ## One call of fgets -/

theorem fgets_line (bytes : List Byte) (pos : Nat) (e : Bool) (a r : List Byte)
    (hdrop : bytes.drop pos = a ++ 10 :: r) (h10 : (10 : Byte) ∉ a) (hlen : a.length ≤ 254) :
    fgets 256 ⟨bytes, pos, e⟩ = (some (a ++ [10]), ⟨bytes, pos + (a.length + 1), e⟩) := by
  have htake : List.take 255 (a ++ 10 :: r) = a ++ 10 :: List.take (254 - a.length) r := by
    rw [List.take_append_eq_append_take, List.take_of_length_le (by omega)]
    have : 255 - a.length = (254 - a.length) + 1 := by omega
    rw [this, List.take_succ_cons]
  simp only [fgets, hdrop, Nat.add_one_sub_one, htake, takeLine_append _ _ h10]
  simp

theorem fgets_long (bytes : List Byte) (pos : Nat) (e : Bool) (a r : List Byte)
    (hdrop : bytes.drop pos = a ++ r) (h10 : (10 : Byte) ∉ a) (hlen : a.length = 255) :
    fgets 256 ⟨bytes, pos, e⟩ = (some a, ⟨bytes, pos + 255, e⟩) := by
  have htake : List.take 255 (a ++ r) = a := by
    rw [← hlen, List.take_left]
  have hne : a ≠ [] := by
    intro h; rw [h] at hlen; simp at hlen
  simp only [fgets, hdrop, Nat.add_one_sub_one, htake, takeLine_of_not_mem _ h10]
  simp [hne, hlen]

theorem fgets_last (bytes : List Byte) (pos : Nat) (e : Bool) (a : List Byte)
    (hdrop : bytes.drop pos = a) (hne : a ≠ []) (h10 : (10 : Byte) ∉ a)
    (hlen : a.length ≤ 254) :
    fgets 256 ⟨bytes, pos, e⟩ = (some a, ⟨bytes, pos + a.length, true⟩) := by
  have htake : List.take 255 a = a := List.take_of_length_le (by omega)
  have hlast : a.getLast? ≠ some 10 := by
    intro h
    exact h10 (List.mem_of_getLast?_eq_some h)
  simp only [fgets, hdrop, Nat.add_one_sub_one, htake, takeLine_of_not_mem _ h10]
  have hlt : a.length < 255 := by omega
  simp [hne, hlt, hlast]

theorem fgets_eof (bytes : List Byte) (pos : Nat) (e : Bool)
    (hdrop : bytes.drop pos = []) :
    fgets 256 ⟨bytes, pos, e⟩ = (none, ⟨bytes, pos, true⟩) := by
  simp [fgets, hdrop, takeLine]

theorem fgets_some (inp inp2 : FILE) (buffer : List Byte)
    (h : fgets 256 inp = (some buffer, inp2)) :
    buffer = takeLine ((inp.bytes.drop inp.pos).take 255) := by
  simp only [fgets, Nat.add_one_sub_one] at h
  split_ifs at h
  · simp at h
  · simp only [Prod.mk.injEq, Option.some.injEq] at h
    exact h.1.symm

/-! ## One iteration of the reading loop -/

theorem hl_read_from_file_loop_error (H : List Byte → Nat → Nat) (fe mo : Nat → Bool)
    (fuel : Nat) (inp : FILE) (count : Int) (list : List HashTuple)
    (first : Option HashTuple) (hfe : fe 0 = true) :
    hl_read_from_file_loop H fe mo (fuel + 1) inp count list first
      = .returns (-1, list, first, inp) := by
  rw [hl_read_from_file_loop]
  simp [hfe]

theorem hl_read_from_file_loop_line (H : List Byte → Nat → Nat) (fe mo : Nat → Bool)
    (fuel : Nat) (bytes : List Byte) (pos : Nat) (count : Int) (list : List HashTuple)
    (first : Option HashTuple) (a r : List Byte)
    (hdrop : bytes.drop pos = a ++ 10 :: r) (h10 : (10 : Byte) ∉ a) (hlen : a.length ≤ 254) :
    hl_read_from_file_loop H fe mo (fuel + 1) ⟨bytes, pos, false⟩ count list first =
      if fe 0 = true then .returns (-1, list, first, ⟨bytes, pos, false⟩)
      else if (0 : Byte) ∈ a then
        .returns (-1, list, first, ⟨bytes, pos + (a.length + 1), false⟩)
      else if mo 0 = false then
        .returns (-1, list, first, ⟨bytes, pos + (a.length + 1), false⟩)
      else if count + 1 > INT_MAX then .undefined
      else
        hl_read_from_file_loop H (fun k => fe (k + 1)) (fun k => mo (k + 1)) fuel
          ⟨bytes, pos + (a.length + 1), false⟩ (count + 1) (entry H a :: list)
          (if first.isNone then some (entry H a) else first) := by
  by_cases hfe : fe 0 = true
  · rw [if_pos hfe]
    exact hl_read_from_file_loop_error H fe mo fuel _ count list first hfe
  · rw [if_neg hfe, hl_read_from_file_loop]
    simp only [hfe, Bool.false_eq_true, if_false, fgets_line bytes pos false a r hdrop h10 hlen]
    by_cases h0 : (0 : Byte) ∈ a
    · have hnone : strrchr (a ++ [10]) 10 = none := by
        rw [strrchr_none_iff, cstr_append_of_mem a [10] h0]
        exact not_mem_cstr a 10 h10
      simp [hnone, h0]
    · have hsome := strrchr_line a h0
      have hc : cstr (a ++ [10]) = a ++ [10] := by
        apply cstr_of_not_mem
        simp only [List.mem_append, List.mem_singleton, not_or]
        exact ⟨h0, by decide⟩
      simp only [hsome, hc, List.take_left, if_neg h0, htuple_prepend, htuple_new,
        cstr_of_not_mem a h0]
      cases hm : mo 0 with
      | false => simp [EC_MEMORY_ERROR]
      | true =>
        simp only [Bool.not_true, Bool.false_eq_true, if_false, EC_OK, ne_eq,
          not_true_eq_false, List.head?_cons, entry]
        cases first <;> rfl

theorem hl_read_from_file_loop_long (H : List Byte → Nat → Nat) (fe mo : Nat → Bool)
    (fuel : Nat) (bytes : List Byte) (pos : Nat) (count : Int) (list : List HashTuple)
    (first : Option HashTuple) (a r : List Byte)
    (hdrop : bytes.drop pos = a ++ r) (h10 : (10 : Byte) ∉ a) (hlen : a.length = 255) :
    ∃ i, hl_read_from_file_loop H fe mo (fuel + 1) ⟨bytes, pos, false⟩ count list first
      = .returns (-1, list, first, i) := by
  by_cases hfe : fe 0 = true
  · exact ⟨_, hl_read_from_file_loop_error H fe mo fuel _ count list first hfe⟩
  · refine ⟨⟨bytes, pos + 255, false⟩, ?_⟩
    rw [hl_read_from_file_loop]
    have hnone : strrchr a 10 = none := by
      rw [strrchr_none_iff]
      exact not_mem_cstr a 10 h10
    simp [hfe, fgets_long bytes pos false a r hdrop h10 hlen, hnone]

theorem hl_read_from_file_loop_last (H : List Byte → Nat → Nat) (fe mo : Nat → Bool)
    (fuel : Nat) (bytes : List Byte) (pos : Nat) (e : Bool) (count : Int)
    (list : List HashTuple) (first : Option HashTuple) (a : List Byte)
    (hdrop : bytes.drop pos = a) (hne : a ≠ []) (h10 : (10 : Byte) ∉ a)
    (hlen : a.length ≤ 254) :
    hl_read_from_file_loop H fe mo (fuel + 1) ⟨bytes, pos, e⟩ count list first =
      if fe 0 = true then .returns (-1, list, first, ⟨bytes, pos, e⟩)
      else if mo 0 = false then .returns (-1, list, first, ⟨bytes, pos + a.length, true⟩)
      else if count + 1 > INT_MAX then .undefined
      else
        hl_read_from_file_loop H (fun k => fe (k + 1)) (fun k => mo (k + 1)) fuel
          ⟨bytes, pos + a.length, true⟩ (count + 1) (entry H (cstr a) :: list)
          (if first.isNone then some (entry H (cstr a)) else first) := by
  by_cases hfe : fe 0 = true
  · rw [if_pos hfe]
    exact hl_read_from_file_loop_error H fe mo fuel _ count list first hfe
  · rw [if_neg hfe, hl_read_from_file_loop]
    have hnone : strrchr a 10 = none := by
      rw [strrchr_none_iff]
      exact not_mem_cstr a 10 h10
    simp only [hfe, Bool.false_eq_true, if_false, fgets_last bytes pos e a hdrop hne h10 hlen,
      hnone, Bool.not_true, htuple_prepend, htuple_new]
    cases hm : mo 0 with
    | false => simp [EC_MEMORY_ERROR]
    | true =>
      simp only [Bool.not_true, Bool.false_eq_true, if_false, EC_OK, ne_eq,
        not_true_eq_false, List.head?_cons, entry]
      cases first <;> rfl

theorem hl_read_from_file_loop_eof (H : List Byte → Nat → Nat) (fe mo : Nat → Bool)
    (fuel : Nat) (bytes : List Byte) (pos : Nat) (e : Bool) (count : Int)
    (list : List HashTuple) (first : Option HashTuple)
    (hdrop : bytes.drop pos = []) (hfe : fe 0 = false) :
    hl_read_from_file_loop H fe mo (fuel + 1) ⟨bytes, pos, e⟩ count list first
      = .returns (count, list, first, ⟨bytes, pos, true⟩) := by
  rw [hl_read_from_file_loop]
  simp [hfe, fgets_eof bytes pos e hdrop]

theorem hl_read_from_file_loop_nomem (H : List Byte → Nat → Nat) (fe mo : Nat → Bool)
    (fuel : Nat) (inp : FILE) (count : Int) (list : List HashTuple)
    (first : Option HashTuple) (hdrop : inp.bytes.drop inp.pos ≠ []) (hmo : mo 0 = false) :
    ∃ i, hl_read_from_file_loop H fe mo (fuel + 1) inp count list first
      = .returns (-1, list, first, i) := by
  by_cases hfe : fe 0 = true
  · exact ⟨_, hl_read_from_file_loop_error H fe mo fuel _ count list first hfe⟩
  · rw [hl_read_from_file_loop]
    have hline : takeLine ((inp.bytes.drop inp.pos).take 255) ≠ [] := by
      apply takeLine_ne_nil
      intro h
      rw [List.take_eq_nil_iff] at h
      rcases h with h | h
      · omega
      · exact hdrop h
    simp only [hfe, Bool.false_eq_true, if_false, fgets, Nat.add_one_sub_one, hline]
    simp only [htuple_prepend, htuple_new, hmo, Bool.not_false, if_true, EC_MEMORY_ERROR]
    split <;> rename_i hs
    · exact ⟨_, rfl⟩
    · simp

/-! ## What the loaded texts look like -/

theorem hl_read_from_file_loop_succ_text (H : List Byte → Nat → Nat) (fuel : Nat)
    (fe mo : Nat → Bool) (inp : FILE) (count : Int) (list : List HashTuple)
    (first : Option HashTuple) (c : Int) (l : List HashTuple) (f : Option HashTuple)
    (i : FILE)
    (h : hl_read_from_file_loop H fe mo (fuel + 1) inp count list first
      = .returns (c, l, f, i))
    (hc : 0 ≤ c) :
    (c = count ∧ l = list ∧ f = first) ∨
    ∃ (t : HashTuple) (inp2 : FILE),
      (t.hash < 2 ^ 64 ∧ (10 : Byte) ∉ t.text ∧ (0 : Byte) ∉ t.text) ∧
      hl_read_from_file_loop H (fun k => fe (k + 1)) (fun k => mo (k + 1)) fuel inp2
        (count + 1) (t :: list) (if first.isNone then some t else first)
        = .returns (c, l, f, i) := by
  rw [hl_read_from_file_loop] at h
  cases hfe : fe 0 with
  | true =>
    simp only [hfe, if_true, Exec.returns.injEq, Prod.mk.injEq] at h
    omega
  | false =>
    simp only [hfe, Bool.false_eq_true, if_false] at h
    cases hg : fgets 256 inp with
    | mk res inp2 =>
      cases res with
      | none =>
        simp only [hg] at h
        split_ifs at h
        · simp only [Exec.returns.injEq, Prod.mk.injEq] at h
          exact Or.inl ⟨h.1.symm, h.2.1.symm, h.2.2.1.symm⟩
        · simp only [Exec.returns.injEq, Prod.mk.injEq] at h
          omega
      | some buffer =>
        simp only [hg] at h
        have key : ∀ text : List Byte, (10 : Byte) ∉ cstr text →
            (match htuple_prepend H (mo 0) list text with
              | (ret, list2) =>
                if 0 ≠ ret then Exec.returns (-1, list2, first, inp2)
                else
                  let first2 := if first.isNone = true then list2.head? else first
                  if count + 1 > INT_MAX then Exec.undefined
                  else hl_read_from_file_loop H (fun k => fe (k + 1))
                    (fun k => mo (k + 1)) fuel inp2 (count + 1) list2 first2)
              = Exec.returns (c, l, f, i) →
            ∃ (t : HashTuple) (inp2 : FILE),
              (t.hash < 2 ^ 64 ∧ (10 : Byte) ∉ t.text ∧ (0 : Byte) ∉ t.text) ∧
              hl_read_from_file_loop H (fun k => fe (k + 1)) (fun k => mo (k + 1)) fuel inp2
                (count + 1) (t :: list) (if first.isNone then some t else first)
                = .returns (c, l, f, i) := by
          intro text htext h
          simp only [htuple_prepend, htuple_new] at h
          cases hm : mo 0 with
          | false =>
            simp [hm, EC_MEMORY_ERROR] at h
            omega
          | true =>
            simp only [hm, Bool.not_true, Bool.false_eq_true, if_false, EC_OK, ne_eq,
              not_true_eq_false, List.head?_cons] at h
            have hP : (H (cstr text) 0 % 2 ^ 64 < 2 ^ 64) ∧ (10 : Byte) ∉ cstr text ∧
                (0 : Byte) ∉ cstr text :=
              ⟨Nat.mod_lt _ (by norm_num), htext, zero_not_mem_cstr text⟩
            cases first with
            | none =>
              simp only [Option.isNone_none, if_true] at h ⊢
              split_ifs at h
              exact ⟨_, _, hP, h⟩
            | some x =>
              simp only [Option.isNone_some, Bool.false_eq_true, if_false] at h ⊢
              split_ifs at h
              exact ⟨_, _, hP, h⟩
        cases hs : strrchr buffer 10 with
        | none =>
          simp only [hs] at h
          by_cases heof : inp2.eof = true
          · simp only [heof, Bool.not_true, Bool.false_eq_true, if_false] at h
            exact Or.inr (key _ ((strrchr_none_iff _ _).mp hs) h)
          · simp only [heof, Bool.not_false, Bool.not_eq_true] at h
            simp at h
            omega
        | some nl =>
          simp only [hs] at h
          have hb := fgets_some inp inp2 buffer hg
          rw [hb] at hs
          obtain ⟨p, -, hcp, hnl, hp10, -⟩ := strrchr_takeLine _ nl hs
          rw [← hb] at hcp
          refine Or.inr (key _ ?_ h)
          rw [hcp, hnl, List.take_left]
          exact not_mem_cstr p 10 hp10

theorem hl_read_from_file_loop_texts (H : List Byte → Nat → Nat) (fuel : Nat) :
    ∀ (fe mo : Nat → Bool) (inp : FILE) (count : Int) (list : List HashTuple)
      (first : Option HashTuple) (c : Int) (l : List HashTuple) (f : Option HashTuple)
      (i : FILE),
      hl_read_from_file_loop H fe mo fuel inp count list first = .returns (c, l, f, i) →
      0 ≤ c →
      (∀ t ∈ list, t.hash < 2 ^ 64 ∧ (10 : Byte) ∉ t.text ∧ (0 : Byte) ∉ t.text) →
      ∀ t ∈ l, t.hash < 2 ^ 64 ∧ (10 : Byte) ∉ t.text ∧ (0 : Byte) ∉ t.text := by
  induction fuel with
  | zero => intro fe mo inp count list first c l f i h; simp [hl_read_from_file_loop] at h
  | succ fuel ih =>
    intro fe mo inp count list first c l f i h hc hlist
    rcases hl_read_from_file_loop_succ_text H fuel fe mo inp count list first c l f i h hc with
      ⟨-, h2, -⟩ | ⟨t, inp2, hP, h2⟩
    · rw [h2]
      exact hlist
    · refine ih _ _ _ _ _ _ c l f i h2 hc ?_
      intro x hx
      rcases List.mem_cons.mp hx with rfl | hx
      · exact hP
      · exact hlist x hx

theorem hl_read_from_file_texts (H : List Byte → Nat → Nat) (fe mo : Nat → Bool)
    (hl hl' : HashLookup) (inp : FILE) (n : Int)
    (h : hl_read_from_file H fe mo hl inp = .returns (n, hl')) (hn : 0 ≤ n)
    (hlist : ∀ t ∈ hl.list, t.hash < 2 ^ 64 ∧ (10 : Byte) ∉ t.text ∧ (0 : Byte) ∉ t.text) :
    ∀ t ∈ hl'.list, t.hash < 2 ^ 64 ∧ (10 : Byte) ∉ t.text ∧ (0 : Byte) ∉ t.text := by
  unfold hl_read_from_file at h
  cases hloop : hl_read_from_file_loop H fe mo (inp.bytes.length + 1) inp 0 [] none with
  | exits s => simp [hloop] at h
  | undefined => simp [hloop] at h
  | outOfFuel => simp [hloop] at h
  | returns a =>
    obtain ⟨c, l, f, i⟩ := a
    simp only [hloop] at h
    by_cases h1 : c < 0
    · simp only [h1, if_true, Exec.returns.injEq, Prod.mk.injEq] at h
      omega
    · simp only [h1, if_false] at h
      cases f with
      | none => simp at h
      | some x =>
        simp only at h
        by_cases h2 : hl.count + c > INT_MAX
        · simp [h2] at h
        · simp only [h2, if_false, Exec.returns.injEq, Prod.mk.injEq] at h
          obtain ⟨-, hhl⟩ := h
          have hnew := hl_read_from_file_loop_texts H _ fe mo inp 0 [] none c l (some x) i
            hloop (by omega) (by simp)
          subst hhl
          intro t ht
          rcases List.mem_append.mp ht with ht | ht
          · exact hnew t ht
          · exact hlist t ht

theorem Loaded_texts (H : List Byte → Nat → Nat) (hl : HashLookup) (h : Loaded H hl) :
    ∀ t ∈ hl.list, t.hash < 2 ^ 64 ∧ (10 : Byte) ∉ t.text ∧ (0 : Byte) ∉ t.text := by
  induction h with
  | init hl0 => simp [ hl_initialize]
  | read hl hl' fe mo inp n _ hread hn ih =>
    exact hl_read_from_file_texts H fe mo hl hl' inp n hread hn ih

/-! ## Dumping the table -/

theorem htuple_write_eq (ht : HashTuple) (out : List Byte) :
    htuple_write ht out = out ++ htuple_write ht [] := by
  simp [htuple_write]

theorem hl_write_to_file_loop_eq (slots : List HashTuple) (remaining : Nat) :
    ∀ (i : Nat) (out : List Byte), i + remaining ≤ slots.length →
      hl_write_to_file_loop (some slots) remaining i out =
        .returns (out ++ (((slots.drop i).take remaining).map
          (fun t => htuple_write t [])).flatten) := by
  induction remaining with
  | zero => intro i out _; simp [hl_write_to_file_loop]
  | succ remaining ih =>
    intro i out h
    have hi : i < slots.length := by omega
    rw [hl_write_to_file_loop]
    simp only [List.getElem?_eq_getElem hi]
    rw [ih (i + 1) _ (by omega), List.drop_eq_getElem_cons hi, List.take_succ_cons,
      List.map_cons, List.flatten_cons, htuple_write_eq slots[i] out, List.append_assoc]

theorem hl_write_to_file_eq (libc : Libc) (hconf : libc.Conforms) (H : List Byte → Nat → Nat)
    (hl : HashLookup) (hr : Loaded H hl) (out : List Byte) :
    ∃ (written : List HashTuple) (hl2 : HashLookup),
      written.Perm hl.list ∧ written.Pairwise (fun a b => htuple_comp a b ≤ 0) ∧
      hl2.list = hl.list ∧ hl2.count = hl.count ∧ hl2.is_dirty = 0 ∧
      hl_write_to_file libc true hl out =
        .returns (EC_OK, hl2, out ++ (written.map (fun t => htuple_write t [])).flatten) := by
  obtain ⟨hcount, hstate⟩ := Loaded_inv H hl hr
  rcases hstate with ⟨hd, hlist, harr⟩ | hd
  · refine ⟨[], hl, by rw [hlist], List.Pairwise.nil, rfl, rfl, hd, ?_⟩
    have hc0 : hl.count = 0 := by rw [hcount, hlist]; rfl
    obtain ⟨count, dirty, list, array⟩ := hl
    simp only at hd harr hc0
    subst hd harr hc0
    simp [hl_write_to_file, hl_write_to_file_loop]
  · have hd0 : hl.is_dirty ≠ 0 := by rw [hd]; decide
    obtain ⟨hperm, hsorted⟩ := hconf.1 hl.list
    refine ⟨libc.qsort hl.list htuple_comp,
      { hl with array := some (libc.qsort hl.list htuple_comp), is_dirty := 0 },
      hperm, hsorted, rfl, rfl, rfl, ?_⟩
    have hlen : hl.count.toNat = (libc.qsort hl.list htuple_comp).length := by
      rw [hcount, hperm.length_eq]
      rfl
    simp only [hl_write_to_file, hd0, ne_eq, not_false_eq_true, if_true,
      hl_force_rebuild_dirty libc hl hd0 hcount, EC_OK, gt_iff_lt, Int.reduceLT, if_false]
    rw [hlen, hl_write_to_file_loop_eq _ _ 0 out (by omega)]
    simp

theorem parse_hex_from_mem (s : List Byte) :
    ∀ (a n : Nat), parse_hex_from a s = some n →
      ∀ c ∈ s, (48 ≤ c.val ∧ c.val ≤ 57) ∨ (97 ≤ c.val ∧ c.val ≤ 102) := by
  induction s with
  | nil => intro a n _ c hc; simp at hc
  | cons x s ih =>
    intro a n h c hc
    rw [parse_hex_from] at h
    cases hx : hex_val x with
    | none => simp [hx] at h
    | some d =>
      simp only [hx] at h
      rcases List.mem_cons.mp hc with rfl | hc
      · unfold hex_val at hx
        split_ifs at hx with h1 h2
        · exact Or.inl h1
        · exact Or.inr h2
      · exact ih _ _ h c hc

theorem printf_016x_chars (n : Nat) :
    ∀ c ∈ printf_016x n, (48 ≤ c.val ∧ c.val ≤ 57) ∨ (97 ≤ c.val ∧ c.val ≤ 102) :=
  parse_hex_from_mem _ 0 n (parse_hex_printf_016x n)

theorem pairwise_lt_of_nodup (l : List HashTuple)
    (hs : l.Pairwise (fun a b => a.hash ≤ b.hash)) (hn : (l.map (fun t => t.hash)).Nodup) :
    l.Pairwise (fun a b => a.hash < b.hash) := by
  rw [List.Nodup, List.pairwise_map] at hn
  exact (hs.and hn).imp (fun {a b} h => Nat.lt_of_le_of_ne h.1 h.2)

/-! ## Reading the dump back -/

theorem split_lines_line (body : List Byte) (h : (10 : Byte) ∉ body) (rest : List Byte) :
    split_lines (body ++ [10] ++ rest) = body :: split_lines rest := by
  induction body with
  | nil => simp [split_lines]
  | cons c body ih =>
    have hc : c ≠ 10 := fun hc => h (by simp [hc])
    have hb : (10 : Byte) ∉ body := fun hb => h (List.mem_cons_of_mem _ hb)
    have := ih hb
    simp only [List.cons_append, List.append_assoc] at this ⊢
    rw [split_lines, if_neg hc, this]

theorem split_lines_flatten (bodies : List (List Byte)) (h : ∀ b ∈ bodies, (10 : Byte) ∉ b) :
    split_lines (bodies.map (fun b => b ++ [10])).flatten = bodies := by
  induction bodies with
  | nil => rfl
  | cons b bodies ih =>
    rw [List.map_cons, List.flatten_cons, split_lines_line b (h b (List.mem_cons_self _ _)),
      ih (fun x hx => h x (List.mem_cons_of_mem _ hx))]

theorem body_no_newline (t : HashTuple) (h10 : (10 : Byte) ∉ t.text) :
    (10 : Byte) ∉ printf_016x t.hash ++ [32] ++ t.text := by
  simp only [List.mem_append, List.mem_singleton, not_or]
  refine ⟨⟨?_, by decide⟩, h10⟩
  intro h
  have := printf_016x_chars t.hash 10 h
  revert this
  decide

theorem decode_line_body (t : HashTuple) (h : t.hash < 2 ^ 64) :
    decode_line (printf_016x t.hash ++ [32] ++ t.text) = some t := by
  have hlen := length_printf_016x t.hash h
  have htake : (printf_016x t.hash ++ [32] ++ t.text).take 16 = printf_016x t.hash := by
    rw [List.append_assoc, List.take_left' hlen]
  have hdrop : (printf_016x t.hash ++ [32] ++ t.text).drop 17 = t.text := by
    rw [show printf_016x t.hash ++ [32] ++ t.text = (printf_016x t.hash ++ [32]) ++ t.text
      from rfl]
    exact List.drop_left' (by simp [hlen])
  have hget : (printf_016x t.hash ++ [32] ++ t.text).getD 16 0 = 32 := by
    rw [List.getD_eq_getElem?_getD, List.append_assoc,
      List.getElem?_append_right (by omega), hlen]
    simp
  unfold decode_line
  rw [htake, hdrop, hget, parse_hex_printf_016x, if_pos ⟨hlen, rfl⟩]
  rfl

theorem dumpLine_htuple_write (t : HashTuple) (h : t.hash < 2 ^ 64) :
    DumpLine t (htuple_write t []) := by
  have hlen := length_printf_016x t.hash h
  have htake : (htuple_write t []).take 16 = printf_016x t.hash := by
    simp only [htuple_write, List.nil_append, List.append_assoc]
    exact List.take_left' hlen
  have hdrop : (htuple_write t []).drop 16 = [32] ++ t.text ++ [10] := by
    simp only [htuple_write, List.nil_append, List.append_assoc]
    exact List.drop_left' hlen
  exact ⟨by rw [htake, hlen], by rw [htake]; exact printf_016x_chars t.hash,
    by rw [htake]; exact parse_hex_printf_016x t.hash, hdrop⟩

theorem flatten_lines_eq (written : List HashTuple) :
    (written.map (fun t => htuple_write t [])).flatten =
      ((written.map (fun t => printf_016x t.hash ++ [32] ++ t.text)).map
        (fun b => b ++ [10])).flatten := by
  rw [List.map_map]
  congr 1

theorem flatten_lines_last (bodies : List (List Byte)) :
    (bodies.map (fun b => b ++ [10])).flatten = [] ∨
      ((bodies.map (fun b => b ++ [10])).flatten).getLast? = some 10 := by
  rcases List.eq_nil_or_concat bodies with rfl | ⟨init, b, rfl⟩
  · exact Or.inl rfl
  · right
    rw [List.concat_eq_append, List.map_append, List.flatten_append]
    simp [List.getLast?_append]

theorem line_hash_body (t : HashTuple) (h : t.hash < 2 ^ 64) :
    line_hash (printf_016x t.hash ++ [32] ++ t.text) = some t.hash := by
  rw [line_hash, decode_line_body t h]
  rfl

/-- C11: on a dictionary filled by successful loads `hl_write_to_file` returns
`EC_OK`, and the bytes it appends to the output, read back line by line, are
`count` lines, each ended by a newline; decoding the lines (16 hexadecimal digits,
a space, the text) gives every current entry exactly once; and the hashes carried
by the lines are in non-decreasing order from the first line to the last,
strictly ascending when no two entries share a hash.  (For every C library that
keeps the contract of `qsort`; the array allocation succeeding.) -/
theorem C11_dump_sorted (libc : Libc) (hconf : libc.Conforms) (H : List Byte → Nat → Nat)
    (hl : HashLookup) (hr : Loaded H hl) (out : List Byte) :
    ∃ (appended : List Byte) (hl2 : HashLookup),
      hl_write_to_file libc true hl out = .returns (EC_OK, hl2, out ++ appended) ∧
      hl2.list = hl.list ∧ hl2.count = hl.count ∧
      (appended = [] ∨ appended.getLast? = some 10) ∧
      ((split_lines appended).length : Int) = hl.count ∧
      ((split_lines appended).map decode_line).Perm (hl.list.map some) ∧
      (split_lines appended).Pairwise
        (fun a b => ∃ x y, line_hash a = some x ∧ line_hash b = some y ∧ x ≤ y) ∧
      ((hl.list.map (fun t => t.hash)).Nodup →
        (split_lines appended).Pairwise
          (fun a b => ∃ x y, line_hash a = some x ∧ line_hash b = some y ∧ x < y)) := by
  obtain ⟨written, hl2, hperm, hsorted, hlist, hcount, -, hwrite⟩ :=
    hl_write_to_file_eq libc hconf H hl hr out
  have htexts : ∀ t ∈ written, t.hash < 2 ^ 64 ∧ (10 : Byte) ∉ t.text := fun t ht =>
    ⟨(Loaded_texts H hl hr t (hperm.mem_iff.mp ht)).1,
      (Loaded_texts H hl hr t (hperm.mem_iff.mp ht)).2.1⟩
  have hsplit : split_lines (written.map (fun t => htuple_write t [])).flatten =
      written.map (fun t => printf_016x t.hash ++ [32] ++ t.text) := by
    rw [flatten_lines_eq, split_lines_flatten]
    intro b hb
    obtain ⟨t, ht, rfl⟩ := List.mem_map.mp hb
    exact body_no_newline t (htexts t ht).2
  have hle : written.Pairwise (fun a b => a.hash ≤ b.hash) :=
    hsorted.imp (fun {a b} h => (htuple_comp_le_iff a b).mp h)
  refine ⟨_, hl2, hwrite, hlist, hcount, ?_, ?_, ?_, ?_, ?_⟩
  · rw [flatten_lines_eq]
    exact flatten_lines_last _
  · rw [hsplit, List.length_map, (Loaded_inv H hl hr).1, hperm.length_eq]
  · rw [hsplit, List.map_map]
    have : written.map (decode_line ∘ fun t => printf_016x t.hash ++ [32] ++ t.text)
        = written.map some :=
      List.map_congr_left (fun t ht => decode_line_body t (htexts t ht).1)
    rw [this]
    exact hperm.map some
  · rw [hsplit, List.pairwise_map]
    exact hle.imp_of_mem (fun {a b} ha hb h =>
      ⟨a.hash, b.hash, line_hash_body a (htexts a ha).1, line_hash_body b (htexts b hb).1, h⟩)
  · intro hn
    rw [hsplit, List.pairwise_map]
    exact (pairwise_lt_of_nodup written hle ((hperm.map _).nodup_iff.mpr hn)).imp_of_mem
      (fun {a b} ha hb h =>
        ⟨a.hash, b.hash, line_hash_body a (htexts a ha).1, line_hash_body b (htexts b hb).1, h⟩)

set_option maxRecDepth 100000 in
theorem C11_dump_sorted_witness :
    (stdlib.Conforms ∧ Loaded sample_hash sample_table2) ∧
    (∃ (appended : List Byte) (hl2 : HashLookup),
      hl_write_to_file stdlib true sample_table2 [] = .returns (EC_OK, hl2, [] ++ appended) ∧
      hl2.list = sample_table2.list ∧ hl2.count = sample_table2.count ∧
      (appended = [] ∨ appended.getLast? = some 10) ∧
      ((split_lines appended).length : Int) = sample_table2.count ∧
      ((split_lines appended).map decode_line).Perm (sample_table2.list.map some) ∧
      (split_lines appended).Pairwise
        (fun a b => ∃ x y, line_hash a = some x ∧ line_hash b = some y ∧ x ≤ y) ∧
      ((sample_table2.list.map (fun t => t.hash)).Nodup →
        (split_lines appended).Pairwise
          (fun a b => ∃ x y, line_hash a = some x ∧ line_hash b = some y ∧ x < y))) ∧
    hl_write_to_file stdlib true sample_table2 [] =
      .returns (EC_OK,
        { sample_table2 with
          is_dirty := 0, array := some [⟨[98], 98⟩, ⟨[99], 99⟩, ⟨[97, 97], 194⟩] },
        sample_dump2) ∧
    (split_lines sample_dump2).map decode_line
      = [some ⟨[98], 98⟩, some ⟨[99], 99⟩, some ⟨[97, 97], 194⟩] ∧
    (split_lines sample_dump2).map line_hash = [some 98, some 99, some 194] ∧
    sample_table2.list = [⟨[99], 99⟩, ⟨[98], 98⟩, ⟨[97, 97], 194⟩] :=
  ⟨⟨stdlib_conforms,
      Loaded.read _ _ (fun _ => false) (fun _ => true) sample_lines2 3
        (Loaded.init sample_table2) (by decide) (by decide)⟩,
    C11_dump_sorted stdlib stdlib_conforms sample_hash sample_table2
      (Loaded.read _ _ (fun _ => false) (fun _ => true) sample_lines2 3
        (Loaded.init sample_table2) (by decide) (by decide)) [],
    by decide, by decide, by decide, by decide⟩

theorem hl_write_to_file_loop_returns (array : Option (List HashTuple)) (remaining : Nat) :
    ∀ (i : Nat) (out out2 : List Byte),
      hl_write_to_file_loop array remaining i out = .returns out2 →
      (((array.getD []).drop i).take remaining).length = remaining ∧
      out2 = out ++ ((((array.getD []).drop i).take remaining).map
        (fun t => htuple_write t [])).flatten := by
  induction remaining with
  | zero =>
    intro i out out2 h
    simp only [hl_write_to_file_loop, Exec.returns.injEq] at h
    simp [h]
  | succ remaining ih =>
    intro i out out2 h
    cases array with
    | none => simp [hl_write_to_file_loop] at h
    | some slots =>
      cases hs : slots[i]? with
      | none => simp [hl_write_to_file_loop, hs] at h
      | some ht =>
        simp only [hl_write_to_file_loop, hs] at h
        obtain ⟨h1, h2⟩ := ih (i + 1) _ out2 h
        obtain ⟨hi, hget⟩ := List.getElem?_eq_some_iff.mp hs
        simp only [Option.getD_some] at h1 h2 ⊢
        rw [List.drop_eq_getElem_cons hi, List.take_succ_cons, hget]
        refine ⟨by rw [List.length_cons, h1], ?_⟩
        rw [h2, List.map_cons, List.flatten_cons, htuple_write_eq ht out, List.append_assoc]

theorem hl_write_to_file_written (hl : HashLookup) (out : List Byte) (code : Int)
    (hl2 : HashLookup) (out2 : List Byte)
    (h : (match hl_write_to_file_loop hl.array hl.count.toNat 0 out with
      | .returns out => Exec.returns (EC_OK, hl, out)
      | .exits s => .exits s
      | .undefined => .undefined
      | .outOfFuel => .outOfFuel) = .returns (code, hl2, out2)) :
    code = EC_OK ∧ hl2 = hl ∧
      ((hl.array.getD []).take hl.count.toNat).length = hl.count.toNat ∧
      out2 = out ++ (((hl.array.getD []).take hl.count.toNat).map
        (fun t => htuple_write t [])).flatten := by
  cases hloop : hl_write_to_file_loop hl.array hl.count.toNat 0 out with
  | exits s => simp [hloop] at h
  | undefined => simp [hloop] at h
  | outOfFuel => simp [hloop] at h
  | returns o =>
    simp only [hloop, Exec.returns.injEq, Prod.mk.injEq] at h
    obtain ⟨h1, h2, h3⟩ := h
    have := hl_write_to_file_loop_returns hl.array hl.count.toNat 0 out o hloop
    simp only [List.drop_zero] at this
    exact ⟨h1.symm, h2.symm, this.1, h3 ▸ this.2⟩

theorem hl_write_to_file_returns (libc : Libc) (malloc_ok : Bool) (hl : HashLookup)
    (out : List Byte) (code : Int) (hl2 : HashLookup) (out2 : List Byte)
    (h : hl_write_to_file libc malloc_ok hl out = .returns (code, hl2, out2)) :
    (code ≠ EC_OK → out2 = out) ∧
    (code = EC_OK →
      ((hl2.array.getD []).take hl2.count.toNat).length = hl2.count.toNat ∧
      out2 = out ++ (((hl2.array.getD []).take hl2.count.toNat).map
        (fun t => htuple_write t [])).flatten) := by
  unfold hl_write_to_file at h
  by_cases hd : hl.is_dirty = 0
  · simp only [hd, ne_eq, not_true_eq_false, if_false] at h
    obtain ⟨h1, h2, h3, h4⟩ := hl_write_to_file_written hl out code hl2 out2 h
    subst h2
    exact ⟨fun hc => absurd h1 hc, fun _ => ⟨h3, h4⟩⟩
  · simp only [ne_eq, hd, not_false_eq_true, if_true] at h
    cases hreb : hl_force_rebuild libc malloc_ok hl with
    | exits s => simp [hreb] at h
    | undefined => simp [hreb] at h
    | outOfFuel => simp [hreb] at h
    | returns a =>
      obtain ⟨ret, hl1⟩ := a
      simp only [hreb] at h
      by_cases hret : EC_OK > ret
      · simp only [hret, if_true, Exec.returns.injEq, Prod.mk.injEq] at h
        obtain ⟨h1, -, h3⟩ := h
        exact ⟨fun _ => h3.symm, fun hc => absurd hret (by rw [h1, hc]; decide)⟩
      · simp only [hret, if_false] at h
        obtain ⟨h1, h2, h3, h4⟩ := hl_write_to_file_written hl1 out code hl2 out2 h
        subst h2
        exact ⟨fun hc => absurd h1 hc, fun _ => ⟨h3, h4⟩⟩

/-- C12: on a dictionary filled by successful loads `hl_write_to_file` writes one
line per current entry, and the line of an entry is its hash as 16 lowercase
hexadecimal digits (parsing them gives the hash back), one space, the text
unchanged and one newline.  And whatever the table, the C library and the
allocation result: when `hl_write_to_file` returns `EC_OK` it has written one such
line for each of the first `count` slots of the array, in slot order (a hash
being a 64-bit value), and when it returns an error it has written nothing. -/
theorem C12_dump_line_format (libc : Libc) (hconf : libc.Conforms)
    (H : List Byte → Nat → Nat) (hl : HashLookup) (hr : Loaded H hl) (out : List Byte) :
    (∃ (written : List HashTuple) (lines : List (List Byte)) (hl2 : HashLookup),
      hl_write_to_file libc true hl out = .returns (EC_OK, hl2, out ++ lines.flatten) ∧
      written.Perm hl.list ∧ (lines.length : Int) = hl.count ∧
      List.Forall₂ DumpLine written lines) ∧
    (∀ (libc1 : Libc) (malloc_ok : Bool) (hl1 hl2 : HashLookup) (out1 out2 : List Byte)
        (code : Int),
      hl_write_to_file libc1 malloc_ok hl1 out1 = .returns (code, hl2, out2) →
      (code ≠ EC_OK → out2 = out1) ∧
      (code = EC_OK → ∃ lines, out2 = out1 ++ lines.flatten ∧
        lines.length = hl2.count.toNat ∧
        List.Forall₂ (fun t line => t.hash < 2 ^ 64 → DumpLine t line)
          ((hl2.array.getD []).take hl2.count.toNat) lines)) := by
  constructor
  · obtain ⟨written, hl2, hperm, -, -, -, -, hwrite⟩ :=
      hl_write_to_file_eq libc hconf H hl hr out
    refine ⟨written, written.map (fun t => htuple_write t []), hl2, hwrite, hperm, ?_, ?_⟩
    · rw [List.length_map, (Loaded_inv H hl hr).1, hperm.length_eq]
    · rw [List.forall₂_map_right_iff, List.forall₂_same]
      intro t ht
      exact dumpLine_htuple_write t (Loaded_texts H hl hr t (hperm.mem_iff.mp ht)).1
  · intro libc1 malloc_ok hl1 hl2 out1 out2 code h
    obtain ⟨h1, h2⟩ := hl_write_to_file_returns libc1 malloc_ok hl1 out1 code hl2 out2 h
    refine ⟨h1, fun hc => ?_⟩
    obtain ⟨h3, h4⟩ := h2 hc
    refine ⟨_, h4, by rw [List.length_map, h3], ?_⟩
    rw [List.forall₂_map_right_iff, List.forall₂_same]
    intro t _ ht
    exact dumpLine_htuple_write t ht

set_option maxRecDepth 100000 in
theorem C12_dump_line_format_witness :
    (stdlib.Conforms ∧ Loaded sample_hash sample_table) ∧
    ((∃ (written : List HashTuple) (lines : List (List Byte)) (hl2 : HashLookup),
        hl_write_to_file stdlib true sample_table [] =
          .returns (EC_OK, hl2, [] ++ lines.flatten) ∧
        written.Perm sample_table.list ∧ (lines.length : Int) = sample_table.count ∧
        List.Forall₂ DumpLine written lines) ∧
      (∀ (libc1 : Libc) (malloc_ok : Bool) (hl1 hl2 : HashLookup) (out1 out2 : List Byte)
          (code : Int),
        hl_write_to_file libc1 malloc_ok hl1 out1 = .returns (code, hl2, out2) →
        (code ≠ EC_OK → out2 = out1) ∧
        (code = EC_OK → ∃ lines, out2 = out1 ++ lines.flatten ∧
          lines.length = hl2.count.toNat ∧
          List.Forall₂ (fun t line => t.hash < 2 ^ 64 → DumpLine t line)
            ((hl2.array.getD []).take hl2.count.toNat) lines))) ∧
    hl_write_to_file stdlib true sample_table [] =
      .returns (EC_OK, sample_table_rebuilt, sample_dump) ∧
    DumpLine ⟨foo, 324⟩
      (List.replicate 13 48 ++ [49, 52, 52, 32, 102, 111, 111, 10]) ∧
    DumpLine ⟨[], 2 ^ 64 - 1⟩ (List.replicate 16 102 ++ [32, 10]) ∧
    ¬ DumpLine ⟨foo, 324⟩ [49, 52, 52, 32, 102, 111, 111, 10] :=
  ⟨⟨stdlib_conforms,
      Loaded.read _ _ (fun _ => false) (fun _ => true) sample_lines 3
        (Loaded.init sample_table) (by decide) (by decide)⟩,
    C12_dump_line_format stdlib stdlib_conforms sample_hash sample_table
      (Loaded.read _ _ (fun _ => false) (fun _ => true) sample_lines 3
        (Loaded.init sample_table) (by decide) (by decide)) [],
    by decide, by decide, by decide, by decide⟩

/-! ## Loading lines -/

theorem length_text_lines_ge (ls : List (List Byte)) : ls.length ≤ (text_lines ls).length := by
  induction ls with
  | nil => simp
  | cons a ls ih =>
    simp only [text_lines, List.length_append, List.length_cons]
    omega

theorem drop_of_drop_eq_append (bytes : List Byte) (pos : Nat) (a r : List Byte)
    (h : bytes.drop pos = a ++ r) : bytes.drop (pos + a.length) = r := by
  rw [← List.drop_drop, h, List.drop_left]

theorem hl_read_from_file_loop_prefix (H : List Byte → Nat → Nat) (ls : List (List Byte)) :
    ∀ (fuel : Nat) (fe mo : Nat → Bool) (bytes : List Byte) (pos : Nat) (count : Int)
      (list : List HashTuple) (first : Option HashTuple) (rest : List Byte),
      bytes.drop pos = text_lines ls ++ rest → (∀ a ∈ ls, (10 : Byte) ∉ a) →
      count + ls.length ≤ INT_MAX →
      (∀ (p : Nat) (count2 : Int) (list2 : List HashTuple) (first2 : Option HashTuple),
        bytes.drop p = rest →
        ∃ l f i, hl_read_from_file_loop H (fun k => fe (k + ls.length))
          (fun k => mo (k + ls.length)) fuel ⟨bytes, p, false⟩ count2 list2 first2
            = .returns (-1, l, f, i)) →
      ∃ l f i, hl_read_from_file_loop H fe mo (fuel + ls.length) ⟨bytes, pos, false⟩
        count list first = .returns (-1, l, f, i) := by
  induction ls with
  | nil =>
    intro fuel fe mo bytes pos count list first rest hdrop _ _ hfail
    exact hfail pos count list first (by simpa [text_lines] using hdrop)
  | cons a ls ih =>
    intro fuel fe mo bytes pos count list first rest hdrop hls hcount hfail
    have h10 : (10 : Byte) ∉ a := hls a (List.mem_cons_self _ _)
    simp only [text_lines, List.append_assoc, List.cons_append] at hdrop
    simp only [List.length_cons, Nat.cast_add, Nat.cast_one] at hcount
    rw [List.length_cons, ← Nat.add_assoc]
    by_cases hlen : a.length ≤ 254
    · rw [hl_read_from_file_loop_line H fe mo _ bytes pos count list first a _ hdrop h10 hlen]
      by_cases h1 : fe 0 = true
      · rw [if_pos h1]
        exact ⟨_, _, _, rfl⟩
      rw [if_neg h1]
      by_cases h2 : (0 : Byte) ∈ a
      · rw [if_pos h2]
        exact ⟨_, _, _, rfl⟩
      rw [if_neg h2]
      by_cases h3 : mo 0 = false
      · rw [if_pos h3]
        exact ⟨_, _, _, rfl⟩
      rw [if_neg h3, if_neg (by omega)]
      refine ih fuel _ _ bytes _ _ _ _ rest ?_ (fun x hx => hls x (List.mem_cons_of_mem _ hx))
        (by omega) ?_
      · have := drop_of_drop_eq_append bytes pos (a ++ [10]) (text_lines ls ++ rest)
          (by simpa using hdrop)
        simpa using this
      · intro p count2 list2 first2 hp
        have := hfail p count2 list2 first2 hp
        simpa [Nat.add_assoc] using this
    · have hsplit : bytes.drop pos
          = a.take 255 ++ (a.drop 255 ++ 10 :: (text_lines ls ++ rest)) := by
        rw [hdrop, ← List.append_assoc, List.take_append_drop]
      obtain ⟨i, hi⟩ := hl_read_from_file_loop_long H fe mo (fuel + ls.length) bytes pos
        count list first (a.take 255) _ hsplit
        (fun h => h10 (List.mem_of_mem_take h)) (by rw [List.length_take]; omega)
      exact ⟨_, _, _, hi⟩

theorem hl_read_from_file_of_loop_fail (H : List Byte → Nat → Nat) (fe mo : Nat → Bool)
    (hl : HashLookup) (inp : FILE)
    (h : ∃ l f i, hl_read_from_file_loop H fe mo (inp.bytes.length + 1) inp 0 [] none
      = .returns (-1, l, f, i)) :
    hl_read_from_file H fe mo hl inp = .returns (-1, hl) := by
  obtain ⟨l, f, i, h⟩ := h
  simp [hl_read_from_file, h]

theorem hl_read_from_file_fails (H : List Byte → Nat → Nat) (fe mo : Nat → Bool)
    (hl : HashLookup) (ls : List (List Byte)) (rest : List Byte)
    (hls : ∀ a ∈ ls, (10 : Byte) ∉ a) (hsize : (text_lines ls ++ rest).length < 2 ^ 31)
    (hfail : fe ls.length = true ∨
      (∃ text r, rest = text ++ r ∧ (10 : Byte) ∉ text ∧ 255 ≤ text.length) ∨
      (mo ls.length = false ∧ rest ≠ [])) :
    hl_read_from_file H fe mo hl ⟨text_lines ls ++ rest, 0, false⟩ = .returns (-1, hl) := by
  apply hl_read_from_file_of_loop_fail
  have hge := length_text_lines_ge ls
  simp only [List.length_append] at hsize ⊢
  obtain ⟨g, hg⟩ : ∃ g, (text_lines ls).length + rest.length + 1 = (g + 1) + ls.length :=
    ⟨(text_lines ls).length + rest.length - ls.length, by omega⟩
  rw [hg]
  apply hl_read_from_file_loop_prefix H ls (g + 1) fe mo _ 0 0 [] none rest (by simp) hls
  · simp only [INT_MAX]
    omega
  · intro p count2 list2 first2 hp
    rcases hfail with hfe | ⟨text, r, hrest, h10, hlen⟩ | ⟨hmo, hne⟩
    · exact ⟨_, _, _, hl_read_from_file_loop_error H _ _ g _ count2 list2 first2
        (by simpa using hfe)⟩
    · have hsplit : (text_lines ls ++ rest).drop p = text.take 255 ++ (text.drop 255 ++ r) := by
        rw [hp, hrest, ← List.append_assoc, List.take_append_drop]
      obtain ⟨i, hi⟩ := hl_read_from_file_loop_long H _ _ g _ p count2 list2 first2
        (text.take 255) _ hsplit (fun h => h10 (List.mem_of_mem_take h))
        (by rw [List.length_take]; omega)
      exact ⟨_, _, _, hi⟩
    · obtain ⟨i, hi⟩ := hl_read_from_file_loop_nomem H (fun k => fe (k + ls.length))
        (fun k => mo (k + ls.length)) g ⟨text_lines ls ++ rest, p, false⟩ count2 list2 first2
        (by simpa [hp] using hne) (by simpa using hmo)
      exact ⟨_, _, _, hi⟩

theorem hl_read_from_file_loop_lines (H : List Byte → Nat → Nat) (last : List Byte)
    (hlast : Acceptable last) (ts : List (List Byte)) :
    ∀ (fuel : Nat) (fe mo : Nat → Bool) (bytes : List Byte) (pos : Nat) (count : Int)
      (list : List HashTuple) (first : Option HashTuple),
      (∀ k, fe k = false) → (∀ k, mo k = true) →
      bytes.drop pos = text_lines ts ++ last → (∀ t ∈ ts, Acceptable t) →
      count + ((ts ++ if last = [] then [] else [last]).length : Nat) ≤ INT_MAX →
      (ts ++ if last = [] then [] else [last]).length + 1 ≤ fuel →
      ∃ f i, hl_read_from_file_loop H fe mo fuel ⟨bytes, pos, false⟩ count list first
          = .returns
            (count + ((ts ++ if last = [] then [] else [last]).length : Nat),
              ((ts ++ if last = [] then [] else [last]).map (entry H)).reverse ++ list, f, i) ∧
        (f = none → first = none ∧ (ts ++ if last = [] then [] else [last]) = []) := by
  induction ts with
  | nil =>
    intro fuel fe mo bytes pos count list first hfe hmo hdrop _ hcount hfuel
    simp only [text_lines, List.nil_append] at hdrop hcount hfuel ⊢
    by_cases hl : last = []
    · subst hl
      obtain ⟨g, rfl⟩ : ∃ g, fuel = g + 1 := ⟨fuel - 1, by simp at hfuel; omega⟩
      rw [hl_read_from_file_loop_eof H fe mo _ bytes pos false count list first hdrop (hfe 0)]
      exact ⟨first, ⟨bytes, pos, true⟩, by simp, by simp⟩
    · simp only [hl, if_false, List.length_singleton, Nat.cast_one] at hcount hfuel
      obtain ⟨g, rfl⟩ : ∃ g, fuel = g + 1 + 1 := ⟨fuel - 2, by omega⟩
      rw [hl_read_from_file_loop_last H fe mo _ bytes pos false count list first last hdrop hl
        hlast.1 hlast.2.2, if_neg (by simp [hfe 0]), if_neg (by simp [hmo 0]),
        if_neg (by omega),
        hl_read_from_file_loop_eof H _ _ g bytes _ true _ _ _
          (by rw [← List.drop_drop, hdrop, List.drop_length]) (hfe 1),
        cstr_of_not_mem last hlast.2.1]
      refine ⟨if first.isNone then some (entry H last) else first,
        ⟨bytes, pos + last.length, true⟩, by simp [hl], ?_⟩
      cases first <;> simp
  | cons t ts ih =>
    intro fuel fe mo bytes pos count list first hfe hmo hdrop hts hcount hfuel
    simp only [List.cons_append, List.length_cons, Nat.cast_add, Nat.cast_one] at hcount hfuel
    obtain ⟨g, rfl⟩ : ∃ g, fuel = g + 1 := ⟨fuel - 1, by omega⟩
    have ht := hts t (List.mem_cons_self _ _)
    simp only [text_lines, List.append_assoc, List.cons_append] at hdrop
    rw [hl_read_from_file_loop_line H fe mo g bytes pos count list first t _ hdrop ht.1 ht.2.2,
      if_neg (by simp [hfe 0]), if_neg ht.2.1, if_neg (by simp [hmo 0]), if_neg (by omega)]
    obtain ⟨f, i, heq, hf⟩ := ih g (fun k => fe (k + 1)) (fun k => mo (k + 1)) bytes
      (pos + (t.length + 1)) (count + 1) (entry H t :: list)
      (if first.isNone then some (entry H t) else first)
      (fun k => hfe (k + 1)) (fun k => hmo (k + 1))
      (by
        have := drop_of_drop_eq_append bytes pos (t ++ [10]) (text_lines ts ++ last)
          (by simpa using hdrop)
        simpa using this)
      (fun x hx => hts x (List.mem_cons_of_mem _ hx)) (by omega) (by omega)
    refine ⟨f, i, ?_, ?_⟩
    · rw [heq]
      simp only [List.cons_append, List.length_cons, List.map_cons, List.reverse_cons,
        List.append_assoc, List.singleton_append, Nat.cast_add, Nat.cast_one]
      congr 2
      omega
    · intro hfn
      have := (hf hfn).1
      cases first <;> simp at this

theorem hl_read_from_file_lines (H : List Byte → Nat → Nat) (hl : HashLookup)
    (ts : List (List Byte)) (last : List Byte)
    (hts : ∀ t ∈ ts, Acceptable t) (hlast : Acceptable last)
    (hne : (ts ++ if last = [] then [] else [last]) ≠ [])
    (hn : ((ts ++ if last = [] then [] else [last]).length : Int) ≤ INT_MAX)
    (hcount : hl.count + ((ts ++ if last = [] then [] else [last]).length : Nat) ≤ INT_MAX) :
    hl_read_from_file H (fun _ => false) (fun _ => true) hl ⟨text_lines ts ++ last, 0, false⟩ =
      .returns (((ts ++ if last = [] then [] else [last]).length : Nat),
        { hl with
          list := ((ts ++ if last = [] then [] else [last]).map (entry H)).reverse ++ hl.list,
          is_dirty := 1,
          count := hl.count + ((ts ++ if last = [] then [] else [last]).length : Nat) }) := by
  have hfuel : (ts ++ if last = [] then [] else [last]).length + 1
      ≤ (text_lines ts ++ last).length + 1 := by
    have := length_text_lines_ge ts
    simp only [List.length_append]
    by_cases hl : last = []
    · simp [hl]; omega
    · have : 0 < last.length := List.length_pos.mpr hl
      simp [hl]; omega
  obtain ⟨f, i, heq, hf⟩ := hl_read_from_file_loop_lines H last hlast ts
    ((text_lines ts ++ last).length + 1) (fun _ => false) (fun _ => true)
    (text_lines ts ++ last) 0 0 [] none (fun _ => rfl) (fun _ => rfl) (by simp) hts
    (by simpa using hn) hfuel
  unfold hl_read_from_file
  simp only [heq, zero_add, List.append_nil]
  have hpos : ¬ (((ts ++ if last = [] then [] else [last]).length : Nat) : Int) < 0 := by omega
  rw [if_neg hpos]
  cases f with
  | none => exact absurd (hf rfl).2 hne
  | some x =>
    simp only
    rw [if_neg (by omega)]

/-- C13: `hl_read_from_file` commits atomically.  After any lines `ls` (valid or
not), when the next read fails with an error, or the next line has 255 bytes or
more before its newline, or the allocation for the next line fails, the call
returns -1 and the dictionary is the one before the call; and whenever the call
returns a negative value the dictionary is the one before the call.  (The stream
is new and the file shorter than 2 ^ 31 bytes, `count` being an `int`.) -/
theorem C13_load_atomic (H : List Byte → Nat → Nat) (fe mo : Nat → Bool)
    (hl : HashLookup) (ls : List (List Byte)) (rest : List Byte)
    (hls : ∀ a ∈ ls, (10 : Byte) ∉ a) (hsize : (text_lines ls ++ rest).length < 2 ^ 31)
    (hfail : fe ls.length = true ∨
      (∃ text r, rest = text ++ r ∧ (10 : Byte) ∉ text ∧ 255 ≤ text.length) ∨
      (mo ls.length = false ∧ rest ≠ [])) :
    hl_read_from_file H fe mo hl ⟨text_lines ls ++ rest, 0, false⟩ = .returns (-1, hl) ∧
    ∀ (inp : FILE) (n : Int) (hl2 : HashLookup),
      hl_read_from_file H fe mo hl inp = .returns (n, hl2) → n < 0 → hl2 = hl := by
  refine ⟨hl_read_from_file_fails H fe mo hl ls rest hls hsize hfail, ?_⟩
  intro inp n hl2 h hn
  unfold hl_read_from_file at h
  cases hloop : hl_read_from_file_loop H fe mo (inp.bytes.length + 1) inp 0 [] none with
  | exits s => simp [hloop] at h
  | undefined => simp [hloop] at h
  | outOfFuel => simp [hloop] at h
  | returns a =>
    obtain ⟨c, l, f, i⟩ := a
    simp only [hloop] at h
    by_cases h1 : c < 0
    · simp only [h1, if_true, Exec.returns.injEq, Prod.mk.injEq] at h
      exact h.2.symm
    · simp only [h1, if_false] at h
      cases f with
      | none => simp at h
      | some x =>
        simp only at h
        split_ifs at h
        simp only [Exec.returns.injEq, Prod.mk.injEq] at h
        omega

theorem C13_load_atomic_witness :
    ((∀ a ∈ ([[98], [99]] : List (List Byte)), (10 : Byte) ∉ a) ∧
      (text_lines [[98], [99]] ++ [97, 10]).length < 2 ^ 31 ∧
      ((fun _ => false : Nat → Bool) ([[98], [99]] : List (List Byte)).length = true ∨
        (∃ text r, ([97, 10] : List Byte) = text ++ r ∧ (10 : Byte) ∉ text ∧
          255 ≤ text.length) ∨
        ((fun k => decide (k < 2) : Nat → Bool) ([[98], [99]] : List (List Byte)).length
            = false ∧ ([97, 10] : List Byte) ≠ []))) ∧
    (hl_read_from_file sample_hash (fun _ => false) (fun k => decide (k < 2)) sample_table
        ⟨text_lines [[98], [99]] ++ [97, 10], 0, false⟩ = .returns (-1, sample_table) ∧
      ∀ (inp : FILE) (n : Int) (hl2 : HashLookup),
        hl_read_from_file sample_hash (fun _ => false) (fun k => decide (k < 2)) sample_table inp
          = .returns (n, hl2) → n < 0 → hl2 = sample_table) :=
  ⟨⟨by decide, by decide, Or.inr (Or.inr ⟨by decide, by decide⟩)⟩,
    C13_load_atomic sample_hash (fun _ => false) (fun k => decide (k < 2)) sample_table
      [[98], [99]] [97, 10] (by decide) (by decide)
      (Or.inr (Or.inr ⟨by decide, by decide⟩))⟩

/-- C14: on a new stream over a non-empty file of acceptable lines (texts without
newline and NUL of at most 254 bytes, each followed by a newline, the last one
possibly without), `hl_read_from_file` returns their number `n`, adds `n` to
`count`, sets `is_dirty` and puts the `n` new tuples, last line first, in front
of the previous list; the text of a tuple is its line without the newline and
its hash is `MurmurHash64A` of the text with seed 0.  (No read error, every
allocation succeeding, `n` and `count + n` within the range of `int`.) -/
theorem C14_load_lines (H : List Byte → Nat → Nat) (hl : HashLookup)
    (ts : List (List Byte)) (last : List Byte)
    (hts : ∀ t ∈ ts, Acceptable t) (hlast : Acceptable last)
    (hne : (ts ++ if last = [] then [] else [last]) ≠ [])
    (hn : ((ts ++ if last = [] then [] else [last]).length : Int) ≤ INT_MAX)
    (hcount : hl.count + ((ts ++ if last = [] then [] else [last]).length : Nat) ≤ INT_MAX) :
    hl_read_from_file H (fun _ => false) (fun _ => true) hl ⟨text_lines ts ++ last, 0, false⟩ =
      .returns (((ts ++ if last = [] then [] else [last]).length : Nat),
        { count := hl.count + ((ts ++ if last = [] then [] else [last]).length : Nat),
          is_dirty := 1,
          list := ((ts ++ if last = [] then [] else [last]).map
            (fun t => HashTuple.mk t (H t 0 % 2 ^ 64))).reverse ++ hl.list,
          array := hl.array }) :=
  hl_read_from_file_lines H hl ts last hts hlast hne hn hcount

theorem C14_load_lines_witness :
    ((∀ t ∈ ([[98], foo] : List (List Byte)), Acceptable t) ∧ Acceptable [97] ∧
      (([[98], foo] : List (List Byte)) ++ if ([97] : List Byte) = [] then [] else [[97]]) ≠ [] ∧
      (((([[98], foo] : List (List Byte)) ++ if ([97] : List Byte) = [] then [] else [[97]]).length
        : Nat) : Int) ≤ INT_MAX ∧
      sample_table2.count +
        (((([[98], foo] : List (List Byte)) ++ if ([97] : List Byte) = [] then [] else [[97]]).length
          : Nat) : Int) ≤ INT_MAX) ∧
    hl_read_from_file sample_hash (fun _ => false) (fun _ => true) sample_table2
        ⟨text_lines [[98], foo] ++ [97], 0, false⟩ =
      .returns ((((([[98], foo] : List (List Byte)) ++
            if ([97] : List Byte) = [] then [] else [[97]]).length : Nat) : Int),
        { count := sample_table2.count +
            (((([[98], foo] : List (List Byte)) ++
              if ([97] : List Byte) = [] then [] else [[97]]).length : Nat) : Int),
          is_dirty := 1,
          list := ((([[98], foo] : List (List Byte)) ++
              if ([97] : List Byte) = [] then [] else [[97]]).map
            (fun t => HashTuple.mk t (sample_hash t 0 % 2 ^ 64))).reverse
              ++ sample_table2.list,
          array := sample_table2.array }) :=
  ⟨⟨by decide, by decide, by decide, by decide, by decide⟩,
    C14_load_lines sample_hash sample_table2 [[98], foo] [97] (by decide) (by decide)
      (by decide) (by decide) (by decide)⟩

/-- C15, evaluated: on an empty input file `hl_read_from_file` reads no line,
leaves `first` at `NULL` and then executes `first->next = hl->list`: undefined
behaviour instead of the return value 0. -/
theorem C15_empty_input_undefined (H : List Byte → Nat → Nat) (mo : Nat → Bool)
    (hl : HashLookup) :
    hl_read_from_file H (fun _ => false) mo hl ⟨[], 0, false⟩ = .undefined := by
  unfold hl_read_from_file
  rw [hl_read_from_file_loop_eof H _ mo _ [] 0 false 0 [] none rfl rfl]
  rfl

/-- C16: a line whose text has 256 bytes or more is rejected, wherever it stands in
the input and whatever the other lines, the read errors and the allocations:
`hl_read_from_file` returns -1 and the dictionary, so also its count, is the one
before the call.  (The stream is new and the file shorter than 2 ^ 31 bytes.) -/
theorem C16_long_text_rejected (H : List Byte → Nat → Nat) (fe mo : Nat → Bool)
    (hl : HashLookup) (ls : List (List Byte)) (text rest : List Byte)
    (hls : ∀ a ∈ ls, (10 : Byte) ∉ a) (h10 : (10 : Byte) ∉ text)
    (hlen : 256 ≤ text.length)
    (hsize : (text_lines ls ++ (text ++ rest)).length < 2 ^ 31) :
    ∃ hl2, hl_read_from_file H fe mo hl ⟨text_lines ls ++ (text ++ rest), 0, false⟩
        = .returns (-1, hl2) ∧ hl2 = hl ∧ hl2.count = hl.count ∧ hl2.list = hl.list :=
  ⟨hl, hl_read_from_file_fails H fe mo hl ls (text ++ rest) hls hsize
      (Or.inr (Or.inl ⟨text, rest, rfl, h10, by omega⟩)), rfl, rfl, rfl⟩

set_option maxRecDepth 100000 in
theorem C16_long_text_rejected_witness :
    ((∀ a ∈ ([[98]] : List (List Byte)), (10 : Byte) ∉ a) ∧
      (10 : Byte) ∉ List.replicate 256 (97 : Byte) ∧
      256 ≤ (List.replicate 256 (97 : Byte)).length ∧
      (text_lines [[98]] ++ (List.replicate 256 (97 : Byte) ++ [10, 99, 10])).length < 2 ^ 31) ∧
    ∃ hl2, hl_read_from_file sample_hash (fun _ => false) (fun _ => true) sample_table
        ⟨text_lines [[98]] ++ (List.replicate 256 (97 : Byte) ++ [10, 99, 10]), 0, false⟩
        = .returns (-1, hl2) ∧ hl2 = sample_table ∧ hl2.count = sample_table.count ∧
      hl2.list = sample_table.list :=
  ⟨⟨by decide, by decide, by decide, by decide⟩,
    C16_long_text_rejected sample_hash (fun _ => false) (fun _ => true) sample_table [[98]]
      (List.replicate 256 97) [10, 99, 10] (by decide) (by decide) (by decide) (by decide)⟩

/-- C17, evaluated: a newline-terminated line whose text has exactly 255 bytes is
rejected (`fgets` reads 255 bytes without reaching the newline): the call
returns -1 and stores nothing; a text of 254 bytes is the longest accepted. -/
theorem C17_text_255_rejected (H : List Byte → Nat → Nat) (fe mo : Nat → Bool)
    (hl : HashLookup) :
    hl_read_from_file H fe mo hl ⟨List.replicate 255 97 ++ [10], 0, false⟩
      = .returns (-1, hl) ∧
    hl_read_from_file H (fun _ => false) (fun _ => true) sample_table
        ⟨List.replicate 254 97 ++ [10], 0, false⟩
      = .returns (1, { sample_table with
          count := 4, list := entry H (List.replicate 254 97) :: sample_table.list }) := by
  have h10 : ∀ n, (10 : Byte) ∉ List.replicate n (97 : Byte) := fun n h =>
    absurd (List.eq_of_mem_replicate h) (by decide)
  have h0 : ∀ n, (0 : Byte) ∉ List.replicate n (97 : Byte) := fun n h =>
    absurd (List.eq_of_mem_replicate h) (by decide)
  constructor
  · have := hl_read_from_file_fails H fe mo hl [] (List.replicate 255 97 ++ [10])
      (fun a ha => by cases ha)
      (by
        simp only [text_lines, List.nil_append, List.length_append, List.length_replicate,
          List.length_singleton]
        norm_num)
      (Or.inr (Or.inl ⟨List.replicate 255 97, [10], rfl, h10 255,
        by rw [List.length_replicate]⟩))
    simpa only [text_lines, List.nil_append] using this
  · have hacc : Acceptable (List.replicate 254 (97 : Byte)) :=
      ⟨h10 254, h0 254, by rw [List.length_replicate]⟩
    have hnil : Acceptable ([] : List Byte) := by decide
    have := hl_read_from_file_lines H sample_table [List.replicate 254 97] []
      (fun t ht => by rw [List.mem_singleton.mp ht]; exact hacc) hnil
      (by rw [if_pos rfl, List.append_nil]; exact List.cons_ne_nil _ _)
      (by
        rw [if_pos rfl, List.append_nil, List.length_singleton]
        unfold INT_MAX
        norm_num)
      (by
        rw [if_pos rfl, List.append_nil, List.length_singleton]
        show (3 : Int) + ((1 : Nat) : Int) ≤ 2 ^ 31 - 1
        norm_num)
    rw [if_pos rfl] at this
    simpa only [text_lines, List.append_nil, List.length_singleton, List.map_cons,
      List.map_nil, List.reverse_singleton, List.singleton_append, Nat.cast_one,
      sample_table, Int.reduceAdd] using this

/-! ## The index of a bundle -/

theorem Loaded_wellFormed (H : List Byte → Nat → Nat) (hl : HashLookup) (h : Loaded H hl) :
    WellFormed hl := by
  obtain ⟨hcount, hstate⟩ := Loaded_inv H hl h
  refine ⟨hcount, ?_⟩
  rcases hstate with ⟨-, hlist, harr⟩ | hd
  · exact Or.inr (Or.inl ⟨hlist, harr⟩)
  · exact Or.inl (by rw [hd]; decide)

/-- C19, evaluated: `br_dump_index` never compares an offset with `out_size`.  On a
decompressed buffer of 4 bytes that announces one record the loop reads the
record at offset 0x104, outside the buffer; on a buffer too short for the count
it reads the count outside the buffer.  Neither returns an error code. -/
theorem C19_truncated_index_undefined (libc : Libc) (malloc_ok : Nat → Bool)
    (game : VermintideGame) (lookup : Option HashLookup) (out : List Byte) :
    br_dump_index_decode libc malloc_ok game (some [1, 0, 0, 0]) lookup out = .undefined ∧
    br_dump_index_decode libc malloc_ok game (some [1]) lookup out = .undefined := by
  constructor
  · have hread : read_uint64 [1, 0, 0, 0] (0x104 + to_int (hash_block_size game * 0) + 0x0)
        = .undefined := by
      cases game <;> decide
    have hcount : to_uint32 [1, 0, 0, 0] = 1 := by decide
    simp only [br_dump_index_decode, hcount, br_dump_index_loop, br_dump_index_entry, hread]
    simp
  · simp [br_dump_index_decode]

set_option maxRecDepth 100000 in
/-- C20, evaluated: when `util_inflate` returns `NULL`, `br_dump_index` reads the
count through the null pointer: undefined behaviour, not a negative return code.
(The other half of the claim holds: a negative code of the blob scan is
returned as it is, with nothing written.) -/
theorem C20_inflate_failure_undefined :
    (∀ (libc : Libc) (malloc_ok : Nat → Bool) (game : VermintideGame)
        (lookup : Option HashLookup) (out : List Byte),
      br_dump_index_decode libc malloc_ok game none lookup out = .undefined) ∧
    br_dump_index stdlib (fun _ => none) (fun _ => true) true (fun _ => true)
        (opened blank "a.bundle" sample_bundle .GAME_VT2) [] = .undefined ∧
    (∀ (libc : Libc) (util_inflate : List Byte → Option (List Byte))
        (scan_malloc find_malloc : Nat → Bool) (buffer_malloc : Bool)
        (br br2 : BundleReader) (ret : Int) (out : List Byte),
      br.blobs = [] → br_read_blobs scan_malloc br = .returns (ret, br2) → ret < 0 →
      br_dump_index libc util_inflate scan_malloc buffer_malloc find_malloc br out
        = .returns (ret, br2, out)) := by
  refine ⟨fun _ _ _ _ _ => rfl, by decide, ?_⟩
  intro libc util_inflate scan_malloc find_malloc buffer_malloc br br2 ret out hb hscan hret
  have hlt : EC_OK > ret := by simpa [EC_OK] using hret
  simp [br_dump_index, hb, hscan, hlt]

/-! ## The decompression buffer -/

theorem util_msb_loop_eq (fuel : Nat) :
    ∀ (num : Nat) (i : Int), num < 2 ^ (fuel + 1) →
      util_msb_loop (fuel + 1) num i = .returns (i + (Nat.log 2 num : Nat)) := by
  induction fuel with
  | zero =>
    intro num i h
    have h0 : num / 2 = 0 := by omega
    simp [util_msb_loop, h0, Nat.log_of_lt (show num < 2 by omega)]
  | succ fuel ih =>
    intro num i h
    rw [util_msb_loop]
    by_cases h0 : num / 2 = 0
    · simp [h0, Nat.log_of_lt (show num < 2 by omega)]
    · have hlt : num / 2 < 2 ^ (fuel + 1) := by
        rw [Nat.div_lt_iff_lt_mul (by norm_num)]
        rw [pow_succ] at h
        exact h
      simp only [ne_eq, h0, not_false_eq_true, if_true]
      rw [ih (num / 2) (i + 1) hlt,
        Nat.log_of_one_lt_of_le (show 1 < 2 by norm_num) (show 2 ≤ num by omega)]
      congr 1
      push_cast
      ring

theorem util_msb_eq (num : Nat) (h : num < 2 ^ 64) :
    util_msb num = .returns ((Nat.log 2 num : Nat) : Int) := by
  rw [util_msb, Nat.mod_eq_of_lt h, util_msb_loop_eq 63 num 0 h]
  simp

theorem util_inflate_loop_sizes (zlib : Zlib) (realloc_ok : Nat → Bool)
    (in_buffer : List Byte) (fuel : Nat) :
    ∀ (k : Nat) (strm : z_stream) (size : Nat) (buf : Option (List Byte)) (sizes : List Nat),
      ∃ ext,
        (util_inflate_loop zlib realloc_ok in_buffer fuel k strm size buf sizes).1
          = sizes ++ ext ∧
        List.Chain (fun a b => b = a * 2 % 2 ^ 64) size ext ∧
        (0 < fuel → strm.avail_out = 0 → ext ≠ []) := by
  induction fuel with
  | zero =>
    intro k strm size buf sizes
    exact ⟨[], by simp [util_inflate_loop], List.Chain.nil, by simp⟩
  | succ fuel ih =>
    intro k strm size buf sizes
    rw [util_inflate_loop]
    by_cases hfull : strm.avail_out = 0
    · simp only [hfull, beq_self_eq_true, if_true, Bool.true_and]
      cases hre : realloc_ok sizes.length with
      | false =>
        exact ⟨[size * 2 % 2 ^ 64], by simp, List.Chain.cons rfl List.Chain.nil, by simp⟩
      | true =>
        simp only [Bool.not_true, Bool.false_eq_true, if_false]
        split_ifs with h1 h2
        · exact ⟨[size * 2 % 2 ^ 64], by simp, List.Chain.cons rfl List.Chain.nil, by simp⟩
        · obtain ⟨ext, he, hc, -⟩ := ih (k + 1) _ (size * 2 % 2 ^ 64) _
            (sizes ++ [size * 2 % 2 ^ 64])
          exact ⟨size * 2 % 2 ^ 64 :: ext, by rw [he]; simp, List.Chain.cons rfl hc, by simp⟩
        · exact ⟨[size * 2 % 2 ^ 64], by simp, List.Chain.cons rfl List.Chain.nil, by simp⟩
    · have hne : (0 == strm.avail_out) = false := by
        rw [beq_eq_false_iff_ne]
        exact fun h => hfull h.symm
      simp only [hne, Bool.false_and, Bool.false_eq_true, if_false]
      split_ifs with h1 h2
      · exact ⟨[], by simp, List.Chain.nil, fun _ h => absurd h hfull⟩
      · obtain ⟨ext, he, hc, -⟩ := ih (k + 1) _ size _ sizes
        exact ⟨ext, he, hc, fun _ h => absurd h hfull⟩
      · exact ⟨[], by simp, List.Chain.nil, fun _ h => absurd h hfull⟩

theorem util_inflate_sizes (zlib : Zlib) (realloc_ok : Nat → Bool) (fuel : Nat)
    (in_buffer : List Byte) (in_len : Nat)
    (hinit : zlib.inflateInit = Z_OK) (hlen : in_len < 2 ^ 31) (hfuel : 1 ≤ fuel) :
    ∃ rest,
      (util_inflate zlib realloc_ok fuel in_buffer in_len).1
        = 2 ^ (Nat.log 2 in_len + 1) :: rest ∧
      List.Chain (fun a b => b = a * 2 % 2 ^ 64) (2 ^ (Nat.log 2 in_len + 1)) rest := by
  have hlog : Nat.log 2 in_len < 31 := by
    by_cases h0 : in_len = 0
    · subst h0; simp
    · exact Nat.log_lt_of_lt_pow h0 hlen
  have hpow : 2 ^ Nat.log 2 in_len * 2 % 2 ^ 64 = 2 ^ (Nat.log 2 in_len + 1) := by
    rw [← pow_succ]
    apply Nat.mod_eq_of_lt
    calc 2 ^ (Nat.log 2 in_len + 1) ≤ 2 ^ 31 := Nat.pow_le_pow_right (by norm_num) (by omega)
      _ < 2 ^ 64 := by norm_num
  obtain ⟨ext, he, hc, hne⟩ := util_inflate_loop_sizes zlib realloc_ok in_buffer fuel 0
    { avail_in := in_len % 2 ^ 32, next_in := some 0, avail_out := 0, next_out := none,
      total_out := 0 } (2 ^ Nat.log 2 in_len) none []
  have hex := hne (by omega) rfl
  cases ext with
  | nil => exact absurd rfl hex
  | cons a rest =>
    rw [List.chain_cons] at hc
    refine ⟨rest, ?_, ?_⟩
    · simp only [util_inflate, hinit, util_msb_eq in_len (by omega)]
      have h31 : ¬ (31 : Int) ≤ ((Nat.log 2 in_len : Nat) : Int) := by omega
      simp only [ne_eq, not_true_eq_false, if_false, h31, Int.toNat_ofNat]
      rw [he, List.nil_append, hc.1, hpow]
    · rw [← hpow, ← hc.1]
      exact hc.2

/-- C21, as stated, fails: for the input length 4, itself a power of two, the
first buffer `util_inflate` allocates has 8 bytes, not 4: the size starts at
`1 << util_msb(4) = 4` and is doubled before the first `realloc`. -/
theorem C21_first_capacity_counterexample :
    (util_inflate sample_zlib (fun _ => true) 8 [1, 2, 3, 4] 4).1 = [8, 16] ∧
    ((4 : Nat) ≤ 2 ^ 2 ∧ (2 : Nat) ^ 2 < 8) ∧
    ¬ ∀ (zlib : Zlib) (realloc_ok : Nat → Bool) (fuel : Nat) (in_buffer : List Byte)
        (n c : Nat), (util_inflate zlib realloc_ok fuel in_buffer n).1.head? = some c →
        n ≤ c ∧ ∀ j, n ≤ 2 ^ j → c ≤ 2 ^ j := by
  have h : (util_inflate sample_zlib (fun _ => true) 8 [1, 2, 3, 4] 4).1 = [8, 16] := by
    decide
  refine ⟨h, by decide, ?_⟩
  intro hall
  have := (hall sample_zlib (fun _ => true) 8 [1, 2, 3, 4] 4 8 (by rw [h]; rfl)).2 2
    (by decide)
  omega

/-- C21, amended: for an input length below 2 ^ 31 (the shift `1 << util_msb(in_len)`
is a shift of an `int`), once `inflateInit` has succeeded, the first buffer
`util_inflate` allocates has `2 ^ (floor(log2 in_len) + 1)` bytes; for
`in_len ≥ 1` that is the smallest power of two greater than `in_len` (twice
`in_len` when `in_len` is a power of two).  Each later size passed to `realloc`
is the double of the one before (as a `size_t`).  `util_msb(num)` returns
`floor(log2 num)` for every 64-bit `num ≥ 1` (and 0 for 0). -/
theorem C21_first_capacity (zlib : Zlib) (realloc_ok : Nat → Bool) (fuel : Nat)
    (in_buffer : List Byte) (in_len : Nat)
    (hinit : zlib.inflateInit = Z_OK) (hlen : in_len < 2 ^ 31) (hfuel : 1 ≤ fuel) :
    (∀ num, num < 2 ^ 64 →
      util_msb num = .returns ((Nat.log 2 num : Nat) : Int) ∧
      (1 ≤ num → 2 ^ Nat.log 2 num ≤ num ∧ num < 2 ^ (Nat.log 2 num + 1))) ∧
    ∃ rest,
      (util_inflate zlib realloc_ok fuel in_buffer in_len).1
        = 2 ^ (Nat.log 2 in_len + 1) :: rest ∧
      in_len < 2 ^ (Nat.log 2 in_len + 1) ∧
      (1 ≤ in_len → ∀ j, in_len < 2 ^ j → 2 ^ (Nat.log 2 in_len + 1) ≤ 2 ^ j) ∧
      (∀ k, in_len = 2 ^ k → 2 ^ (Nat.log 2 in_len + 1) = 2 * in_len) ∧
      List.Chain' (fun a b => b = a * 2 % 2 ^ 64 ∧ (a < 2 ^ 63 → b = 2 * a))
        (2 ^ (Nat.log 2 in_len + 1) :: rest) := by
  refine ⟨fun num hnum => ⟨util_msb_eq num hnum, fun h1 =>
    ⟨Nat.pow_log_le_self 2 (by omega), Nat.lt_pow_succ_log_self (by norm_num) num⟩⟩, ?_⟩
  obtain ⟨rest, hsizes, hchain⟩ :=
    util_inflate_sizes zlib realloc_ok fuel in_buffer in_len hinit hlen hfuel
  refine ⟨rest, hsizes, Nat.lt_pow_succ_log_self (by norm_num) in_len, ?_, ?_, ?_⟩
  · intro h1 j hj
    exact Nat.pow_le_pow_right (by norm_num) (Nat.log_lt_of_lt_pow (by omega) hj)
  · intro k hk
    rw [hk, Nat.log_pow (by norm_num), pow_succ, Nat.mul_comm]
  · exact hchain.imp (fun {a b} h => ⟨h, fun ha => by omega⟩)

theorem C21_first_capacity_witness :
    (sample_zlib.inflateInit = Z_OK ∧ 5 < 2 ^ 31 ∧ 1 ≤ 8) ∧
    ((∀ num, num < 2 ^ 64 →
        util_msb num = .returns ((Nat.log 2 num : Nat) : Int) ∧
        (1 ≤ num → 2 ^ Nat.log 2 num ≤ num ∧ num < 2 ^ (Nat.log 2 num + 1))) ∧
      ∃ rest,
        (util_inflate sample_zlib (fun _ => true) 8 [7, 1, 9, 4, 2] 5).1
          = 2 ^ (Nat.log 2 5 + 1) :: rest ∧
        5 < 2 ^ (Nat.log 2 5 + 1) ∧
        (1 ≤ 5 → ∀ j, 5 < 2 ^ j → 2 ^ (Nat.log 2 5 + 1) ≤ 2 ^ j) ∧
        (∀ k, 5 = 2 ^ k → 2 ^ (Nat.log 2 5 + 1) = 2 * 5) ∧
        List.Chain' (fun a b => b = a * 2 % 2 ^ 64 ∧ (a < 2 ^ 63 → b = 2 * a))
          (2 ^ (Nat.log 2 5 + 1) :: rest)) ∧
    util_inflate sample_zlib (fun _ => true) 8 [7, 1, 9, 4, 2] 5 =
      ([8, 16, 32],
        .returns (some [7, 7, 7, 7, 1, 1, 1, 1, 9, 9, 9, 9, 4, 4, 4, 4, 2, 2, 2, 2], some 20)) :=
  ⟨⟨rfl, by decide, by decide⟩,
    C21_first_capacity sample_zlib (fun _ => true) 8 [7, 1, 9, 4, 2] 5 rfl (by decide)
      (by decide),
    by decide⟩

/-! ## The blob counter and the length of the scan -/

theorem br_read_blobs_loop_failed (fuel : Nat) :
    ∀ (m : Nat → Bool) (br : BundleReader) (fp : FILE) (first : Bool) (ss pos : Nat)
      (code : Int) (r : BundleReader),
      br_read_blobs_loop m fuel br fp first ss pos = .returns (code, r) → code ≠ EC_OK →
      r.blobs = [] ∧ br.blob_count ≤ r.blob_count ∧
        (code = EC_SIZE_MISMATCH → pos ≤ br.file_size → br.blob_count + 1 ≤ r.blob_count) := by
  induction fuel with
  | zero =>
    intro m br fp first ss pos code r h
    simp [br_read_blobs_loop] at h
  | succ fuel ih =>
    intro m br fp first ss pos code r h hcode
    by_cases hlt : pos < br.file_size
    · cases hread : brP_read_uint32 fp with
      | exits s => rw [br_read_blobs_loop] at h; simp [hlt, hread] at h
      | undefined => rw [br_read_blobs_loop] at h; simp [hlt, hread] at h
      | outOfFuel => rw [br_read_blobs_loop] at h; simp [hlt, hread] at h
      | returns a =>
        obtain ⟨size, fp1⟩ := a
        cases hm : m 0 with
        | false =>
          rw [br_read_blobs_loop] at h
          simp only [hlt, hread, hm, if_true, Bool.not_false, Exec.returns.injEq,
            Prod.mk.injEq] at h
          obtain ⟨hc, hr⟩ := h
          subst hr
          refine ⟨rfl, le_refl _, fun hmis => ?_⟩
          rw [← hc] at hmis
          exact absurd hmis (by decide)
        | true =>
          rw [br_read_blobs_loop_step m fuel br fp fp1 first ss pos size hlt hread hm] at h
          obtain ⟨h1, h2, -⟩ := ih _ _ _ _ _ _ code r h hcode
          simp only at h2
          exact ⟨h1, by omega, fun _ _ => by omega⟩
    · rw [br_read_blobs_loop_done m fuel br fp first ss pos hlt] at h
      by_cases hne : pos = br.file_size
      · simp only [hne, ne_eq, not_true_eq_false, if_false, Exec.returns.injEq,
          Prod.mk.injEq] at h
        exact absurd h.1.symm hcode
      · simp only [ne_eq, hne, not_false_eq_true, if_true, Exec.returns.injEq,
          Prod.mk.injEq] at h
        obtain ⟨-, hr⟩ := h
        subst hr
        exact ⟨rfl, le_refl _, fun _ hle => absurd (Nat.lt_of_le_of_ne hle hne) hlt⟩

/-- C22, evaluated: `br_destroy_blobs` empties the list and leaves `blob_count` as
it is.  After `br_open` the counter is 0 and the list empty, and after a scan of
a freshly opened reader that returns `EC_OK` the counter is the length of the
list; but after every scan that returns `EC_SIZE_MISMATCH` (on a file shorter
than 2 ^ 32 bytes) the list is empty and the counter is at least 1: 2 on the
bundle `sample_overshoot`. -/
theorem C22_blob_count_stale :
    (∀ (br0 br : BundleReader) (path : String) (bytes : List Byte) (pm : Bool)
        (game : VermintideGame),
      br_open br0 path (some bytes) pm game = .returns (EC_OK, br) →
      br.blob_count = 0 ∧ br.blobs = []) ∧
    (∀ (br0 br r : BundleReader) (path : String) (bytes : List Byte) (pm : Bool)
        (m : Nat → Bool) (game : VermintideGame),
      br_open br0 path (some bytes) pm game = .returns (EC_OK, br) →
      br_read_blobs m br = .returns (EC_OK, r) → r.blob_count = r.blobs.length) ∧
    (∀ (br0 br r : BundleReader) (path : String) (bytes : List Byte) (pm : Bool)
        (m : Nat → Bool) (game : VermintideGame),
      bytes.length < 2 ^ 32 →
      br_open br0 path (some bytes) pm game = .returns (EC_OK, br) →
      br_read_blobs m br = .returns (EC_SIZE_MISMATCH, r) →
      r.blobs = [] ∧ 1 ≤ r.blob_count ∧ r.blob_count ≠ r.blobs.length) ∧
    br_read_blobs (fun _ => true) (opened blank "a.bundle" sample_overshoot .GAME_VT2)
      = .returns (EC_SIZE_MISMATCH,
          { opened blank "a.bundle" sample_overshoot .GAME_VT2 with
            fp := some ⟨sample_overshoot, 28, false⟩, blobs := [], blob_count := 2 }) := by
  refine ⟨?_, ?_, ?_, by decide⟩
  · intro br0 br path bytes pm game hopen
    obtain ⟨-, -, hbr⟩ := br_open_ok_inv br0 br path bytes pm game hopen
    subst hbr
    exact ⟨rfl, rfl⟩
  · intro br0 br r path bytes pm m game hopen hread
    obtain ⟨-, -, hbr⟩ := br_open_ok_inv br0 br path bytes pm game hopen
    subst hbr
    simp only [br_read_blobs, opened, BR_HEADER_SIZE] at hread
    obtain ⟨new, h1, -, -, h4⟩ := br_read_blobs_loop_ok _ _ _ _ _ _ _ r (by simp) hread
    simp only [List.nil_append] at h1
    rw [h4, h1]
    simp
  · intro br0 br r path bytes pm m game hlen hopen hread
    obtain ⟨h12, -, hbr⟩ := br_open_ok_inv br0 br path bytes pm game hopen
    subst hbr
    simp only [br_read_blobs, opened, BR_HEADER_SIZE] at hread
    obtain ⟨h1, -, h3⟩ := br_read_blobs_loop_failed _ _ _ _ _ _ _ _ r hread (by decide)
    have h := h3 rfl (by simp only [Nat.mod_eq_of_lt hlen]; exact h12)
    simp only at h
    refine ⟨h1, by omega, ?_⟩
    rw [h1]
    simp only [List.length_nil, Nat.cast_zero]
    omega

theorem brP_read_uint32_ne_outOfFuel (fp : FILE) : brP_read_uint32 fp ≠ .outOfFuel := by
  by_cases h : fp.pos + 4 ≤ fp.bytes.length
  · rw [brP_read_uint32_ok fp h]
    simp
  · rw [brP_read_uint32_short fp (by omega)]
    simp

theorem br_read_blobs_loop_mono (fuel : Nat) :
    ∀ (m : Nat → Bool) (br : BundleReader) (fp : FILE) (first : Bool) (ss pos : Nat),
      br_read_blobs_loop m fuel br fp first ss pos ≠ .outOfFuel →
      br_read_blobs_loop m (fuel + 1) br fp first ss pos
        = br_read_blobs_loop m fuel br fp first ss pos := by
  induction fuel with
  | zero =>
    intro m br fp first ss pos h
    exact absurd rfl h
  | succ fuel ih =>
    intro m br fp first ss pos h
    by_cases hlt : pos < br.file_size
    · cases hread : brP_read_uint32 fp with
      | exits s => simp [br_read_blobs_loop, hlt, hread]
      | undefined => simp [br_read_blobs_loop, hlt, hread]
      | outOfFuel => simp [br_read_blobs_loop, hlt, hread]
      | returns a =>
        obtain ⟨size, fp1⟩ := a
        cases hm : m 0 with
        | false => simp [br_read_blobs_loop, hlt, hread, hm]
        | true =>
          rw [br_read_blobs_loop_step m fuel br fp fp1 first ss pos size hlt hread hm] at h
          rw [br_read_blobs_loop_step m (fuel + 1) br fp fp1 first ss pos size hlt hread hm,
            br_read_blobs_loop_step m fuel br fp fp1 first ss pos size hlt hread hm]
          exact ih _ _ _ _ _ _ h
    · rw [br_read_blobs_loop_done m (fuel + 1) br fp first ss pos hlt,
        br_read_blobs_loop_done m fuel br fp first ss pos hlt]

theorem br_read_blobs_loop_add (d fuel : Nat) (m : Nat → Bool) (br : BundleReader)
    (fp : FILE) (first : Bool) (ss pos : Nat)
    (h : br_read_blobs_loop m fuel br fp first ss pos ≠ .outOfFuel) :
    br_read_blobs_loop m (fuel + d) br fp first ss pos
      = br_read_blobs_loop m fuel br fp first ss pos := by
  induction d with
  | zero => rfl
  | succ d ih =>
    rw [← Nat.add_assoc, br_read_blobs_loop_mono (fuel + d) m br fp first ss pos (by rwa [ih]),
      ih]

theorem br_read_blobs_loop_total (fuel : Nat) :
    ∀ (m : Nat → Bool) (br : BundleReader) (fp : FILE) (first : Bool) (ss pos : Nat),
      (br.file_size - pos + 3) / 4 + 1 ≤ fuel →
      br_read_blobs_loop m fuel br fp first ss pos ≠ .outOfFuel := by
  induction fuel with
  | zero =>
    intro m br fp first ss pos h
    omega
  | succ fuel ih =>
    intro m br fp first ss pos h
    by_cases hlt : pos < br.file_size
    · cases hread : brP_read_uint32 fp with
      | exits s => simp [br_read_blobs_loop, hlt, hread]
      | undefined => simp [br_read_blobs_loop, hlt, hread]
      | outOfFuel =>
        exact absurd hread (brP_read_uint32_ne_outOfFuel fp)
      | returns a =>
        obtain ⟨size, fp1⟩ := a
        cases hm : m 0 with
        | false => simp [br_read_blobs_loop, hlt, hread, hm]
        | true =>
          rw [br_read_blobs_loop_step m fuel br fp fp1 first ss pos size hlt hread hm]
          apply ih
          simp only
          omega
    · rw [br_read_blobs_loop_done m fuel br fp first ss pos hlt]
      split_ifs <;> simp

theorem br_read_blobs_loop_bound (fuel : Nat) :
    ∀ (m : Nat → Bool) (br : BundleReader) (fp : FILE) (first : Bool) (ss pos : Nat)
      (code : Int) (r : BundleReader),
      br_read_blobs_loop m fuel br fp first ss pos = .returns (code, r) →
      r.blob_count ≤ br.blob_count + ((br.file_size - pos + 3) / 4 : Nat) ∧
        ((first = true → br.blobs = []) →
          r.blobs.length ≤ br.blobs.length + (br.file_size - pos + 3) / 4) := by
  induction fuel with
  | zero =>
    intro m br fp first ss pos code r h
    simp [br_read_blobs_loop] at h
  | succ fuel ih =>
    intro m br fp first ss pos code r h
    by_cases hlt : pos < br.file_size
    · cases hread : brP_read_uint32 fp with
      | exits s => rw [br_read_blobs_loop] at h; simp [hlt, hread] at h
      | undefined => rw [br_read_blobs_loop] at h; simp [hlt, hread] at h
      | outOfFuel => rw [br_read_blobs_loop] at h; simp [hlt, hread] at h
      | returns a =>
        obtain ⟨size, fp1⟩ := a
        cases hm : m 0 with
        | false =>
          rw [br_read_blobs_loop] at h
          simp only [hlt, hread, hm, if_true, Bool.not_false, Exec.returns.injEq,
            Prod.mk.injEq] at h
          obtain ⟨-, hr⟩ := h
          subst hr
          simp only [br_destroy_blobs, List.length_nil]
          exact ⟨by omega, fun _ => by omega⟩
        | true =>
          rw [br_read_blobs_loop_step m fuel br fp fp1 first ss pos size hlt hread hm] at h
          obtain ⟨h1, h2⟩ := ih _ _ _ _ _ _ code r h
          replace h1 : r.blob_count
              ≤ br.blob_count + 1 + ((br.file_size - (pos + 4 + size) + 3) / 4 : Nat) := h1
          replace h2 : r.blobs.length
              ≤ (if first = true then [(⟨size, pos + 4⟩ : BundleBlob)]
                  else br.blobs ++ [⟨size, pos + 4⟩]).length
                + (br.file_size - (pos + 4 + size) + 3) / 4 := h2 (by simp)
          refine ⟨by omega, fun hfirst => ?_⟩
          have hlen : (if first = true then [(⟨size, pos + 4⟩ : BundleBlob)]
              else br.blobs ++ [⟨size, pos + 4⟩]).length = br.blobs.length + 1 := by
            cases first with
            | true => simp [hfirst rfl]
            | false => simp
          rw [hlen] at h2
          omega
    · rw [br_read_blobs_loop_done m fuel br fp first ss pos hlt] at h
      split_ifs at h
      · simp only [Exec.returns.injEq, Prod.mk.injEq] at h
        obtain ⟨-, hr⟩ := h
        subst hr
        simp only [br_destroy_blobs, List.length_nil]
        exact ⟨by omega, fun _ => by omega⟩
      · simp only [Exec.returns.injEq, Prod.mk.injEq] at h
        obtain ⟨-, hr⟩ := h
        subst hr
        exact ⟨by omega, fun _ => by omega⟩

theorem brP_read_uint32_exits (fp : FILE) (s : Nat) (h : brP_read_uint32 fp = .exits s) :
    s = EXIT_FAILURE := by
  by_cases hl : fp.pos + 4 ≤ fp.bytes.length
  · rw [brP_read_uint32_ok fp hl] at h
    cases h
  · rw [brP_read_uint32_short fp (by omega)] at h
    cases h
    rfl

theorem br_read_blobs_loop_outcome (fuel : Nat) :
    ∀ (m : Nat → Bool) (br : BundleReader) (fp : FILE) (first : Bool) (ss pos : Nat),
      br_read_blobs_loop m fuel br fp first ss pos = .outOfFuel ∨
      (∃ code r, br_read_blobs_loop m fuel br fp first ss pos = .returns (code, r)) ∨
      br_read_blobs_loop m fuel br fp first ss pos = .exits EXIT_FAILURE := by
  induction fuel with
  | zero =>
    intro m br fp first ss pos
    exact Or.inl rfl
  | succ fuel ih =>
    intro m br fp first ss pos
    by_cases hlt : pos < br.file_size
    · cases hread : brP_read_uint32 fp with
      | exits s =>
        have hs := brP_read_uint32_exits fp s hread
        subst hs
        exact Or.inr (Or.inr (by simp [br_read_blobs_loop, hlt, hread]))
      | undefined =>
        by_cases hl : fp.pos + 4 ≤ fp.bytes.length
        · rw [brP_read_uint32_ok fp hl] at hread
          cases hread
        · rw [brP_read_uint32_short fp (by omega)] at hread
          cases hread
      | outOfFuel => exact absurd hread (brP_read_uint32_ne_outOfFuel fp)
      | returns a =>
        obtain ⟨size, fp1⟩ := a
        cases hm : m 0 with
        | false =>
          refine Or.inr (Or.inl ?_)
          rw [br_read_blobs_loop]
          simp only [hlt, hread, hm, if_true, Bool.not_false]
          exact ⟨_, _, rfl⟩
        | true =>
          rw [br_read_blobs_loop_step m fuel br fp fp1 first ss pos size hlt hread hm]
          exact ih _ _ _ _ _ _
    · rw [br_read_blobs_loop_done m fuel br fp first ss pos hlt]
      split_ifs
      · exact Or.inr (Or.inl ⟨_, _, rfl⟩)
      · exact Or.inr (Or.inl ⟨_, _, rfl⟩)

/-- C23: the blob scan terminates, whatever the file size, the contents of the
file and the allocation results: `br_read_blobs` returns a code or ends the
process in the `ASSERT` of a short read.  The loop test runs at most
`scan_bound file_size + 1` times, that is the body at most
`ceil((file_size - 12) / 4)` times (not at all for `file_size ≤ 12`): every such
budget gives the result of `br_read_blobs`.  An iteration that goes on moves
`position` forward by `4 + size`, at least 4 bytes.  A scan that returns has
added at most `scan_bound file_size` to `blob_count`, and from an empty list it
leaves at most that many blobs. -/
theorem C23_scan_terminates (m : Nat → Bool) (br : BundleReader) (fp : FILE)
    (hfp : br.fp = some fp) :
    ((∃ code r, br_read_blobs m br = .returns (code, r)) ∨
      br_read_blobs m br = .exits EXIT_FAILURE) ∧
    (∀ fuel, scan_bound br.file_size + 1 ≤ fuel →
      br_read_blobs_loop m fuel { br with fp := some (fseek_set fp BR_HEADER_SIZE) }
        (fseek_set fp BR_HEADER_SIZE) true 0 BR_HEADER_SIZE = br_read_blobs m br) ∧
    (br.file_size ≤ 12 → scan_bound br.file_size = 0) ∧
    (12 ≤ br.file_size → br.file_size - 12 ≤ 4 * scan_bound br.file_size ∧
      4 * scan_bound br.file_size < br.file_size - 12 + 4) ∧
    (∀ code r, br_read_blobs m br = .returns (code, r) →
      r.blob_count ≤ br.blob_count + scan_bound br.file_size ∧
      (br.blobs = [] → r.blobs.length ≤ scan_bound br.file_size)) ∧
    (∀ (fuel : Nat) (br1 : BundleReader) (fp1 fp2 : FILE) (first : Bool) (ss pos size : Nat),
      pos < br1.file_size → brP_read_uint32 fp1 = .returns (size, fp2) → m 0 = true →
      ∃ br2, br2.file_size = br1.file_size ∧ pos + 4 ≤ pos + 4 + size ∧
        br_read_blobs_loop m (fuel + 1) br1 fp1 first ss pos =
          br_read_blobs_loop (fun i => m (i + 1)) fuel br2 (fseek_cur fp2 size) false
            ((ss + size) % 2 ^ 32) (pos + 4 + size)) := by
  have htotal : ∀ fuel, scan_bound br.file_size + 1 ≤ fuel →
      br_read_blobs_loop m fuel { br with fp := some (fseek_set fp BR_HEADER_SIZE) }
        (fseek_set fp BR_HEADER_SIZE) true 0 BR_HEADER_SIZE ≠ .outOfFuel := fun fuel hf =>
    br_read_blobs_loop_total fuel m _ _ true 0 BR_HEADER_SIZE hf
  have hrun : br_read_blobs m br =
      br_read_blobs_loop m (br.file_size + 1) { br with fp := some (fseek_set fp BR_HEADER_SIZE) }
        (fseek_set fp BR_HEADER_SIZE) true 0 BR_HEADER_SIZE := by
    simp only [br_read_blobs, hfp]
  have hle : scan_bound br.file_size + 1 ≤ br.file_size + 1 := by
    unfold scan_bound
    omega
  refine ⟨?_, ?_, ?_, ?_, ?_, ?_⟩
  · rw [hrun]
    rcases br_read_blobs_loop_outcome (br.file_size + 1) m
        { br with fp := some (fseek_set fp BR_HEADER_SIZE) }
        (fseek_set fp BR_HEADER_SIZE) true 0 BR_HEADER_SIZE with h | h | h
    · exact absurd h (htotal _ hle)
    · exact Or.inl h
    · exact Or.inr h
  · intro fuel hfuel
    obtain ⟨d1, rfl⟩ := Nat.exists_eq_add_of_le hfuel
    obtain ⟨d2, hd2⟩ := Nat.exists_eq_add_of_le hle
    rw [hrun, hd2, br_read_blobs_loop_add d1 _ m _ _ true 0 BR_HEADER_SIZE (htotal _ (le_refl _)),
      br_read_blobs_loop_add d2 _ m _ _ true 0 BR_HEADER_SIZE (htotal _ (le_refl _))]
  · intro h
    unfold scan_bound
    omega
  · intro h
    unfold scan_bound
    omega
  · intro code r h
    rw [hrun] at h
    obtain ⟨h1, h2⟩ := br_read_blobs_loop_bound _ m _ _ true 0 BR_HEADER_SIZE code r h
    refine ⟨h1, fun hb => ?_⟩
    have := h2 (fun _ => hb)
    simp only [hb, List.length_nil, Nat.zero_add] at this
    exact this
  · intro fuel br1 fp1 fp2 first ss pos size hlt hread hm
    exact ⟨{ br1 with
        fp := some (fseek_cur fp2 size),
        blobs := if first then [⟨size, pos + 4⟩] else br1.blobs ++ [⟨size, pos + 4⟩],
        blob_count := br1.blob_count + 1 }, rfl, Nat.le_add_right _ _,
      br_read_blobs_loop_step m fuel br1 fp1 fp2 first ss pos size hlt hread hm⟩

theorem C23_scan_terminates_witness :
    zero_reader.fp = some zero_stream ∧
    (((∃ code r, br_read_blobs (fun _ => true) zero_reader = .returns (code, r)) ∨
        br_read_blobs (fun _ => true) zero_reader = .exits EXIT_FAILURE) ∧
      (∀ fuel, scan_bound zero_reader.file_size + 1 ≤ fuel →
        br_read_blobs_loop (fun _ => true) fuel
          { zero_reader with fp := some (fseek_set zero_stream BR_HEADER_SIZE) }
          (fseek_set zero_stream BR_HEADER_SIZE) true 0 BR_HEADER_SIZE
          = br_read_blobs (fun _ => true) zero_reader) ∧
      (zero_reader.file_size ≤ 12 → scan_bound zero_reader.file_size = 0) ∧
      (12 ≤ zero_reader.file_size →
        zero_reader.file_size - 12 ≤ 4 * scan_bound zero_reader.file_size ∧
        4 * scan_bound zero_reader.file_size < zero_reader.file_size - 12 + 4) ∧
      (∀ code r, br_read_blobs (fun _ => true) zero_reader = .returns (code, r) →
        r.blob_count ≤ zero_reader.blob_count + scan_bound zero_reader.file_size ∧
        (zero_reader.blobs = [] → r.blobs.length ≤ scan_bound zero_reader.file_size)) ∧
      (∀ (fuel : Nat) (br1 : BundleReader) (fp1 fp2 : FILE) (first : Bool)
          (ss pos size : Nat),
        pos < br1.file_size → brP_read_uint32 fp1 = .returns (size, fp2) →
        (fun _ => true : Nat → Bool) 0 = true →
        ∃ br2, br2.file_size = br1.file_size ∧ pos + 4 ≤ pos + 4 + size ∧
          br_read_blobs_loop (fun _ => true) (fuel + 1) br1 fp1 first ss pos =
            br_read_blobs_loop (fun i => (fun _ => true : Nat → Bool) (i + 1)) fuel br2
              (fseek_cur fp2 size) false ((ss + size) % 2 ^ 32) (pos + 4 + size))) ∧
    (zero_reader.file_size = 24 ∧ scan_bound zero_reader.file_size = 3) ∧
    br_read_blobs (fun _ => true) zero_reader
      = .returns (EC_OK,
          { zero_reader with
            fp := some ⟨sample_zero_blobs, 24, false⟩,
            blobs := [⟨0, 16⟩, ⟨0, 20⟩, ⟨0, 24⟩], blob_count := 3 }) ∧
    br_read_blobs_loop (fun _ => true) 3
        { zero_reader with fp := some (fseek_set zero_stream BR_HEADER_SIZE) }
        (fseek_set zero_stream BR_HEADER_SIZE) true 0 BR_HEADER_SIZE = .outOfFuel :=
  ⟨rfl, C23_scan_terminates (fun _ => true) zero_reader zero_stream rfl,
    by decide, by decide, by decide⟩

end Vermin
